import Mathlib

/- Verification development for the puzzle-solver repository: shallow embeddings of
   the day 12 arrangement counter (`count_arrangements`), the day 14 rock-sliding
   simulation (`slide`, `spin_cycle`, `part2`) and the day 17 constrained
   shortest-path search (`parse_grid`, `min_heat_loss`), together with proofs of
   the specified properties.

   Machine-integer conventions: `u8`/`usize` values are modelled as `Nat`.
   Where a subtraction can underflow, it is modelled explicitly (see `usizeSub`);
   release-mode wrapping semantics are used for `usize` arithmetic. -/

set_option maxHeartbeats 1000000

/-! ## Day 12: arrangement counting (`day12.rs`) -/

inductive SpringStatus where
  | working
  | broken
  | unknown
deriving DecidableEq, Repr

/-- One input row: the cell sequence and the required run lengths
(`struct Row` in `day12.rs`). -/
structure Row where
  springs : List SpringStatus
  blocks : List Nat
deriving DecidableEq, Repr

/-- Wrapping subtraction of `usize` values (release-mode semantics):
`a - b` wraps around modulo `2 ^ 64` when `b > a` (on the `usize` domain
`a, b < 2 ^ 64` this agrees with `(a + 2 ^ 64 - b) % 2 ^ 64`). In `rec_inner`
it is applied as `blocks[0] - 1`, which only wraps when a run length of `0`
appears in the block list. -/
def usizeSub (a b : Nat) : Nat := if b ≤ a then a - b else a + 2 ^ 64 - b

/-- Tries to remove the first `n` springs from the front of the list, failing if
any of them are working or if the list is too short; otherwise returns the rest
of the list. Mirrors `munch_not_working` in `day12.rs`. -/
def munchNotWorking (springs : List SpringStatus) (n : Nat) : Option (List SpringStatus) :=
  if springs.length < n then none
  else if SpringStatus.working ∈ springs.take n then none
  else some (springs.drop n)

theorem munchNotWorking_length {s : List SpringStatus} {n : Nat} {r : List SpringStatus}
    (h : munchNotWorking s n = some r) : r.length ≤ s.length := by
  unfold munchNotWorking at h
  split at h
  · exact absurd h (by simp)
  · split at h
    · exact absurd h (by simp)
    · cases h
      simp [List.length_drop]

/-- The recursive arrangement counter, mirroring `rec_inner` in `day12.rs`.
The leading-`working` stripping loop of the source is the `dropWhile`; the
memoization cache of the source is omitted, because `rec`/`rec_inner` compute a
pure function of the `(springs, blocks)` pair and the cache only short-circuits
recomputation of that same pure function. The `fuel` argument only bounds the
recursion depth: every recursive call of the source strictly shortens
`springs`, so with `fuel > springs.length` the out-of-fuel branch is
unreachable (made precise by `recInnerF_le_fuel_irrelevant` below). -/
def recInnerF : Nat → List SpringStatus → List Nat → Nat
  | 0, _, _ => 0
  | fuel + 1, springs, blocks =>
    -- If the blocks require more broken springs than there are total springs,
    -- there are no arrangements.
    if springs.length + 1 < blocks.sum + blocks.length then 0
    else
      -- Find the first non-working spring, or return `blocks.isEmpty` if none.
      match springs.dropWhile (fun s => decide (s = SpringStatus.working)) with
      | [] => if blocks.isEmpty then 1 else 0
      | head :: rest =>
        match blocks with
        | [] =>
          -- no blocks: an arrangement exists only if no spring is broken
          if SpringStatus.broken ∈ head :: rest then 0 else 1
        | n :: bs =>
          if head = SpringStatus.broken then
            -- the first spring is broken: munch the entire first block
            match munchNotWorking rest (usizeSub n 1) with
            | none => 0
            | some r =>
              match r with
              | [] => if bs.isEmpty then 1 else 0
              | SpringStatus.broken :: _ => 0
              | _ :: rest2 => recInnerF fuel rest2 bs
          else
            -- here the source knows `head == Unknown`
            -- count possibilities where the spring is working
            let aw := recInnerF fuel rest (n :: bs)
            -- count possibilities where the spring is broken
            if n = 1 then
              match rest with
              | [] => aw + (if bs.isEmpty then 1 else 0)
              | SpringStatus.broken :: _ => aw
              | _ :: rest2 => aw + recInnerF fuel rest2 bs
            else
              match munchNotWorking rest (usizeSub n 1) with
              | none => aw
              | some r =>
                match r with
                | [] => aw + (if bs.isEmpty then 1 else 0)
                | SpringStatus.broken :: _ => aw
                | _ :: rest2 => aw + recInnerF fuel rest2 bs

/-- The arrangement counter on a `(springs, blocks)` pair (`rec` / `rec_inner`
in `day12.rs`): the fuel `springs.length + 1` is enough for the whole
recursion. -/
def recInner (springs : List SpringStatus) (blocks : List Nat) : Nat :=
  recInnerF (springs.length + 1) springs blocks

/-- The top-level counter for one row (`count_arrangements` in `day12.rs`). -/
def countArrangements (row : Row) : Nat := recInner row.springs row.blocks

/-- All ways to resolve the unknown cells of a row: each resolution is the list
of booleans (`true` = broken/filled) for the whole row, forced cells keeping
their tag. -/
def resolutions : List SpringStatus → List (List Bool)
  | [] => [[]]
  | s :: rest =>
    let tails := resolutions rest
    match s with
    | SpringStatus.working => tails.map (fun t => false :: t)
    | SpringStatus.broken => tails.map (fun t => true :: t)
    | SpringStatus.unknown => tails.map (fun t => false :: t) ++ tails.map (fun t => true :: t)

/-- The maximal runs of `true` (broken/filled) cells of a resolved row, in order. -/
def brokenRuns : List Bool → List Nat
  | [] => []
  | false :: rest => brokenRuns rest
  | true :: rest => ((rest.takeWhile id).length + 1) :: brokenRuns (rest.dropWhile id)
termination_by l => l.length
decreasing_by
  all_goals simp only [List.length_cons]
  · omega
  · have := (List.dropWhile_sublist id (l := rest)).length_le
    omega

/-- The brute-force count: the number of resolutions of the unknown cells whose
maximal broken runs match the block list exactly. -/
def bruteCount (springs : List SpringStatus) (blocks : List Nat) : Nat :=
  (resolutions springs).countP (fun r => decide (brokenRuns r = blocks))

theorem resolutions_length : ∀ {springs : List SpringStatus} {t : List Bool},
    t ∈ resolutions springs → t.length = springs.length := by
  intro springs
  induction springs with
  | nil =>
    intro t ht
    simp only [resolutions, List.mem_singleton] at ht
    simp [ht]
  | cons s rest ih =>
    intro t ht
    cases s <;> simp only [resolutions, List.mem_map, List.mem_append] at ht
    · obtain ⟨u, hu, rfl⟩ := ht
      simp [ih hu]
    · obtain ⟨u, hu, rfl⟩ := ht
      simp [ih hu]
    · rcases ht with ⟨u, hu, rfl⟩ | ⟨u, hu, rfl⟩ <;> simp [ih hu]

theorem brokenRuns_false (t : List Bool) : brokenRuns (false :: t) = brokenRuns t := by
  simp [brokenRuns]

theorem brokenRuns_true (t : List Bool) :
    brokenRuns (true :: t) = ((t.takeWhile id).length + 1) :: brokenRuns (t.dropWhile id) := by
  simp [brokenRuns]

theorem bruteCount_nil (blocks : List Nat) :
    bruteCount [] blocks = if blocks = [] then 1 else 0 := by
  simp only [bruteCount, resolutions, List.countP_cons, List.countP_nil, brokenRuns]
  by_cases h : blocks = [] <;> simp [h]

theorem bruteCount_working (s : List SpringStatus) (b : List Nat) :
    bruteCount (SpringStatus.working :: s) b = bruteCount s b := by
  simp only [bruteCount, resolutions, List.countP_map]
  apply List.countP_congr
  intro t _
  simp [Function.comp, brokenRuns_false]

theorem bruteCount_broken_countP (s : List SpringStatus) (b : List Nat) :
    bruteCount (SpringStatus.broken :: s) b
      = (resolutions s).countP (fun t => decide (brokenRuns (true :: t) = b)) := by
  simp only [bruteCount, resolutions, List.countP_map]
  apply List.countP_congr
  intro t _
  simp [Function.comp]

theorem bruteCount_unknown (s : List SpringStatus) (b : List Nat) :
    bruteCount (SpringStatus.unknown :: s) b
      = bruteCount s b + bruteCount (SpringStatus.broken :: s) b := by
  rw [bruteCount_broken_countP]
  simp only [bruteCount, resolutions, List.countP_append, List.countP_map]
  congr 1
  apply List.countP_congr
  intro t _
  simp [Function.comp, brokenRuns_false]

theorem bruteCount_no_blocks (s : List SpringStatus) :
    bruteCount s [] = if SpringStatus.broken ∈ s then 0 else 1 := by
  induction s with
  | nil => simp [bruteCount_nil]
  | cons c rest ih =>
    cases c
    · rw [bruteCount_working, ih]
      simp
    · have h0 : bruteCount (SpringStatus.broken :: rest) [] = 0 := by
        rw [bruteCount_broken_countP]
        apply List.countP_eq_zero.mpr
        intro t _
        simp [brokenRuns_true]
      rw [h0]
      simp
    · rw [bruteCount_unknown, ih]
      have h0 : bruteCount (SpringStatus.broken :: rest) [] = 0 := by
        rw [bruteCount_broken_countP]
        apply List.countP_eq_zero.mpr
        intro t _
        simp [brokenRuns_true]
      rw [h0]
      simp

theorem bruteCount_dropWhile (s : List SpringStatus) (b : List Nat) :
    bruteCount s b
      = bruteCount (s.dropWhile (fun c => decide (c = SpringStatus.working))) b := by
  induction s with
  | nil => simp
  | cons c rest ih =>
    by_cases h : c = SpringStatus.working
    · subst h
      rw [show (SpringStatus.working :: rest).dropWhile
            (fun c => decide (c = SpringStatus.working))
            = rest.dropWhile (fun c => decide (c = SpringStatus.working)) from by
          simp [List.dropWhile_cons]]
      rw [bruteCount_working, ih]
    · rw [show (c :: rest).dropWhile (fun c => decide (c = SpringStatus.working))
            = c :: rest from by simp [List.dropWhile_cons, h]]

theorem brokenRuns_bound_aux : ∀ t : List Bool,
    (brokenRuns t).sum + (brokenRuns t).length
      ≤ t.length + (if t.head? = some true then 1 else 0) := by
  intro t
  induction t using brokenRuns.induct with
  | case1 => simp [brokenRuns]
  | case2 rest ih =>
    rw [brokenRuns_false]
    simp only [List.head?_cons, List.length_cons]
    have hle : (if rest.head? = some true then 1 else 0) ≤ 1 := by split <;> omega
    rw [if_neg (show ¬ ((some false : Option Bool) = some true) by simp)]
    omega
  | case3 rest ih =>
    rw [brokenRuns_true]
    simp only [List.sum_cons, List.length_cons, List.head?_cons]
    rw [if_pos (by simp)]
    have htw : (rest.takeWhile id).length + (rest.dropWhile id).length = rest.length := by
      rw [← List.length_append, List.takeWhile_append_dropWhile]
    have hkey : (brokenRuns (rest.dropWhile id)).sum
        + (brokenRuns (rest.dropWhile id)).length ≤ (rest.dropWhile id).length := by
      by_cases hd : rest.dropWhile id = []
      · simp [hd, brokenRuns]
      · have hh := List.head_dropWhile_not id rest hd
        have hne : ¬ ((rest.dropWhile id).head? = some true) := by
          rw [List.head?_eq_head hd]
          simp only [Option.some.injEq]
          intro hcon
          rw [hcon] at hh
          simp at hh
        rw [if_neg hne] at ih
        omega
    omega

/-- The total length needed by a run list: the runs plus the mandatory
separating gaps always fit into the resolved row. -/
theorem brokenRuns_bound (t : List Bool) :
    (brokenRuns t).sum + (brokenRuns t).length ≤ t.length + 1 := by
  have h := brokenRuns_bound_aux t
  have : (if t.head? = some true then 1 else 0) ≤ 1 := by split <;> omega
  omega

theorem bruteCount_prune {s : List SpringStatus} {b : List Nat}
    (h : s.length + 1 < b.sum + b.length) : bruteCount s b = 0 := by
  apply List.countP_eq_zero.mpr
  intro t ht
  simp only [decide_eq_true_eq]
  intro hb
  have hbd := brokenRuns_bound t
  rw [hb, resolutions_length ht] at hbd
  omega


theorem brokenRuns_singleton_true : brokenRuns [true] = [1] := by
  simp [brokenRuns]

theorem brokenRuns_true_cons_false (t : List Bool) :
    brokenRuns (true :: false :: t) = 1 :: brokenRuns t := by
  rw [brokenRuns_true]
  simp [List.takeWhile_cons, List.dropWhile_cons, brokenRuns_false]

theorem brokenRuns_true_cons_true (t : List Bool) :
    brokenRuns (true :: true :: t)
      = ((t.takeWhile id).length + 2) :: brokenRuns (t.dropWhile id) := by
  rw [brokenRuns_true]
  simp [List.takeWhile_cons, List.dropWhile_cons]

theorem munchNotWorking_zero (s : List SpringStatus) : munchNotWorking s 0 = some s := by
  unfold munchNotWorking
  simp

theorem munchNotWorking_working_head (s : List SpringStatus) (n : Nat) :
    munchNotWorking (SpringStatus.working :: s) (n + 1) = none := by
  unfold munchNotWorking
  split
  · rfl
  · rw [if_pos]
    simp [List.take_succ_cons]

theorem munchNotWorking_cons {c : SpringStatus} (hc : ¬ c = SpringStatus.working)
    (s : List SpringStatus) (n : Nat) :
    munchNotWorking (c :: s) (n + 1) = munchNotWorking s n := by
  unfold munchNotWorking
  by_cases h1 : s.length < n
  · rw [if_pos (by simpa using h1), if_pos h1]
  · rw [if_neg (by simpa using h1), if_neg h1]
    by_cases h2 : SpringStatus.working ∈ s.take n
    · rw [if_pos (by simp only [List.take_succ_cons, List.mem_cons]; exact Or.inr h2),
        if_pos h2]
    · rw [if_neg ?hneg, if_neg h2]
      · simp [List.drop_succ_cons]
      case hneg =>
        simp only [List.take_succ_cons, List.mem_cons]
        rintro (h | h)
        · exact hc h.symm
        · exact h2 h

theorem bruteCount_broken_nil (m : Nat) (bs : List Nat) :
    bruteCount [SpringStatus.broken] (m :: bs)
      = if m = 1 ∧ bs = [] then 1 else 0 := by
  rw [bruteCount_broken_countP]
  simp only [resolutions, List.countP_cons, List.countP_nil, brokenRuns_singleton_true]
  by_cases h1 : m = 1
  · subst h1
    by_cases h2 : bs = [] <;> simp [h2]
  · have hne : ¬ (([1] : List Nat) = m :: bs) := by
      intro h
      exact h1 ((List.cons.injEq .. |>.mp h).1.symm)
    simp [h1, hne]

theorem bruteCount_broken_working (m : Nat) (s : List SpringStatus) (bs : List Nat) :
    bruteCount (SpringStatus.broken :: SpringStatus.working :: s) (m :: bs)
      = if m = 1 then bruteCount s bs else 0 := by
  rw [bruteCount_broken_countP]
  simp only [resolutions, List.countP_map]
  by_cases h1 : m = 1
  · subst h1
    rw [if_pos rfl]
    apply List.countP_congr
    intro t _
    simp [Function.comp, brokenRuns_true_cons_false]
  · rw [if_neg h1]
    apply List.countP_eq_zero.mpr
    intro t _
    simp only [Function.comp, brokenRuns_true_cons_false, decide_eq_true_eq]
    intro hcon
    exact h1 ((List.cons.injEq .. |>.mp hcon).1.symm)

theorem bruteCount_broken_broken_one (s : List SpringStatus) (bs : List Nat) :
    bruteCount (SpringStatus.broken :: SpringStatus.broken :: s) (1 :: bs) = 0 := by
  rw [bruteCount_broken_countP]
  simp only [resolutions, List.countP_map]
  apply List.countP_eq_zero.mpr
  intro t _
  simp only [Function.comp, brokenRuns_true_cons_true, decide_eq_true_eq]
  intro hcon
  have := (List.cons.injEq .. |>.mp hcon).1
  omega

theorem bruteCount_broken_unknown_one (s : List SpringStatus) (bs : List Nat) :
    bruteCount (SpringStatus.broken :: SpringStatus.unknown :: s) (1 :: bs)
      = bruteCount s bs := by
  rw [bruteCount_broken_countP]
  simp only [resolutions, List.countP_append, List.countP_map]
  have hfalse : (resolutions s).countP
      ((fun t => decide (brokenRuns (true :: t) = 1 :: bs)) ∘ (fun t => false :: t))
      = bruteCount s bs := by
    apply List.countP_congr
    intro t _
    simp [Function.comp, brokenRuns_true_cons_false]
  have htrue : (resolutions s).countP
      ((fun t => decide (brokenRuns (true :: t) = 1 :: bs)) ∘ (fun t => true :: t)) = 0 := by
    apply List.countP_eq_zero.mpr
    intro t _
    simp only [Function.comp, brokenRuns_true_cons_true, decide_eq_true_eq]
    intro hcon
    have := (List.cons.injEq .. |>.mp hcon).1
    omega
  rw [hfalse, htrue]
  simp

theorem bruteCount_broken_shift {c : SpringStatus} (hc : ¬ c = SpringStatus.working)
    (m : Nat) (s : List SpringStatus) (bs : List Nat) :
    bruteCount (SpringStatus.broken :: c :: s) ((m + 2) :: bs)
      = bruteCount (SpringStatus.broken :: s) ((m + 1) :: bs) := by
  rw [bruteCount_broken_countP, bruteCount_broken_countP]
  cases c
  · exact absurd rfl hc
  · simp only [resolutions, List.countP_map]
    apply List.countP_congr
    intro t _
    simp only [Function.comp, decide_eq_true_eq]
    rw [brokenRuns_true_cons_true, brokenRuns_true]
    constructor
    · intro h
      have h1 := (List.cons.injEq .. |>.mp h).1
      have h2 := (List.cons.injEq .. |>.mp h).2
      rw [h2]
      congr 1
      omega
    · intro h
      have h1 := (List.cons.injEq .. |>.mp h).1
      have h2 := (List.cons.injEq .. |>.mp h).2
      rw [h2]
      congr 1
      omega
  · simp only [resolutions, List.countP_append, List.countP_map]
    have hfalse : (resolutions s).countP
        ((fun t => decide (brokenRuns (true :: t) = (m + 2) :: bs)) ∘ (fun t => false :: t))
        = 0 := by
      apply List.countP_eq_zero.mpr
      intro t _
      simp only [Function.comp, brokenRuns_true_cons_false, decide_eq_true_eq]
      intro hcon
      have := (List.cons.injEq .. |>.mp hcon).1
      omega
    have htrue : (resolutions s).countP
        ((fun t => decide (brokenRuns (true :: t) = (m + 2) :: bs)) ∘ (fun t => true :: t))
        = (resolutions s).countP (fun t => decide (brokenRuns (true :: t) = (m + 1) :: bs)) := by
      apply List.countP_congr
      intro t _
      simp only [Function.comp, decide_eq_true_eq]
      rw [brokenRuns_true_cons_true, brokenRuns_true]
      constructor
      · intro h
        have h1 := (List.cons.injEq .. |>.mp h).1
        have h2 := (List.cons.injEq .. |>.mp h).2
        rw [h2]
        congr 1
        omega
      · intro h
        have h1 := (List.cons.injEq .. |>.mp h).1
        have h2 := (List.cons.injEq .. |>.mp h).2
        rw [h2]
        congr 1
        omega
    rw [hfalse, htrue]
    simp

/-- Characterization of the brute-force count for a broken head cell: it is
exactly the value that `rec_inner` computes by munching the first block. -/
theorem bruteCount_broken_succ : ∀ (n : Nat) (s : List SpringStatus) (bs : List Nat),
    bruteCount (SpringStatus.broken :: s) ((n + 1) :: bs)
      = match munchNotWorking s n with
        | none => 0
        | some [] => if bs.isEmpty then 1 else 0
        | some (SpringStatus.broken :: _) => 0
        | some (_ :: rest2) => bruteCount rest2 bs := by
  intro n
  induction n with
  | zero =>
    intro s bs
    rw [munchNotWorking_zero]
    cases s with
    | nil =>
      rw [bruteCount_broken_nil]
      by_cases h : bs = [] <;> simp [h]
    | cons c s' =>
      cases c
      · rw [bruteCount_broken_working]
        simp
      · exact bruteCount_broken_broken_one s' bs
      · exact bruteCount_broken_unknown_one s' bs
  | succ n ih =>
    intro s bs
    cases s with
    | nil =>
      rw [show munchNotWorking [] (n + 1) = none from by unfold munchNotWorking; simp]
      rw [bruteCount_broken_nil]
      simp
    | cons c s' =>
      cases c
      · rw [munchNotWorking_working_head]
        rw [bruteCount_broken_working]
        simp
      · rw [munchNotWorking_cons (by simp) s' n]
        rw [bruteCount_broken_shift (by simp)]
        exact ih s' bs
      · rw [munchNotWorking_cons (by simp) s' n]
        rw [bruteCount_broken_shift (by simp)]
        exact ih s' bs

theorem bruteCount_broken_zero_block (s : List SpringStatus) (bs : List Nat) :
    bruteCount (SpringStatus.broken :: s) (0 :: bs) = 0 := by
  rw [bruteCount_broken_countP]
  apply List.countP_eq_zero.mpr
  intro t _
  simp only [brokenRuns_true, decide_eq_true_eq]
  intro hcon
  have := (List.cons.injEq .. |>.mp hcon).1
  omega

theorem usizeSub_succ_one (n : Nat) : usizeSub (n + 1) 1 = n := by
  unfold usizeSub
  rw [if_pos (by omega)]
  omega

theorem usizeSub_zero_one : usizeSub 0 1 = 2 ^ 64 - 1 := by
  unfold usizeSub
  norm_num

theorem dropWhile_working_head_ne : ∀ {springs : List SpringStatus} {head : SpringStatus}
    {rest : List SpringStatus},
    springs.dropWhile (fun s => decide (s = SpringStatus.working)) = head :: rest →
    ¬ head = SpringStatus.working := by
  intro springs
  induction springs with
  | nil =>
    intro head rest h
    simp [List.dropWhile] at h
  | cons c s ih =>
    intro head rest h
    by_cases hc : c = SpringStatus.working
    · subst hc
      rw [show (SpringStatus.working :: s).dropWhile (fun s => decide (s = SpringStatus.working))
            = s.dropWhile (fun s => decide (s = SpringStatus.working)) from by
          simp [List.dropWhile_cons]] at h
      exact ih h
    · rw [show (c :: s).dropWhile (fun s => decide (s = SpringStatus.working)) = c :: s from by
          simp [List.dropWhile_cons, hc]] at h
      injection h with h1 h2
      subst h1
      exact hc

/-- The first run of a resolved row fits into the row. -/
theorem brokenRuns_head_le : ∀ (t : List Bool) (n : Nat) (bs : List Nat),
    brokenRuns t = n :: bs → n ≤ t.length := by
  intro t
  induction t using brokenRuns.induct with
  | case1 => intro n bs h; simp [brokenRuns] at h
  | case2 rest ih =>
    intro n bs h
    rw [brokenRuns_false] at h
    have := ih n bs h
    simp only [List.length_cons]
    omega
  | case3 rest ih =>
    intro n bs h
    rw [brokenRuns_true] at h
    have := (List.takeWhile_sublist (p := id) (l := rest)).length_le
    simp only [List.length_cons]
    cases h
    omega

/-- Main equivalence for day 12: `rec_inner` computes the brute-force count.
The length hypothesis reflects the Rust guarantee that a slice length is at
most `isize::MAX < 2 ^ 63` (it matters only because a zero run length makes the
source munch `0usize - 1` wrapped cells, which must fail). -/
theorem recInnerF_eq_bruteCount : ∀ (fuel : Nat) (springs : List SpringStatus)
    (blocks : List Nat), springs.length < fuel → springs.length < 2 ^ 63 →
    recInnerF fuel springs blocks = bruteCount springs blocks := by
  intro fuel
  induction fuel with
  | zero =>
    intro springs blocks h _
    omega
  | succ fuel ih =>
    intro springs blocks hf hlen
    have hsub := (List.dropWhile_sublist
      (fun s => decide (s = SpringStatus.working)) (l := springs)).length_le
    simp only [recInnerF]
    by_cases hp : springs.length + 1 < blocks.sum + blocks.length
    · rw [if_pos hp, bruteCount_prune hp]
    · rw [if_neg hp]
      rw [bruteCount_dropWhile springs blocks]
      rcases hdw : springs.dropWhile (fun s => decide (s = SpringStatus.working))
        with _ | ⟨head, rest⟩
      · rw [bruteCount_nil]
        by_cases hb : blocks = [] <;> simp [hb]
      · rw [hdw] at hsub
        simp only [List.length_cons] at hsub
        have hrest_f : rest.length < fuel := by omega
        have hrest_l : rest.length < 2 ^ 63 := by omega
        have hhead := dropWhile_working_head_ne hdw
        rcases blocks with _ | ⟨n, bs⟩
        · dsimp only
          rw [bruteCount_no_blocks]
        · dsimp only
          by_cases hbr : head = SpringStatus.broken
          · subst hbr
            rw [if_pos rfl]
            rcases n with _ | m
            · rw [usizeSub_zero_one]
              rw [show munchNotWorking rest (2 ^ 64 - 1) = none from by
                unfold munchNotWorking
                rw [if_pos (by omega)]]
              rw [bruteCount_broken_zero_block]
            · rw [usizeSub_succ_one]
              rw [bruteCount_broken_succ m rest bs]
              rcases hm : munchNotWorking rest m with _ | r
              · rfl
              · have hrlen := munchNotWorking_length hm
                rcases r with _ | ⟨c, rest2⟩
                · rfl
                · rcases c with _ | _ | _
                  · simp only [List.length_cons] at hrlen
                    exact ih rest2 bs (by omega) (by omega)
                  · rfl
                  · simp only [List.length_cons] at hrlen
                    exact ih rest2 bs (by omega) (by omega)
          · rw [if_neg hbr]
            have hhu : head = SpringStatus.unknown := by
              cases head
              · exact absurd rfl hhead
              · exact absurd rfl hbr
              · rfl
            subst hhu
            rw [bruteCount_unknown]
            rw [← ih rest (n :: bs) hrest_f hrest_l]
            rcases n with _ | m
            · rw [if_neg (by omega)]
              rw [usizeSub_zero_one]
              rw [show munchNotWorking rest (2 ^ 64 - 1) = none from by
                unfold munchNotWorking
                rw [if_pos (by omega)]]
              rw [bruteCount_broken_zero_block]
              rfl
            · rcases m with _ | m2
              · rw [if_pos rfl]
                have h10 := bruteCount_broken_succ 0 rest bs
                rw [munchNotWorking_zero] at h10
                simp only [Nat.zero_add] at h10
                rw [h10]
                rcases rest with _ | ⟨c, rest2⟩
                · rfl
                · simp only [List.length_cons] at hrest_f hrest_l
                  rcases c with _ | _ | _
                  · exact congrArg (HAdd.hAdd _) (ih rest2 bs (by omega) (by omega))
                  · rfl
                  · exact congrArg (HAdd.hAdd _) (ih rest2 bs (by omega) (by omega))
              · rw [if_neg (by omega)]
                rw [usizeSub_succ_one]
                rw [bruteCount_broken_succ (m2 + 1) rest bs]
                rcases hm : munchNotWorking rest (m2 + 1) with _ | r
                · rfl
                · have hrlen := munchNotWorking_length hm
                  rcases r with _ | ⟨c, rest2⟩
                  · rfl
                  · rcases c with _ | _ | _
                    · simp only [List.length_cons] at hrlen
                      exact congrArg (HAdd.hAdd _) (ih rest2 bs (by omega) (by omega))
                    · rfl
                    · simp only [List.length_cons] at hrlen
                      exact congrArg (HAdd.hAdd _) (ih rest2 bs (by omega) (by omega))

/-- C2: for every row and every run-length list (the row length kept below the
Rust slice bound `isize::MAX < 2 ^ 63`), `count_arrangements` returns exactly
the number of ways to resolve each unknown cell to empty or filled such that
the maximal filled runs of the resulting sequence match the run-length list
exactly, in order — the brute-force count over all `2 ^ #unknowns`
resolutions. -/
theorem count_arrangements_eq_brute_force (row : Row)
    (hlen : row.springs.length < 2 ^ 63) :
    countArrangements row = bruteCount row.springs row.blocks :=
  recInnerF_eq_bruteCount (row.springs.length + 1) row.springs row.blocks
    (Nat.lt_succ_self _) hlen

/-- Witness for `count_arrangements_eq_brute_force` at the row `????? 1,1`. -/
theorem count_arrangements_eq_brute_force_witness :
    (List.replicate 5 SpringStatus.unknown).length < 2 ^ 63 ∧
      countArrangements ⟨List.replicate 5 SpringStatus.unknown, [1, 1]⟩
        = bruteCount (List.replicate 5 SpringStatus.unknown) [1, 1] :=
  ⟨by decide, count_arrangements_eq_brute_force ⟨_, _⟩ (by decide)⟩

/-- C4 counterexample: `count_arrangements` on the row `????? 1,1` (five
unknown cells, blocks `[1, 1]`) does not return 2. -/
theorem c4_count_is_not_two :
    countArrangements ⟨List.replicate 5 SpringStatus.unknown, [1, 1]⟩ ≠ 2 := by
  decide

/-- C4 (amended): `count_arrangements` on the row `????? 1,1` returns exactly
6, which equals the brute-force count over all 32 resolutions (the six
resolutions `\x23.\x23..`, `\x23..\x23.`, `\x23...\x23`, `.\x23.\x23.`,
`.\x23..\x23`, `..\x23.\x23`). -/
theorem c4_count_is_six :
    countArrangements ⟨List.replicate 5 SpringStatus.unknown, [1, 1]⟩ = 6 ∧
      bruteCount (List.replicate 5 SpringStatus.unknown) [1, 1] = 6 := by
  constructor
  · decide
  · rw [← recInnerF_eq_bruteCount 6 _ _ (by decide) (by decide)]
    decide

/-! ## Day 17: constrained shortest-path search (`day17.rs`) -/

/-- The `usize::MAX` sentinel used for unvisited distances. -/
def MAXD : Nat := 2 ^ 64 - 1

/-- The cost grid of `day17.rs` (`struct Grid`): `width` and `height` are `u8`
values in the source; cells are accessed as `data[y * width + x]`. -/
structure DGrid where
  data : List Nat
  width : Nat
  height : Nat
deriving DecidableEq, Repr

/-- Cell access `Grid::get` (`data[y as usize * width as usize + x as usize]`).
An out-of-range read is modelled with default 0; every read performed by
`min_heat_loss` on a well-formed rectangular grid is in range. -/
def DGrid.get (g : DGrid) (x y : Nat) : Nat := g.data.getD (y * g.width + x) 0

/-- `parse_grid` of `day17.rs`: the input is the list of lines, each line the
list of its byte values. The source performs no validation: it sets `width` to
the length of each line in turn (so the last line wins), counts the lines, and
stores `byte - b'0'` for every byte of every line. The only possible failure
is the `u8` subtraction underflow for a byte below `'0'` (a panic in debug
builds, modelled as `none`); any byte `≥ '0'`, digit or not, is accepted
silently, as are rows of unequal lengths. -/
def parseGrid17 (input : List (List Nat)) : Option DGrid :=
  if input.all (fun line => line.all (fun b => 48 ≤ b)) then
    some { data := (input.map (fun line => line.map (fun b => b - 48))).flatten,
           width := input.foldl (fun _ line => line.length) 0,
           height := input.length }
  else none

/-- A search node `(x, y, dir)`: directions are 0 = north, 1 = south,
2 = east, 3 = west, and 4 for the synthetic `Start` predecessor. -/
abbrev Node17 := Nat × Nat × Nat

/-- The state of the search: the priority queue (as the list of its entries)
and the dense distance map. -/
structure SState where
  queue : List (Nat × Node17)
  dists : List Nat
deriving DecidableEq, Repr

/-- The distance-map index used by `min_heat_loss` for vertex `(x, y, dir)`:
`(x as usize * grid.width as usize + y as usize) * 4 + dir as usize` — note
`x * width + y`, transposed with respect to `Grid::get`. -/
def distIdx (g : DGrid) (x y dir : Nat) : Nat := (x * g.width + y) * 4 + dir

/-- Lexicographic strict order on nodes (the derived `Ord` of the tuple). -/
def nodeLt (a b : Node17) : Bool :=
  decide (a.1 < b.1) ||
    (decide (a.1 = b.1) &&
      (decide (a.2.1 < b.2.1) || (decide (a.2.1 = b.2.1) && decide (a.2.2 < b.2.2))))

/-- Entry `a` is strictly below entry `b` in the heap order of
`BinaryHeap<(Reverse<usize>, Node)>`: `b` has a strictly smaller distance, or
the same distance and a lexicographically larger node. -/
def entryLt (a b : Nat × Node17) : Bool :=
  decide (b.1 < a.1) || (decide (a.1 = b.1) && nodeLt a.2 b.2)

/-- `BinaryHeap::pop`: remove and return a maximal entry. Which representation
of equal maximal entries a Rust binary heap returns is unspecified, but all
candidates are equal as values, so the fold below is a faithful refinement. -/
def popBest (q : List (Nat × Node17)) : Option ((Nat × Node17) × List (Nat × Node17)) :=
  match q with
  | [] => none
  | e :: es =>
    let best := es.foldl (fun b x => if entryLt b x then x else b) e
    some (best, (e :: es).erase best)

/-- `update_dists_and_queue`: relax one neighbor. A write happens only for a
strictly smaller distance; an index outside the distance map is the source's
out-of-bounds panic, modelled as `none`. -/
def updateDQ (g : DGrid) (st : SState) (node : Node17) (dist : Nat) : Option SState :=
  let idx := distIdx g node.1 node.2.1 node.2.2
  if h : idx < st.dists.length then
    if dist < st.dists.get ⟨idx, h⟩ then
      some { queue := (dist, node) :: st.queue, dists := st.dists.set idx dist }
    else some st
  else none

/-- One iteration of a direction loop of the main loop: add the next cell's
cost to the running run cost and relax the neighbor entered after `i` steps
(`coord i`). The accumulator is `none` after a panic. -/
def sweepStep (g : DGrid) (dist : Nat) (coord : Nat → Nat × Nat) (dir : Nat)
    (acc : Option (SState × Nat)) (i : Nat) : Option (SState × Nat) :=
  match acc with
  | none => none
  | some (st, s) =>
    let s2 := s + g.get (coord i).1 (coord i).2
    match updateDQ g st ((coord i).1, (coord i).2, dir) (dist + s2) with
    | none => none
    | some st2 => some (st2, s2)

/-- One direction block of the main loop: visit the neighbors at step counts
`min_steps ..= maxN` in order, accumulating the incremental run cost (the
source precomputes the cost of the first `min_steps - 1` cells and then adds
one cell per iteration). `coord i` is the cell entered after `i` steps. -/
def sweepDir (g : DGrid) (dist : Nat) (coord : Nat → Nat × Nat) (dir : Nat)
    (minSteps maxN : Nat) (st : SState) : Option SState :=
  let base := ((List.range' 1 (minSteps - 1)).map (fun i => g.get (coord i).1 (coord i).2)).sum
  match (List.range' minSteps (maxN + 1 - minSteps)).foldl
      (sweepStep g dist coord dir) (some (st, base)) with
  | none => none
  | some (st2, _) => some st2

/-- Expansion of a popped node: the four direction blocks of the source in
order (north, south, east, west), each guarded exactly as in the source. -/
def expandNode (g : DGrid) (minSteps maxSteps : Nat) (x y dir : Nat) (dist : Nat)
    (st : SState) : Option SState :=
  let wasHorizontal := dir = 2 ∨ dir = 3
  let wasVertical := dir = 0 ∨ dir = 1
  let maxNorth := min maxSteps y
  let st1 := if minSteps ≤ maxNorth ∧ ¬wasVertical then
      sweepDir g dist (fun i => (x, y - i)) 0 minSteps maxNorth st
    else some st
  match st1 with
  | none => none
  | some st1 =>
    let maxSouth := min maxSteps (g.height - y - 1)
    let st2 := if minSteps ≤ maxSouth ∧ ¬wasVertical then
        sweepDir g dist (fun i => (x, y + i)) 1 minSteps maxSouth st1
      else some st1
    match st2 with
    | none => none
    | some st2 =>
      let maxEast := min maxSteps (g.width - x - 1)
      let st3 := if minSteps ≤ maxEast ∧ ¬wasHorizontal then
          sweepDir g dist (fun i => (x + i, y)) 2 minSteps maxEast st2
        else some st2
      match st3 with
      | none => none
      | some st3 =>
        let maxWest := min maxSteps x
        if minSteps ≤ maxWest ∧ ¬wasHorizontal then
          sweepDir g dist (fun i => (x - i, y)) 3 minSteps maxWest st3
        else some st3

inductive LoopRes where
  | panic
  | fuelOut
  | done (dists : List Nat)
deriving DecidableEq, Repr

/-- The main `while let Some(..) = queue.pop()` loop, fuel-indexed. A popped
entry is first checked against the stored distance (`if dist > dists[dist_idx]`
— itself an indexed read that can go out of bounds) and skipped when stale;
otherwise the node is expanded. -/
def searchLoop (g : DGrid) (minSteps maxSteps : Nat) : Nat → SState → LoopRes
  | 0, st =>
    match popBest st.queue with
    | none => LoopRes.done st.dists
    | some _ => LoopRes.fuelOut
  | fuel + 1, st =>
    match popBest st.queue with
    | none => LoopRes.done st.dists
    | some ((dist, (x, y, dir)), rest) =>
      let idx := distIdx g x y dir
      if h : idx < st.dists.length then
        if dist > st.dists.get ⟨idx, h⟩ then
          searchLoop g minSteps maxSteps fuel ⟨rest, st.dists⟩
        else
          match expandNode g minSteps maxSteps x y dir dist ⟨rest, st.dists⟩ with
          | none => LoopRes.panic
          | some st2 => searchLoop g minSteps maxSteps fuel st2
      else LoopRes.panic

/-- The initial search state of `min_heat_loss`: the queue holds the start
node `(0, 0, Start)` at distance 0 and every distance starts at the
`usize::MAX` sentinel. -/
def initState (g : DGrid) : SState :=
  { queue := [(0, (0, 0, 4))],
    dists := List.replicate (g.width * g.height * 4) MAXD }

inductive RunRes where
  | oobPanic      -- an out-of-bounds slice access
  | unwrapPanic   -- `.min().unwrap()` with no finite end distance
  | fuelOut
  | value (n : Nat)
deriving DecidableEq, Repr

/-- The index of the first of the four end-cell slots read by the final answer
extraction: `(end.1 * width + end.0) * 4` for `end = (width-1, height-1)`. -/
def endIdx (g : DGrid) : Nat := ((g.height - 1) * g.width + (g.width - 1)) * 4

/-- `min_heat_loss`, fuel-indexed (the fuel only bounds the number of loop
iterations). After the loop the end range `dists[end_idx .. end_idx + 4]` is
sliced (a panic when out of range), filtered for visited entries, and the
minimum is unwrapped (a panic when no entry is finite). -/
def minHeatLossRun (fuel : Nat) (g : DGrid) (minSteps maxSteps : Nat) : RunRes :=
  match searchLoop g minSteps maxSteps fuel (initState g) with
  | LoopRes.panic => RunRes.oobPanic
  | LoopRes.fuelOut => RunRes.fuelOut
  | LoopRes.done dists =>
    if endIdx g + 4 ≤ dists.length then
      match (((dists.drop (endIdx g)).take 4).filter (fun d => decide (d ≠ MAXD))).min? with
      | none => RunRes.unwrapPanic
      | some v => RunRes.value v
    else RunRes.oobPanic

/-- C1 (code bug): on the rectangular 2×1 grid parsed from the input line
`11`, with `min_steps = 1`, `max_steps = 1`, the end cell (1, 0) is reachable
in one east step of cost 1, but `min_heat_loss` panics with an out-of-bounds
write instead of returning 1: relaxing the east neighbor writes index
`(1 * width + 0) * 4 + 2 = 10` in the 8-entry distance map, because the
distance-map index computes `(x * width + y) * 4 + dir`, transposing `x` and
`y` with respect to `Grid::get` and the final answer read. -/
theorem min_heat_loss_2x1_panics :
    parseGrid17 [[49, 49]] = some ⟨[1, 1], 2, 1⟩ ∧
      distIdx ⟨[1, 1], 2, 1⟩ 1 0 2 = 10 ∧
      (initState ⟨[1, 1], 2, 1⟩).dists.length = 8 ∧
      minHeatLossRun 4 ⟨[1, 1], 2, 1⟩ 1 1 = RunRes.oobPanic := by
  refine ⟨rfl, rfl, rfl, ?_⟩
  decide

/-- C5 counterexample: the input `1:` / `11` contains the non-digit cell `:`
(byte 58) and the input `1` / `11` has rows of unequal length, yet both parse
successfully (no parse error): the first stores the silently wrong cost 10,
the second claims a 2×2 grid with only 3 cells of data. -/
theorem parse_grid_accepts_malformed :
    parseGrid17 [[49, 58], [49, 49]] = some ⟨[1, 10, 1, 1], 2, 2⟩ ∧
      parseGrid17 [[49], [49, 49]] = some ⟨[1, 1, 1], 2, 2⟩ := ⟨rfl, rfl⟩

/-- C5 (amended): `parse_grid` performs no validation. For every input text
whose cell bytes are all at least `'0'` — including non-digit bytes and rows
of unequal length — parsing succeeds, with `width` the length of whichever
line came last, `height` the number of lines, and `data` the concatenation of
`byte - 48` over all lines; no parse error is ever reported. (A byte below
`'0'` underflows the `u8` subtraction — a panic in debug builds only, never a
parse error.) -/
theorem parse_grid_never_fails (input : List (List Nat))
    (h : ∀ line ∈ input, ∀ b ∈ line, 48 ≤ b) :
    parseGrid17 input
      = some { data := (input.map (fun line => line.map (fun b => b - 48))).flatten,
               width := input.foldl (fun _ line => line.length) 0,
               height := input.length } := by
  have hc : (input.all (fun line => line.all (fun b => 48 ≤ b))) = true := by
    simp only [List.all_eq_true, decide_eq_true_eq]
    exact h
  unfold parseGrid17
  rw [if_pos hc]

/-- Witness for `parse_grid_never_fails` on the malformed input `1:` / `11`. -/
theorem parse_grid_never_fails_witness :
    (∀ line ∈ [[49, 58], [49, 49]], ∀ b ∈ line, (48 : Nat) ≤ b) ∧
      parseGrid17 [[49, 58], [49, 49]] = some ⟨[1, 10, 1, 1], 2, 2⟩ :=
  ⟨by decide, (parse_grid_never_fails [[49, 58], [49, 49]] (by decide)).trans rfl⟩

/-- C9 counterexample: on the 1×1 (square) grid the very first pop — the start
node, direction `Start = 4` — reads `dists[(0 * 1 + 0) * 4 + 4] = dists[4]` in
the 4-entry distance map, an out-of-bounds access; so it is not true that
every distance-array access is in bounds on every square grid. -/
theorem square_one_by_one_oob :
    distIdx ⟨[5], 1, 1⟩ 0 0 4 = 4 ∧ (initState ⟨[5], 1, 1⟩).dists.length = 4 ∧
      minHeatLossRun 1 ⟨[5], 1, 1⟩ 1 3 = RunRes.oobPanic := ⟨rfl, rfl, by decide⟩

theorem getD_set_le {l : List Nat} {idx v d : Nat}
    (hv : ∀ h : idx < l.length, v ≤ l[idx]) :
    ∀ i, (l.set idx v).getD i d ≤ l.getD i d := by
  intro i
  rw [List.getD_eq_getElem?_getD, List.getD_eq_getElem?_getD, List.getElem?_set]
  by_cases hij : idx = i
  · subst hij
    by_cases hlen : idx < l.length
    · rw [if_pos rfl, if_pos hlen, List.getElem?_eq_getElem hlen]
      exact hv hlen
    · rw [if_pos rfl, if_neg hlen, List.getElem?_eq_none (by omega)]
  · rw [if_neg hij]

/-- `update_dists_and_queue` either leaves the map unchanged or writes a
strictly smaller value at the vertex index. -/
theorem updateDQ_spec {g : DGrid} {st : SState} {node : Node17} {dist : Nat} {st' : SState}
    (h : updateDQ g st node dist = some st') :
    st'.dists = st.dists ∨
      (distIdx g node.1 node.2.1 node.2.2 < st.dists.length ∧
        dist < st.dists.getD (distIdx g node.1 node.2.1 node.2.2) MAXD ∧
        st'.dists = st.dists.set (distIdx g node.1 node.2.1 node.2.2) dist) := by
  unfold updateDQ at h
  dsimp only at h
  split at h
  · rename_i hlen
    split at h
    · rename_i hlt
      cases h
      right
      refine ⟨hlen, ?_, rfl⟩
      rw [List.getD_eq_getElem _ _ hlen]
      rw [List.get_eq_getElem] at hlt
      exact hlt
    · cases h
      left
      rfl
  · exact absurd h (by simp)

theorem updateDQ_dists_le {g : DGrid} {st : SState} {node : Node17} {dist : Nat} {st' : SState}
    (h : updateDQ g st node dist = some st') :
    ∀ i, st'.dists.getD i MAXD ≤ st.dists.getD i MAXD := by
  rcases updateDQ_spec h with heq | ⟨hlen, hlt, heq⟩
  · rw [heq]
    intro i
    exact le_refl _
  · rw [heq]
    apply getD_set_le
    intro hh
    rw [List.getD_eq_getElem _ _ hh] at hlt
    omega

theorem sweepStep_none_foldl (g : DGrid) (dist : Nat) (coord : Nat → Nat × Nat) (dir : Nat) :
    ∀ L : List Nat, L.foldl (sweepStep g dist coord dir) none = none := by
  intro L
  induction L with
  | nil => rfl
  | cons a L ih => rw [List.foldl_cons]; exact ih

theorem sweepFold_dists_le (g : DGrid) (dist : Nat) (coord : Nat → Nat × Nat) (dir : Nat) :
    ∀ (L : List Nat) (st0 : SState) (s0 : Nat) (p : SState × Nat),
    L.foldl (sweepStep g dist coord dir) (some (st0, s0)) = some p →
    ∀ i, p.1.dists.getD i MAXD ≤ st0.dists.getD i MAXD := by
  intro L
  induction L with
  | nil =>
    intro st0 s0 p h i
    cases h
    exact le_refl _
  | cons a L ih =>
    intro st0 s0 p h i
    rw [List.foldl_cons] at h
    rcases hu : updateDQ g st0 ((coord a).1, (coord a).2, dir)
        (dist + (s0 + g.get (coord a).1 (coord a).2)) with _ | st2
    · rw [show sweepStep g dist coord dir (some (st0, s0)) a = none from by
        unfold sweepStep; dsimp only; rw [hu]] at h
      rw [sweepStep_none_foldl] at h
      exact absurd h (by simp)
    · rw [show sweepStep g dist coord dir (some (st0, s0)) a
          = some (st2, s0 + g.get (coord a).1 (coord a).2) from by
        unfold sweepStep; dsimp only; rw [hu]] at h
      exact le_trans (ih _ _ _ h i) (updateDQ_dists_le hu i)

theorem sweepDir_dists_le {g : DGrid} {dist : Nat} {coord : Nat → Nat × Nat} {dir : Nat}
    {mn mxN : Nat} {st st' : SState}
    (h : sweepDir g dist coord dir mn mxN st = some st') :
    ∀ i, st'.dists.getD i MAXD ≤ st.dists.getD i MAXD := by
  unfold sweepDir at h
  dsimp only at h
  split at h
  · exact absurd h (by simp)
  · rename_i st2 s2 heq
    cases h
    exact fun i => sweepFold_dists_le g dist coord dir _ _ _ _ heq i

theorem stepOpt_dists_le {g : DGrid} {dist : Nat} {coord : Nat → Nat × Nat} {dir : Nat}
    {mn mxN : Nat} {c : Prop} [Decidable c] {st st1 : SState}
    (h : (if c then sweepDir g dist coord dir mn mxN st else some st) = some st1) :
    ∀ i, st1.dists.getD i MAXD ≤ st.dists.getD i MAXD := by
  split at h
  · exact sweepDir_dists_le h
  · cases h
    intro i
    exact le_refl _

theorem expandNode_dists_le {g : DGrid} {mn mx x y dir dist : Nat} {st st' : SState}
    (h : expandNode g mn mx x y dir dist st = some st') :
    ∀ i, st'.dists.getD i MAXD ≤ st.dists.getD i MAXD := by
  unfold expandNode at h
  dsimp only at h
  split at h
  · exact absurd h (by simp)
  · rename_i st1 heq1
    split at h
    · exact absurd h (by simp)
    · rename_i st2 heq2
      split at h
      · exact absurd h (by simp)
      · rename_i st3 heq3
        intro i
        exact le_trans (stepOpt_dists_le h i)
          (le_trans (stepOpt_dists_le heq3 i)
            (le_trans (stepOpt_dists_le heq2 i) (stepOpt_dists_le heq1 i)))

theorem searchLoop_stale_skip {g : DGrid} {mn mx fuel : Nat} {st : SState}
    {dist x y dir : Nat} {rest : List (Nat × Node17)}
    (hpop : popBest st.queue = some ((dist, (x, y, dir)), rest))
    (hidx : distIdx g x y dir < st.dists.length)
    (hstale : dist > st.dists.getD (distIdx g x y dir) MAXD) :
    searchLoop g mn mx (fuel + 1) st = searchLoop g mn mx fuel ⟨rest, st.dists⟩ := by
  conv_lhs => rw [searchLoop]
  rw [hpop]
  dsimp only
  rw [dif_pos hidx, if_pos (show dist > st.dists.get ⟨distIdx g x y dir, hidx⟩ from by
    rw [List.get_eq_getElem]
    rw [List.getD_eq_getElem _ _ hidx] at hstale
    exact hstale)]

/-- C8: the relaxation invariants of `min_heat_loss`. (1) Every entry of the
initial distance map is the `usize::MAX` sentinel. (2) `update_dists_and_queue`
either returns the map unchanged or writes `dists[idx]` with a strictly
smaller value, so a write happens only when the new distance is strictly
smaller. (3) Relaxation is monotone: neither a single update nor a full node
expansion ever increases any entry, so throughout an execution entries only
ever decrease from the sentinel. (4) A popped queue entry whose distance is
worse than the stored best for its vertex is skipped without generating edges:
the loop recurses directly on the remaining queue with the distance map
unchanged. -/
theorem min_heat_loss_relaxation_invariants (g : DGrid) :
    (∀ i (h : i < (initState g).dists.length), (initState g).dists.get ⟨i, h⟩ = MAXD)
    ∧ (∀ st node dist st', updateDQ g st node dist = some st' →
        st'.dists = st.dists ∨
          (distIdx g node.1 node.2.1 node.2.2 < st.dists.length ∧
            dist < st.dists.getD (distIdx g node.1 node.2.1 node.2.2) MAXD ∧
            st'.dists = st.dists.set (distIdx g node.1 node.2.1 node.2.2) dist))
    ∧ (∀ st node dist st', updateDQ g st node dist = some st' →
        ∀ i, st'.dists.getD i MAXD ≤ st.dists.getD i MAXD)
    ∧ (∀ mn mx x y dir dist st st', expandNode g mn mx x y dir dist st = some st' →
        ∀ i, st'.dists.getD i MAXD ≤ st.dists.getD i MAXD)
    ∧ (∀ mn mx fuel st dist x y dir rest,
        popBest st.queue = some ((dist, (x, y, dir)), rest) →
        distIdx g x y dir < st.dists.length →
        dist > st.dists.getD (distIdx g x y dir) MAXD →
        searchLoop g mn mx (fuel + 1) st = searchLoop g mn mx fuel ⟨rest, st.dists⟩) := by
  refine ⟨?_, ?_, ?_, ?_, ?_⟩
  · intro i h
    rw [List.get_eq_getElem]
    exact List.getElem_replicate _ _
  · intro st node dist st' h
    exact updateDQ_spec h
  · intro st node dist st' h
    exact updateDQ_dists_le h
  · intro mn mx x y dir dist st st' h
    exact expandNode_dists_le h
  · intro mn mx fuel st dist x y dir rest hpop hidx hstale
    exact searchLoop_stale_skip hpop hidx hstale

/-- Witness for `min_heat_loss_relaxation_invariants`: on the 1×1 cost grid,
entry 0 of the initial distance map is the sentinel, and a stale popped entry
(distance 5 against stored best 3) is skipped without touching the distance
map or generating edges. -/
theorem min_heat_loss_relaxation_invariants_witness :
    ((initState ⟨[1], 1, 1⟩).dists.get ⟨0, by decide⟩ = MAXD)
    ∧ searchLoop ⟨[1], 1, 1⟩ 1 3 1 ⟨[(5, (0, 0, 0))], [3, 9, 9, 9]⟩
        = searchLoop ⟨[1], 1, 1⟩ 1 3 0 ⟨[], [3, 9, 9, 9]⟩ :=
  ⟨(min_heat_loss_relaxation_invariants ⟨[1], 1, 1⟩).1 0 (by decide),
   (min_heat_loss_relaxation_invariants ⟨[1], 1, 1⟩).2.2.2.2 1 3 0
     ⟨[(5, (0, 0, 0))], [3, 9, 9, 9]⟩ 5 0 0 0 [] (by decide) (by decide) (by decide)⟩

theorem foldl_pick_mem : ∀ (es : List (Nat × Node17)) (e : Nat × Node17),
    es.foldl (fun b x => if entryLt b x then x else b) e ∈ e :: es := by
  intro es
  induction es with
  | nil =>
    intro e
    exact List.mem_singleton.mpr rfl
  | cons a es ih =>
    intro e
    rw [List.foldl_cons]
    by_cases h : entryLt e a
    · rw [if_pos h]
      have := ih a
      rw [List.mem_cons] at this
      rcases this with h1 | h1
      · exact List.mem_cons.mpr (Or.inr (List.mem_cons.mpr (Or.inl h1)))
      · exact List.mem_cons.mpr (Or.inr (List.mem_cons.mpr (Or.inr h1)))
    · rw [if_neg h]
      have := ih e
      rw [List.mem_cons] at this
      rcases this with h1 | h1
      · exact List.mem_cons.mpr (Or.inl h1)
      · exact List.mem_cons.mpr (Or.inr (List.mem_cons.mpr (Or.inr h1)))

/-- `popBest` returns a member of the queue, and the rest is the queue with
that one entry removed. -/
theorem popBest_eq_some : ∀ {q : List (Nat × Node17)} {e : Nat × Node17}
    {rest : List (Nat × Node17)}, popBest q = some (e, rest) →
    e ∈ q ∧ rest = q.erase e := by
  intro q e rest h
  match q with
  | [] => exact absurd h (by simp [popBest])
  | a :: as =>
    unfold popBest at h
    dsimp only at h
    injection h with h
    injection h with h1 h2
    subst h1
    exact ⟨foldl_pick_mem as a, h2.symm⟩

/-- The state invariant of the search: every queue entry is the synthetic
start node or an in-grid node with a real direction, and the distance map has
its full dense size. -/
def StOK (g : DGrid) (st : SState) : Prop :=
  (∀ e ∈ st.queue, (e.2.1 < g.width ∧ e.2.2.1 < g.height ∧ e.2.2.2 < 4) ∨ e.2 = (0, 0, 4))
  ∧ st.dists.length = g.width * g.height * 4

/-- On a square grid, the distance index of an in-grid node with a real
direction is in bounds. -/
theorem distIdx_lt_of_inbounds {g : DGrid} (hsq : g.width = g.height)
    {x y dir : Nat} (hx : x < g.width) (hy : y < g.height) (hdir : dir < 4) :
    distIdx g x y dir < g.width * g.height * 4 := by
  unfold distIdx
  have hW : g.width ≤ g.width * g.width :=
    Nat.le_mul_of_pos_left _ (by omega)
  have hxw : x * g.width ≤ (g.width - 1) * g.width :=
    Nat.mul_le_mul_right _ (by omega)
  rw [Nat.sub_one_mul] at hxw
  rw [← hsq]
  omega

theorem updateDQ_ok {g : DGrid} (hsq : g.width = g.height) {st : SState}
    (hst : StOK g st) {node : Node17}
    (hn : node.1 < g.width ∧ node.2.1 < g.height ∧ node.2.2 < 4) (dist : Nat) :
    ∃ st', updateDQ g st node dist = some st' ∧ StOK g st' := by
  have hidx : distIdx g node.1 node.2.1 node.2.2 < st.dists.length := by
    rw [hst.2]
    exact distIdx_lt_of_inbounds hsq hn.1 hn.2.1 hn.2.2
  unfold updateDQ
  dsimp only
  rw [dif_pos hidx]
  split
  · refine ⟨_, rfl, ?_, ?_⟩
    · intro e he
      rw [List.mem_cons] at he
      rcases he with rfl | he
      · exact Or.inl hn
      · exact hst.1 e he
    · simp only [List.length_set]
      exact hst.2
  · exact ⟨st, rfl, hst⟩

theorem sweepFold_ok {g : DGrid} (hsq : g.width = g.height) {dist : Nat}
    {coord : Nat → Nat × Nat} {dir : Nat} (hdir : dir < 4) :
    ∀ (L : List Nat) (st : SState) (s : Nat), StOK g st →
    (∀ i ∈ L, (coord i).1 < g.width ∧ (coord i).2 < g.height) →
    ∃ st' s', L.foldl (sweepStep g dist coord dir) (some (st, s)) = some (st', s')
      ∧ StOK g st' := by
  intro L
  induction L with
  | nil =>
    intro st s hst _
    exact ⟨st, s, rfl, hst⟩
  | cons a L ih =>
    intro st s hst hcoord
    rw [List.foldl_cons]
    obtain ⟨st2, hu, hst2⟩ := @updateDQ_ok g hsq st hst
      ((coord a).1, (coord a).2, dir)
      ⟨(hcoord a (List.mem_cons_self a L)).1, (hcoord a (List.mem_cons_self a L)).2, hdir⟩
      (dist + (s + g.get (coord a).1 (coord a).2))
    rw [show sweepStep g dist coord dir (some (st, s)) a
        = some (st2, s + g.get (coord a).1 (coord a).2) from by
      unfold sweepStep; dsimp only; rw [hu]]
    exact ih st2 _ hst2 (fun i hi => hcoord i (List.mem_cons_of_mem a hi))

theorem sweepDir_ok {g : DGrid} (hsq : g.width = g.height) {dist : Nat}
    {coord : Nat → Nat × Nat} {dir : Nat} (hdir : dir < 4) {mn mxN : Nat}
    {st : SState} (hst : StOK g st)
    (hcoord : ∀ i, mn ≤ i → i ≤ mxN → (coord i).1 < g.width ∧ (coord i).2 < g.height) :
    ∃ st', sweepDir g dist coord dir mn mxN st = some st' ∧ StOK g st' := by
  obtain ⟨st', s', hf, hst'⟩ := sweepFold_ok hsq hdir
    (List.range' mn (mxN + 1 - mn)) st
    (((List.range' 1 (mn - 1)).map (fun i => g.get (coord i).1 (coord i).2)).sum) hst
    (fun i hi => by
      rw [List.mem_range'_1] at hi
      exact hcoord i hi.1 (by omega))
  refine ⟨st', ?_, hst'⟩
  unfold sweepDir
  dsimp only
  rw [hf]

theorem expandNode_ok {g : DGrid} (hsq : g.width = g.height) {mn mx x y dir dist : Nat}
    {st : SState} (hst : StOK g st) (hx : x < g.width) (hy : y < g.height) :
    ∃ st', expandNode g mn mx x y dir dist st = some st' ∧ StOK g st' := by
  have hN : ∀ (st0 : SState), StOK g st0 → ∃ st1,
      (if mn ≤ min mx y ∧ ¬(dir = 0 ∨ dir = 1) then
        sweepDir g dist (fun i => (x, y - i)) 0 mn (min mx y) st0 else some st0) = some st1
      ∧ StOK g st1 := by
    intro st0 h0
    split
    · exact sweepDir_ok hsq (by omega) h0 (fun i h1 h2 => ⟨hx, by omega⟩)
    · exact ⟨st0, rfl, h0⟩
  have hS : ∀ (st0 : SState), StOK g st0 → ∃ st1,
      (if mn ≤ min mx (g.height - y - 1) ∧ ¬(dir = 0 ∨ dir = 1) then
        sweepDir g dist (fun i => (x, y + i)) 1 mn (min mx (g.height - y - 1)) st0
      else some st0) = some st1 ∧ StOK g st1 := by
    intro st0 h0
    split
    · refine sweepDir_ok hsq (by omega) h0 (fun i h1 h2 => ⟨hx, ?_⟩)
      have : i ≤ min mx (g.height - y - 1) := h2
      omega
    · exact ⟨st0, rfl, h0⟩
  have hE : ∀ (st0 : SState), StOK g st0 → ∃ st1,
      (if mn ≤ min mx (g.width - x - 1) ∧ ¬(dir = 2 ∨ dir = 3) then
        sweepDir g dist (fun i => (x + i, y)) 2 mn (min mx (g.width - x - 1)) st0
      else some st0) = some st1 ∧ StOK g st1 := by
    intro st0 h0
    split
    · refine sweepDir_ok hsq (by omega) h0 (fun i h1 h2 => ⟨?_, hy⟩)
      have : i ≤ min mx (g.width - x - 1) := h2
      omega
    · exact ⟨st0, rfl, h0⟩
  have hW : ∀ (st0 : SState), StOK g st0 → ∃ st1,
      (if mn ≤ min mx x ∧ ¬(dir = 2 ∨ dir = 3) then
        sweepDir g dist (fun i => (x - i, y)) 3 mn (min mx x) st0
      else some st0) = some st1 ∧ StOK g st1 := by
    intro st0 h0
    split
    · exact sweepDir_ok hsq (by omega) h0 (fun i h1 h2 => ⟨by omega, hy⟩)
    · exact ⟨st0, rfl, h0⟩
  obtain ⟨st1, h1, hst1⟩ := hN st hst
  obtain ⟨st2, h2, hst2⟩ := hS st1 hst1
  obtain ⟨st3, h3, hst3⟩ := hE st2 hst2
  obtain ⟨st4, h4, hst4⟩ := hW st3 hst3
  refine ⟨st4, ?_, hst4⟩
  unfold expandNode
  dsimp only
  rw [h1]
  dsimp only
  rw [h2]
  dsimp only
  rw [h3]
  dsimp only
  rw [h4]

theorem searchLoop_ok {g : DGrid} (hsq : g.width = g.height) (hw : 2 ≤ g.width)
    (mn mx : Nat) : ∀ (fuel : Nat) (st : SState), StOK g st →
    searchLoop g mn mx fuel st ≠ LoopRes.panic ∧
      (∀ ds, searchLoop g mn mx fuel st = LoopRes.done ds →
        ds.length = g.width * g.height * 4) := by
  have hwh : (4 : Nat) ≤ g.width * g.height := by
    have := Nat.mul_le_mul hw (hsq ▸ hw)
    omega
  intro fuel
  induction fuel with
  | zero =>
    intro st hst
    constructor
    · intro hcon
      unfold searchLoop at hcon
      split at hcon <;> simp at hcon
    · intro ds h
      unfold searchLoop at h
      split at h
      · cases h
        exact hst.2
      · cases h
  | succ fuel ih =>
    intro st hst
    rcases hpop : popBest st.queue with _ | ⟨⟨d, x, y, dir⟩, rest⟩
    · constructor
      · intro hcon
        unfold searchLoop at hcon
        rw [hpop] at hcon
        simp at hcon
      · intro ds h
        unfold searchLoop at h
        rw [hpop] at h
        cases h
        exact hst.2
    · obtain ⟨hmem, hrest⟩ := popBest_eq_some hpop
      have hstR : StOK g ⟨rest, st.dists⟩ := by
        refine ⟨fun e he => hst.1 e ?_, hst.2⟩
        rw [hrest] at he
        exact List.mem_of_mem_erase he
      have hidx : distIdx g x y dir < st.dists.length := by
        rcases hst.1 _ hmem with ⟨h1, h2, h3⟩ | hstart
        · rw [hst.2]
          exact distIdx_lt_of_inbounds hsq h1 h2 h3
        · rw [Prod.mk.injEq] at hstart
          obtain ⟨hx0, hstart⟩ := hstart
          rw [Prod.mk.injEq] at hstart
          obtain ⟨hy0, hdir4⟩ := hstart
          subst hx0
          subst hy0
          subst hdir4
          rw [hst.2]
          unfold distIdx
          omega
      have hxy : x < g.width ∧ y < g.height := by
        rcases hst.1 _ hmem with ⟨h1, h2, _⟩ | hstart
        · exact ⟨h1, h2⟩
        · rw [Prod.mk.injEq] at hstart
          obtain ⟨hx0, hstart⟩ := hstart
          rw [Prod.mk.injEq] at hstart
          obtain ⟨hy0, _⟩ := hstart
          subst hx0
          subst hy0
          omega
      have hred : searchLoop g mn mx (fuel + 1) st =
          if d > st.dists.get ⟨distIdx g x y dir, hidx⟩ then
            searchLoop g mn mx fuel ⟨rest, st.dists⟩
          else
            match expandNode g mn mx x y dir d ⟨rest, st.dists⟩ with
            | none => LoopRes.panic
            | some st2 => searchLoop g mn mx fuel st2 := by
        conv_lhs => rw [searchLoop]
        rw [hpop]
        dsimp only
        rw [dif_pos hidx]
      rw [hred]
      split
      · exact ih ⟨rest, st.dists⟩ hstR
      · obtain ⟨st2, hex, hst2⟩ := expandNode_ok hsq hstR hxy.1 hxy.2
        rw [hex]
        exact ih st2 hst2

/-- C9 (amended): the index discipline of `min_heat_loss`. (i) For every
square grid with `width = height ≥ 2`, no distance-array access is out of
bounds, for any `min_steps`/`max_steps` and any number of loop iterations (on
the degenerate 1×1 square grid the start pop reads `dists[4]` out of bounds,
see `square_one_by_one_oob`). (ii) On square grids the final read at
`((height-1)*width + (width-1))*4 .. +4` covers exactly the four direction
slots of the end cell `(width-1, height-1)` under the write indexing. (iii)
For the non-square 3×1 grid the east-neighbor write index 14 exceeds the
distance-array length 12, and the run faults out of bounds. -/
theorem min_heat_loss_index_discipline :
    (∀ g : DGrid, g.width = g.height → 2 ≤ g.width → ∀ mn mx fuel,
      minHeatLossRun fuel g mn mx ≠ RunRes.oobPanic)
    ∧ (∀ g : DGrid, g.width = g.height → ∀ k, k < 4 →
      endIdx g + k = distIdx g (g.width - 1) (g.height - 1) k)
    ∧ (distIdx ⟨[1, 1, 1], 3, 1⟩ 1 0 2 = 14 ∧
        (initState ⟨[1, 1, 1], 3, 1⟩).dists.length = 12 ∧
        minHeatLossRun 4 ⟨[1, 1, 1], 3, 1⟩ 1 1 = RunRes.oobPanic) := by
  refine ⟨?_, ?_, rfl, rfl, by decide⟩
  · intro g hsq hw mn mx fuel hcon
    have hinit : StOK g (initState g) := by
      constructor
      · intro e he
        simp only [initState, List.mem_singleton] at he
        subst he
        right
        rfl
      · simp [initState]
    have hok := searchLoop_ok hsq hw mn mx fuel (initState g) hinit
    unfold minHeatLossRun at hcon
    rcases hres : searchLoop g mn mx fuel (initState g) with _ | _ | ds
    · exact hok.1 hres
    · rw [hres] at hcon
      simp at hcon
    · rw [hres] at hcon
      have hlen := hok.2 ds hres
      have hend : endIdx g + 4 ≤ ds.length := by
        rw [hlen]
        unfold endIdx
        have h1 : (g.height - 1) * g.width = g.height * g.width - g.width :=
          Nat.sub_one_mul _ _
        have h2 : g.width ≤ g.height * g.width := Nat.le_mul_of_pos_left _ (by omega)
        have h3 : g.width * g.height = g.height * g.width := Nat.mul_comm _ _
        omega
      dsimp only at hcon
      rw [if_pos hend] at hcon
      split at hcon <;> simp at hcon
  · intro g hsq k hk
    unfold endIdx distIdx
    rw [hsq]

/-- Witness for `min_heat_loss_index_discipline` on the uniform 2×2 grid. -/
theorem min_heat_loss_index_discipline_witness :
    ((⟨[1, 1, 1, 1], 2, 2⟩ : DGrid).width = (⟨[1, 1, 1, 1], 2, 2⟩ : DGrid).height ∧
        2 ≤ (⟨[1, 1, 1, 1], 2, 2⟩ : DGrid).width) ∧
      minHeatLossRun 3 ⟨[1, 1, 1, 1], 2, 2⟩ 1 1 ≠ RunRes.oobPanic ∧
      endIdx ⟨[1, 1, 1, 1], 2, 2⟩ + 2 = distIdx ⟨[1, 1, 1, 1], 2, 2⟩ 1 1 2 :=
  ⟨⟨rfl, by decide⟩,
   min_heat_loss_index_discipline.1 ⟨[1, 1, 1, 1], 2, 2⟩ rfl (by decide) 1 1 3,
   min_heat_loss_index_discipline.2.1 ⟨[1, 1, 1, 1], 2, 2⟩ rfl 2 (by decide)⟩

/-! ## Day 14: rock-sliding simulation (`day14.rs`) -/

inductive Cell where
  | empty
  | round
  | square
deriving DecidableEq, Repr

instance : Fintype Cell where
  elems := {Cell.empty, Cell.round, Cell.square}
  complete := by intro x; cases x <;> simp

/-- The rock grid of `day14.rs` (`struct Grid`), addressed as
`cells[y * width + x]`. -/
structure Grid where
  cells : List Cell
  width : Nat
  height : Nat
deriving DecidableEq, Repr

/-- `Grid::get` (`cells[y * width + x]`, asserted in bounds in the source;
modelled with default `empty` — every access made by `slide` on a well-formed
grid is in bounds). -/
def Grid.get (g : Grid) (x y : Nat) : Cell := g.cells.getD (y * g.width + x) Cell.empty

/-- `Grid::set` (`cells[y * width + x] = cell`; `List.set` is a no-op out of
bounds, where the source asserts). -/
def Grid.set (g : Grid) (x y : Nat) (c : Cell) : Grid :=
  { g with cells := g.cells.set (y * g.width + x) c }

inductive Dir where
  | north
  | west
  | south
  | east
deriving DecidableEq, Repr

/-- The per-line scan state of `slide`'s `helper`: the grid being mutated, the
start of the current obstacle-free run, and the number of round rocks seen in
it. -/
structure ScanState where
  g : Grid
  startOfRun : Nat
  roundsInRun : Nat

/-- One step of the inner scan of `helper` (`for j in 0..inner_len`): empty
cells are skipped, round rocks are counted, and an obstacle triggers the
write-back of the finished run (skipped when the run is empty or already
fully packed) and resets the run. -/
def scanStep (cell : Grid → Nat → Nat → Cell)
    (write : Grid → Nat → Nat → Nat → Nat → Grid) (i : Nat)
    (s : ScanState) (j : Nat) : ScanState :=
  match cell s.g i j with
  | Cell.empty => s
  | Cell.round => { s with roundsInRun := s.roundsInRun + 1 }
  | Cell.square =>
    let g := if 0 < s.roundsInRun ∧ s.roundsInRun < j - s.startOfRun then
        write s.g s.roundsInRun s.startOfRun i j
      else s.g
    { g := g, startOfRun := j + 1, roundsInRun := 0 }

/-- One line of `helper`: the inner scan over `0..inner_len` followed by the
end-of-line flush with `j = inner_len`. -/
def scanLine (cell : Grid → Nat → Nat → Cell)
    (write : Grid → Nat → Nat → Nat → Nat → Grid) (innerLen : Nat)
    (g : Grid) (i : Nat) : Grid :=
  let s := (List.range innerLen).foldl (scanStep cell write i) ⟨g, 0, 0⟩
  if 0 < s.roundsInRun ∧ s.roundsInRun < innerLen - s.startOfRun then
    write s.g s.roundsInRun s.startOfRun i innerLen
  else s.g

/-- `helper` of `slide`: scan every line `i` in `0..outer_len`. -/
def slideHelper (cell : Grid → Nat → Nat → Cell)
    (write : Grid → Nat → Nat → Nat → Nat → Grid) (outerLen innerLen : Nat)
    (g : Grid) : Grid :=
  (List.range outerLen).foldl (scanLine cell write innerLen) g

/-- The north writer of `slide`: pack the run's round rocks at its start and
clear the remainder up to the obstacle at `row`. -/
def writeNorth (g : Grid) (roundsInRun startOfRun col row : Nat) : Grid :=
  let g := (List.range roundsInRun).foldl
    (fun g i => g.set col (startOfRun + i) Cell.round) g
  (List.range' roundsInRun (row - startOfRun - roundsInRun)).foldl
    (fun g i => g.set col (startOfRun + i) Cell.empty) g

/-- The west writer of `slide`. -/
def writeWest (g : Grid) (roundsInRun startOfRun row col : Nat) : Grid :=
  let g := (List.range roundsInRun).foldl
    (fun g i => g.set (startOfRun + i) row Cell.round) g
  (List.range' roundsInRun (col - startOfRun - roundsInRun)).foldl
    (fun g i => g.set (startOfRun + i) row Cell.empty) g

/-- The south writer of `slide` (`h` is the grid height captured at entry). -/
def writeSouth (h : Nat) (g : Grid) (roundsInRun startOfRun col row : Nat) : Grid :=
  let g := (List.range roundsInRun).foldl
    (fun g i => g.set col (h - startOfRun - i - 1) Cell.round) g
  (List.range' roundsInRun (row - startOfRun - roundsInRun)).foldl
    (fun g i => g.set col (h - startOfRun - i - 1) Cell.empty) g

/-- The east writer of `slide` (`w` is the grid width captured at entry). -/
def writeEast (w : Nat) (g : Grid) (roundsInRun startOfRun row col : Nat) : Grid :=
  let g := (List.range roundsInRun).foldl
    (fun g i => g.set (w - startOfRun - i - 1) row Cell.round) g
  (List.range' roundsInRun (col - startOfRun - roundsInRun)).foldl
    (fun g i => g.set (w - startOfRun - i - 1) row Cell.empty) g

/-- `slide` of `day14.rs`: one directional settle pass, dispatching the four
cell-access and write-back closures of the source. -/
def slide (g : Grid) (d : Dir) : Grid :=
  let w := g.width
  let h := g.height
  match d with
  | Dir.north => slideHelper (fun g col row => g.get col row) writeNorth w h g
  | Dir.west => slideHelper (fun g row col => g.get col row) writeWest h w g
  | Dir.south =>
    slideHelper (fun g col row => g.get col (h - row - 1)) (writeSouth h) w h g
  | Dir.east =>
    slideHelper (fun g row col => g.get (w - col - 1) row) (writeEast w) h w g

/-- `spin_cycle`: slide north, west, south, east. -/
def spinCycle (g : Grid) : Grid :=
  slide (slide (slide (slide g Dir.north) Dir.west) Dir.south) Dir.east

/-- `total_load`: every round rock contributes `height - y`. -/
def totalLoad (g : Grid) : Nat :=
  (List.range g.height).foldl (fun total y =>
    (List.range g.width).foldl (fun total x =>
      if g.get x y = Cell.round then total + (g.height - y) else total) total) 0

/-- C7: a grid that is a fixed point of each directional slide (no movable
cell can shift in any of the four directions) is unchanged by one full spin
cycle (north, west, south, east). -/
theorem spin_cycle_fixed_of_settled (g : Grid)
    (hn : slide g Dir.north = g) (hw : slide g Dir.west = g)
    (hs : slide g Dir.south = g) (he : slide g Dir.east = g) :
    spinCycle g = g := by
  unfold spinCycle
  rw [hn, hw, hs, he]

/-- Witness for `spin_cycle_fixed_of_settled`: the fully packed 2×2 grid is a
fixed point of all four slides and of the spin cycle. -/
theorem spin_cycle_fixed_of_settled_witness :
    (slide ⟨[Cell.round, Cell.round, Cell.round, Cell.round], 2, 2⟩ Dir.north
        = ⟨[Cell.round, Cell.round, Cell.round, Cell.round], 2, 2⟩ ∧
      slide ⟨[Cell.round, Cell.round, Cell.round, Cell.round], 2, 2⟩ Dir.west
        = ⟨[Cell.round, Cell.round, Cell.round, Cell.round], 2, 2⟩ ∧
      slide ⟨[Cell.round, Cell.round, Cell.round, Cell.round], 2, 2⟩ Dir.south
        = ⟨[Cell.round, Cell.round, Cell.round, Cell.round], 2, 2⟩ ∧
      slide ⟨[Cell.round, Cell.round, Cell.round, Cell.round], 2, 2⟩ Dir.east
        = ⟨[Cell.round, Cell.round, Cell.round, Cell.round], 2, 2⟩) ∧
    spinCycle ⟨[Cell.round, Cell.round, Cell.round, Cell.round], 2, 2⟩
        = ⟨[Cell.round, Cell.round, Cell.round, Cell.round], 2, 2⟩ :=
  ⟨⟨by decide, by decide, by decide, by decide⟩,
    spin_cycle_fixed_of_settled _ (by decide) (by decide) (by decide) (by decide)⟩

theorem Grid.ext' {g1 g2 : Grid} (hc : g1.cells = g2.cells)
    (hw : g1.width = g2.width) (hh : g1.height = g2.height) : g1 = g2 := by
  cases g1
  cases g2
  simp_all

/-- Dimension and cell-count preservation for a grid-to-grid fold whose step
preserves them. -/
theorem foldl_grid_preserve {β : Type} (f : Grid → β → Grid)
    (hf : ∀ g b, (f g b).width = g.width ∧ (f g b).height = g.height ∧
      (f g b).cells.length = g.cells.length) :
    ∀ (L : List β) (g : Grid), (L.foldl f g).width = g.width ∧
      (L.foldl f g).height = g.height ∧ (L.foldl f g).cells.length = g.cells.length := by
  intro L
  induction L with
  | nil => intro g; exact ⟨rfl, rfl, rfl⟩
  | cons a L ih =>
    intro g
    rw [List.foldl_cons]
    obtain ⟨h1, h2, h3⟩ := ih (f g a)
    obtain ⟨k1, k2, k3⟩ := hf g a
    exact ⟨h1.trans k1, h2.trans k2, h3.trans k3⟩

theorem set_preserve (g : Grid) (x y : Nat) (c : Cell) :
    (g.set x y c).width = g.width ∧ (g.set x y c).height = g.height ∧
      (g.set x y c).cells.length = g.cells.length :=
  ⟨rfl, rfl, by simp [Grid.set]⟩

/-- A writer preserves the dimensions and the cell count. -/
def WriterPreserves (write : Grid → Nat → Nat → Nat → Nat → Grid) : Prop :=
  ∀ g a b c d, (write g a b c d).width = g.width ∧ (write g a b c d).height = g.height ∧
    (write g a b c d).cells.length = g.cells.length

theorem writeNorth_preserve : WriterPreserves writeNorth := by
  intro g a b c d
  unfold writeNorth
  obtain ⟨h1, h2, h3⟩ := foldl_grid_preserve _ (fun g i => set_preserve g c (b + i) Cell.round)
    (List.range a) g
  obtain ⟨k1, k2, k3⟩ := foldl_grid_preserve _ (fun g i => set_preserve g c (b + i) Cell.empty)
    (List.range' a (d - b - a)) _
  exact ⟨k1.trans h1, k2.trans h2, k3.trans h3⟩

theorem writeWest_preserve : WriterPreserves writeWest := by
  intro g a b c d
  unfold writeWest
  obtain ⟨h1, h2, h3⟩ := foldl_grid_preserve _ (fun g i => set_preserve g (b + i) c Cell.round)
    (List.range a) g
  obtain ⟨k1, k2, k3⟩ := foldl_grid_preserve _ (fun g i => set_preserve g (b + i) c Cell.empty)
    (List.range' a (d - b - a)) _
  exact ⟨k1.trans h1, k2.trans h2, k3.trans h3⟩

theorem writeSouth_preserve (h : Nat) : WriterPreserves (writeSouth h) := by
  intro g a b c d
  unfold writeSouth
  obtain ⟨h1, h2, h3⟩ := foldl_grid_preserve _
    (fun g i => set_preserve g c (h - b - i - 1) Cell.round) (List.range a) g
  obtain ⟨k1, k2, k3⟩ := foldl_grid_preserve _
    (fun g i => set_preserve g c (h - b - i - 1) Cell.empty) (List.range' a (d - b - a)) _
  exact ⟨k1.trans h1, k2.trans h2, k3.trans h3⟩

theorem writeEast_preserve (w : Nat) : WriterPreserves (writeEast w) := by
  intro g a b c d
  unfold writeEast
  obtain ⟨h1, h2, h3⟩ := foldl_grid_preserve _
    (fun g i => set_preserve g (w - b - i - 1) c Cell.round) (List.range a) g
  obtain ⟨k1, k2, k3⟩ := foldl_grid_preserve _
    (fun g i => set_preserve g (w - b - i - 1) c Cell.empty) (List.range' a (d - b - a)) _
  exact ⟨k1.trans h1, k2.trans h2, k3.trans h3⟩

theorem scanStep_preserve {cell : Grid → Nat → Nat → Cell}
    {write : Grid → Nat → Nat → Nat → Nat → Grid} (hw : WriterPreserves write)
    (i : Nat) (s : ScanState) (j : Nat) :
    (scanStep cell write i s j).g.width = s.g.width ∧
      (scanStep cell write i s j).g.height = s.g.height ∧
      (scanStep cell write i s j).g.cells.length = s.g.cells.length := by
  unfold scanStep
  split
  · exact ⟨rfl, rfl, rfl⟩
  · exact ⟨rfl, rfl, rfl⟩
  · dsimp only
    split
    · exact hw s.g s.roundsInRun s.startOfRun i j
    · exact ⟨rfl, rfl, rfl⟩

theorem scanFold_preserve {cell : Grid → Nat → Nat → Cell}
    {write : Grid → Nat → Nat → Nat → Nat → Grid} (hw : WriterPreserves write)
    (i : Nat) : ∀ (L : List Nat) (s : ScanState),
    (L.foldl (scanStep cell write i) s).g.width = s.g.width ∧
      (L.foldl (scanStep cell write i) s).g.height = s.g.height ∧
      (L.foldl (scanStep cell write i) s).g.cells.length = s.g.cells.length := by
  intro L
  induction L with
  | nil => intro s; exact ⟨rfl, rfl, rfl⟩
  | cons a L ih =>
    intro s
    rw [List.foldl_cons]
    obtain ⟨h1, h2, h3⟩ := ih (scanStep cell write i s a)
    obtain ⟨k1, k2, k3⟩ := scanStep_preserve hw i s a
    exact ⟨h1.trans k1, h2.trans k2, h3.trans k3⟩

theorem scanLine_preserve {cell : Grid → Nat → Nat → Cell}
    {write : Grid → Nat → Nat → Nat → Nat → Grid} (hw : WriterPreserves write)
    (innerLen : Nat) (g : Grid) (i : Nat) :
    (scanLine cell write innerLen g i).width = g.width ∧
      (scanLine cell write innerLen g i).height = g.height ∧
      (scanLine cell write innerLen g i).cells.length = g.cells.length := by
  unfold scanLine
  dsimp only
  obtain ⟨h1, h2, h3⟩ := scanFold_preserve hw i (List.range innerLen) ⟨g, 0, 0⟩
  split
  · obtain ⟨k1, k2, k3⟩ := hw ((List.range innerLen).foldl (scanStep cell write i) ⟨g, 0, 0⟩).g
      ((List.range innerLen).foldl (scanStep cell write i) ⟨g, 0, 0⟩).roundsInRun
      ((List.range innerLen).foldl (scanStep cell write i) ⟨g, 0, 0⟩).startOfRun i innerLen
    exact ⟨k1.trans h1, k2.trans h2, k3.trans h3⟩
  · exact ⟨h1, h2, h3⟩

theorem slideHelper_preserve {cell : Grid → Nat → Nat → Cell}
    {write : Grid → Nat → Nat → Nat → Nat → Grid} (hw : WriterPreserves write)
    (outerLen innerLen : Nat) (g : Grid) :
    (slideHelper cell write outerLen innerLen g).width = g.width ∧
      (slideHelper cell write outerLen innerLen g).height = g.height ∧
      (slideHelper cell write outerLen innerLen g).cells.length = g.cells.length := by
  unfold slideHelper
  exact foldl_grid_preserve _ (fun g i => scanLine_preserve hw innerLen g i)
    (List.range outerLen) g

/-- `slide` preserves the dimensions and the cell count. -/
theorem slide_preserve (g : Grid) (d : Dir) :
    (slide g d).width = g.width ∧ (slide g d).height = g.height ∧
      (slide g d).cells.length = g.cells.length := by
  cases d
  · exact slideHelper_preserve writeNorth_preserve _ _ g
  · exact slideHelper_preserve writeWest_preserve _ _ g
  · exact slideHelper_preserve (writeSouth_preserve g.height) _ _ g
  · exact slideHelper_preserve (writeEast_preserve g.width) _ _ g

theorem spinCycle_preserve (g : Grid) :
    (spinCycle g).width = g.width ∧ (spinCycle g).height = g.height ∧
      (spinCycle g).cells.length = g.cells.length := by
  unfold spinCycle
  obtain ⟨a1, a2, a3⟩ := slide_preserve g Dir.north
  obtain ⟨b1, b2, b3⟩ := slide_preserve (slide g Dir.north) Dir.west
  obtain ⟨c1, c2, c3⟩ := slide_preserve (slide (slide g Dir.north) Dir.west) Dir.south
  obtain ⟨d1, d2, d3⟩ :=
    slide_preserve (slide (slide (slide g Dir.north) Dir.west) Dir.south) Dir.east
  exact ⟨(d1.trans c1).trans (b1.trans a1), (d2.trans c2).trans (b2.trans a2),
    (d3.trans c3).trans (b3.trans a3)⟩

/-- The spin-cycle iteration sequence: the grid after `n` full cycles. -/
def spinSeq (g : Grid) (n : Nat) : Grid := spinCycle^[n] g

theorem spinSeq_preserve (g : Grid) : ∀ n,
    (spinSeq g n).width = g.width ∧ (spinSeq g n).height = g.height ∧
      (spinSeq g n).cells.length = g.cells.length := by
  intro n
  induction n with
  | zero => exact ⟨rfl, rfl, rfl⟩
  | succ n ih =>
    obtain ⟨h1, h2, h3⟩ := ih
    have hs : spinSeq g (n + 1) = spinCycle (spinSeq g n) := by
      unfold spinSeq
      rw [Function.iterate_succ_apply']
    obtain ⟨k1, k2, k3⟩ := spinCycle_preserve (spinSeq g n)
    rw [hs]
    exact ⟨k1.trans h1, k2.trans h2, k3.trans h3⟩

/-- The spin-cycle state sequence must repeat: the states live in the finite
set of cell lists of the fixed length (the simulation loop of `part2` always
terminates with a hit in `seen`). -/
theorem spinSeq_repeat_exists (g : Grid) :
    ∃ i, 0 < i ∧ ∃ p, p < i ∧ spinSeq g p = spinSeq g i := by
  have hlen : ∀ n, (spinSeq g n).cells.length = g.cells.length :=
    fun n => (spinSeq_preserve g n).2.2
  haveI hfin : Finite (Mathlib.Vector Cell g.cells.length) := Finite.of_fintype _
  obtain ⟨a, b, hne, heq⟩ := Finite.exists_ne_map_eq_of_infinite
    (β := Mathlib.Vector Cell g.cells.length)
    (fun n : Nat => ⟨(spinSeq g n).cells, hlen n⟩)
  have hcells : (spinSeq g a).cells = (spinSeq g b).cells := congrArg Subtype.val heq
  have hgeq : spinSeq g a = spinSeq g b :=
    Grid.ext' hcells
      (((spinSeq_preserve g a).1).trans ((spinSeq_preserve g b).1).symm)
      (((spinSeq_preserve g a).2.1).trans ((spinSeq_preserve g b).2.1).symm)
  rcases Nat.lt_or_ge a b with hab | hab
  · exact ⟨b, by omega, a, hab, hgeq⟩
  · have hba : b < a := by omega
    exact ⟨a, by omega, b, hba, hgeq.symm⟩

/-- The loop index `i` at which `part2`'s `seen.get(&grid)` first hits: the
least iteration whose state already occurred. -/
def firstRep (g : Grid) : Nat := Nat.find (spinSeq_repeat_exists g)

theorem firstOcc_exists (g : Grid) :
    ∃ p, p < firstRep g ∧ spinSeq g p = spinSeq g (firstRep g) :=
  (Nat.find_spec (spinSeq_repeat_exists g)).2

/-- The iteration stored in `seen` for the repeated state (`prev` in the
source): before the first repeat all states are distinct, so the matching
earlier iteration is unique and equals the least one. -/
def firstOcc (g : Grid) : Nat := Nat.find (firstOcc_exists g)

/-- The grid on which `part2` of `day14.rs` computes its answer: from the
first repeated state, replay `(1_000_000_000 - i) % (i - prev)` further
cycles. (The `usize` subtraction `1_000_000_000 - i` is modelled by the
truncating `Nat` subtraction; `i ≤ 10^9`, the hypothesis of the claim, is
exactly the regime in which the source subtraction does not underflow.) -/
def part2State (g : Grid) : Grid :=
  spinCycle^[(1000000000 - firstRep g) % (firstRep g - firstOcc g)]
    (spinSeq g (firstRep g))

/-- `part2` of `day14.rs` (total load of the fast-forwarded state). -/
def part2 (g : Grid) : Nat := totalLoad (part2State g)

theorem spinSeq_congr (g : Grid) {m n : Nat} (h : m = n) : spinSeq g m = spinSeq g n :=
  congrArg (spinSeq g) h

theorem spinSeq_add (g : Grid) (m n : Nat) :
    spinSeq g (m + n) = spinCycle^[m] (spinSeq g n) := by
  unfold spinSeq
  exact Function.iterate_add_apply spinCycle m n g

/-- Periodicity of the state sequence from the first occurrence onward. -/
theorem spinSeq_period (g : Grid) :
    ∀ n, firstOcc g ≤ n →
      spinSeq g (n + (firstRep g - firstOcc g)) = spinSeq g n := by
  have hocc := Nat.find_spec (firstOcc_exists g)
  have hlt : firstOcc g < firstRep g := hocc.1
  have heq : spinSeq g (firstOcc g) = spinSeq g (firstRep g) := hocc.2
  intro n hn
  calc spinSeq g (n + (firstRep g - firstOcc g))
      = spinSeq g ((n - firstOcc g) + firstRep g) := spinSeq_congr g (by omega)
    _ = spinCycle^[n - firstOcc g] (spinSeq g (firstRep g)) := spinSeq_add g _ _
    _ = spinCycle^[n - firstOcc g] (spinSeq g (firstOcc g)) := by rw [heq]
    _ = spinSeq g ((n - firstOcc g) + firstOcc g) := (spinSeq_add g _ _).symm
    _ = spinSeq g n := spinSeq_congr g (by omega)

theorem spinSeq_period_mul (g : Grid) :
    ∀ (q n : Nat), firstOcc g ≤ n →
      spinSeq g (n + q * (firstRep g - firstOcc g)) = spinSeq g n := by
  intro q
  induction q with
  | zero => intro n _; exact spinSeq_congr g (by omega)
  | succ q ih =>
    intro n hn
    calc spinSeq g (n + (q + 1) * (firstRep g - firstOcc g))
        = spinSeq g ((n + (firstRep g - firstOcc g)) + q * (firstRep g - firstOcc g)) :=
          spinSeq_congr g (by ring)
      _ = spinSeq g (n + (firstRep g - firstOcc g)) := ih _ (by omega)
      _ = spinSeq g n := spinSeq_period g n hn

/-- C3: whenever the first repeated spin-cycle state occurs at an iteration
`i ≤ 10^9`, the grid state computed by `part2`'s cycle-detection fast-forward
(detect the first repeat at iteration `i` of the state first seen at iteration
`p`, then replay `(10^9 - i) % (i - p)` further spin cycles) equals the state
obtained by literally applying `spin_cycle` one billion times, and `part2`
returns the total load of that state. -/
theorem part2_fast_forward_correct (g : Grid) (hle : firstRep g ≤ 1000000000) :
    part2State g = spinSeq g 1000000000 ∧
      part2 g = totalLoad (spinSeq g 1000000000) := by
  have hocc := Nat.find_spec (firstOcc_exists g)
  have hlt : firstOcc g < firstRep g := hocc.1
  have hL : 0 < firstRep g - firstOcc g := by omega
  have hdm := Nat.div_add_mod (1000000000 - firstRep g) (firstRep g - firstOcc g)
  set L := firstRep g - firstOcc g with hLdef
  set q := (1000000000 - firstRep g) / L with hqdef
  set rem := (1000000000 - firstRep g) % L with hremdef
  have hql : q * L = L * q := Nat.mul_comm _ _
  have hstate : part2State g = spinSeq g 1000000000 := by
    unfold part2State
    rw [← hLdef, ← hremdef]
    have h9 : spinSeq g 1000000000 = spinSeq g (firstRep g + rem) := by
      calc spinSeq g 1000000000
          = spinSeq g ((firstRep g + rem) + q * L) := spinSeq_congr g (by omega)
        _ = spinSeq g (firstRep g + rem) := spinSeq_period_mul g q _ (by omega)
    calc spinCycle^[rem] (spinSeq g (firstRep g))
        = spinSeq g (rem + firstRep g) := (spinSeq_add g _ _).symm
      _ = spinSeq g (firstRep g + rem) := spinSeq_congr g (by omega)
      _ = spinSeq g 1000000000 := h9.symm
  exact ⟨hstate, congrArg totalLoad hstate⟩

/-- Witness for `part2_fast_forward_correct` on the 1×1 grid holding one round
rock (a fixed point of the spin cycle, so the first repeat is at iteration 1). -/
theorem part2_fast_forward_correct_witness :
    firstRep ⟨[Cell.round], 1, 1⟩ ≤ 1000000000 ∧
      (part2State ⟨[Cell.round], 1, 1⟩ = spinSeq ⟨[Cell.round], 1, 1⟩ 1000000000 ∧
        part2 ⟨[Cell.round], 1, 1⟩
          = totalLoad (spinSeq ⟨[Cell.round], 1, 1⟩ 1000000000)) := by
  have h1 : firstRep ⟨[Cell.round], 1, 1⟩ ≤ 1 := by
    unfold firstRep
    apply Nat.find_le
    exact ⟨Nat.one_pos, 0, Nat.zero_lt_one, by decide⟩
  have hle : firstRep ⟨[Cell.round], 1, 1⟩ ≤ 1000000000 := by omega
  exact ⟨hle, part2_fast_forward_correct _ hle⟩

/-- Non-obstacle test used to delimit the scanned runs. -/
def notSq : Cell → Bool
  | Cell.square => false
  | _ => true

/-- A maximal obstacle-free segment, settled: the round rocks packed at the
start, the empties after. -/
def settleSeg (seg : List Cell) : List Cell :=
  List.replicate (seg.count Cell.round) Cell.round
    ++ List.replicate (seg.length - seg.count Cell.round) Cell.empty

/-- The settled form of one scanned line: every obstacle-delimited segment is
settled in place, obstacles stay put. -/
def settleLine (l : List Cell) : List Cell :=
  match h : l.dropWhile notSq with
  | [] => settleSeg l
  | c :: t => settleSeg (l.takeWhile notSq) ++ c :: settleLine t
termination_by l.length
decreasing_by
  have hd := (List.dropWhile_sublist notSq (l := l)).length_le
  rw [h] at hd
  simp only [List.length_cons] at hd
  omega

/-- The obstacle-delimited segments of a line, in order (adjacent obstacles
yield empty segments). -/
def splitSq : List Cell → List (List Cell)
  | [] => [[]]
  | Cell.square :: t => [] :: splitSq t
  | c :: t =>
    match splitSq t with
    | [] => [[c]]
    | s :: ss => (c :: s) :: ss

/-- The number of round rocks in each obstacle-delimited segment of a line. -/
def segRoundCounts (l : List Cell) : List Nat :=
  (splitSq l).map (fun s => s.count Cell.round)

theorem cell_count_partition (l : List Cell) :
    l.count Cell.empty + l.count Cell.round + l.count Cell.square = l.length := by
  induction l with
  | nil => rfl
  | cons c t ih =>
    cases c <;> simp only [List.count_cons, List.length_cons] <;> simp <;> omega

theorem settleSeg_length (seg : List Cell) : (settleSeg seg).length = seg.length := by
  unfold settleSeg
  have := List.count_le_length Cell.round seg
  simp only [List.length_append, List.length_replicate]
  omega

theorem settleSeg_count_round (seg : List Cell) :
    (settleSeg seg).count Cell.round = seg.count Cell.round := by
  unfold settleSeg
  rw [List.count_append, List.count_replicate, List.count_replicate]
  simp

theorem settleSeg_count_square (seg : List Cell) :
    (settleSeg seg).count Cell.square = 0 := by
  unfold settleSeg
  rw [List.count_append, List.count_replicate, List.count_replicate]
  simp

theorem settleSeg_count_empty (seg : List Cell) :
    (settleSeg seg).count Cell.empty = seg.length - seg.count Cell.round := by
  unfold settleSeg
  rw [List.count_append, List.count_replicate, List.count_replicate]
  simp

theorem settleSeg_no_square (seg : List Cell) (k : Nat) :
    (settleSeg seg).getD k Cell.empty ≠ Cell.square := by
  unfold settleSeg
  intro hcon
  by_cases hk : k < (settleSeg seg).length
  · have hmem : (settleSeg seg).getD k Cell.empty ∈ settleSeg seg := by
      rw [List.getD_eq_getElem _ _ (by
        rw [settleSeg_length] at hk
        rw [← settleSeg_length seg] at hk
        unfold settleSeg at hk
        exact hk)]
      exact List.getElem_mem _
    unfold settleSeg at hmem
    rw [hcon] at hmem
    rw [List.mem_append] at hmem
    rcases hmem with hmem | hmem <;>
      exact absurd (List.eq_of_mem_replicate hmem) (by simp)
  · rw [List.getD_eq_getElem?_getD, List.getElem?_eq_none (by
      rw [settleSeg_length] at hk
      rw [← settleSeg_length seg] at hk
      unfold settleSeg at hk
      omega)] at hcon
    simp at hcon

theorem settleLine_eq_nil {l : List Cell} (h : l.dropWhile notSq = []) :
    settleLine l = settleSeg l := by
  rw [settleLine.eq_def]
  split
  · rfl
  · rename_i c t heq
    rw [h] at heq
    cases heq

theorem settleLine_eq_cons {l : List Cell} {c : Cell} {t : List Cell}
    (h : l.dropWhile notSq = c :: t) :
    settleLine l = settleSeg (l.takeWhile notSq) ++ c :: settleLine t := by
  rw [settleLine.eq_def]
  split
  · rename_i heq
    rw [h] at heq
    cases heq
  · rename_i c' t' heq
    rw [h] at heq
    injection heq with h1 h2
    subst h1
    subst h2
    rfl

theorem dropWhile_notSq_head {l : List Cell} {c : Cell} {t : List Cell}
    (h : l.dropWhile notSq = c :: t) : c = Cell.square := by
  have hne : l.dropWhile notSq ≠ [] := by rw [h]; simp
  have h2 := List.head_dropWhile_not notSq l hne
  have h3 : (l.dropWhile notSq).head? = some c := by rw [h]; rfl
  rw [List.head?_eq_head hne] at h3
  injection h3 with h3
  rw [h3] at h2
  cases c
  · simp [notSq] at h2
  · simp [notSq] at h2
  · rfl

theorem takeWhile_decomp {l : List Cell} {c : Cell} {t : List Cell}
    (h : l.dropWhile notSq = c :: t) : l = l.takeWhile notSq ++ c :: t := by
  conv_lhs => rw [← List.takeWhile_append_dropWhile (p := notSq) (l := l)]
  rw [h]

theorem settleLine_length : ∀ l : List Cell, (settleLine l).length = l.length := by
  intro l
  induction l using settleLine.induct with
  | case1 l hdrop =>
    rw [settleLine_eq_nil hdrop, settleSeg_length]
  | case2 l c t hdrop ih =>
    rw [settleLine_eq_cons hdrop]
    conv_rhs => rw [takeWhile_decomp hdrop]
    simp only [List.length_append, List.length_cons, settleSeg_length, ih]

theorem settleLine_count : ∀ (l : List Cell) (c : Cell),
    (settleLine l).count c = l.count c := by
  intro l
  induction l using settleLine.induct with
  | case1 l hdrop =>
    intro c
    rw [settleLine_eq_nil hdrop]
    have hall := List.dropWhile_eq_nil_iff.mp hdrop
    cases c
    · rw [settleSeg_count_empty]
      have hsq : l.count Cell.square = 0 := by
        rw [List.count_eq_zero]
        intro hmem
        have := hall _ hmem
        simp [notSq] at this
      have := cell_count_partition l
      omega
    · exact settleSeg_count_round l
    · rw [settleSeg_count_square]
      rw [eq_comm, List.count_eq_zero]
      intro hmem
      have := hall _ hmem
      simp [notSq] at this
  | case2 l c t hdrop ih =>
    intro d
    rw [settleLine_eq_cons hdrop]
    conv_rhs => rw [takeWhile_decomp hdrop]
    rw [List.count_append, List.count_append, List.count_cons, List.count_cons, ih]
    have htw := List.dropWhile_eq_nil_iff.mp
      (show (l.takeWhile notSq).dropWhile notSq = [] from by
        rw [List.dropWhile_eq_nil_iff]
        intro x hx
        exact List.mem_takeWhile_imp hx)
    have hseg : ∀ d, (settleSeg (l.takeWhile notSq)).count d = (l.takeWhile notSq).count d := by
      intro d
      cases d
      · rw [settleSeg_count_empty]
        have hsq : (l.takeWhile notSq).count Cell.square = 0 := by
          rw [List.count_eq_zero]
          intro hmem
          have := List.mem_takeWhile_imp hmem
          simp [notSq] at this
        have := cell_count_partition (l.takeWhile notSq)
        omega
      · exact settleSeg_count_round _
      · rw [settleSeg_count_square]
        rw [eq_comm, List.count_eq_zero]
        intro hmem
        have := List.mem_takeWhile_imp hmem
        simp [notSq] at this
    rw [hseg]

theorem getD_no_square_of_sqfree {a : List Cell} (ha : ∀ x ∈ a, notSq x = true)
    (k : Nat) : a.getD k Cell.empty ≠ Cell.square := by
  intro hcon
  by_cases hk : k < a.length
  · have hmem : a.getD k Cell.empty ∈ a := by
      rw [List.getD_eq_getElem _ _ hk]
      exact List.getElem_mem _
    rw [hcon] at hmem
    have := ha _ hmem
    simp [notSq] at this
  · rw [List.getD_eq_getElem?_getD, List.getElem?_eq_none (by omega)] at hcon
    simp at hcon

theorem settleLine_square_pos : ∀ (l : List Cell) (k : Nat),
    ((settleLine l).getD k Cell.empty = Cell.square ↔ l.getD k Cell.empty = Cell.square) := by
  intro l
  induction l using settleLine.induct with
  | case1 l hdrop =>
    intro k
    rw [settleLine_eq_nil hdrop]
    have hall := List.dropWhile_eq_nil_iff.mp hdrop
    constructor
    · intro hcon
      exact absurd hcon (settleSeg_no_square l k)
    · intro hcon
      exact absurd hcon (getD_no_square_of_sqfree hall k)
  | case2 l c t hdrop ih =>
    intro k
    have hc := dropWhile_notSq_head hdrop
    subst hc
    have htw : ∀ x ∈ l.takeWhile notSq, notSq x = true := fun x hx => List.mem_takeWhile_imp hx
    have hlen : (settleSeg (l.takeWhile notSq)).length = (l.takeWhile notSq).length :=
      settleSeg_length _
    rw [settleLine_eq_cons hdrop]
    conv_rhs => rw [takeWhile_decomp hdrop]
    rcases Nat.lt_trichotomy k (l.takeWhile notSq).length with hk | hk | hk
    · rw [List.getD_append _ _ _ _ (by omega), List.getD_append _ _ _ _ hk]
      constructor
      · intro hcon
        exact absurd hcon (settleSeg_no_square _ k)
      · intro hcon
        exact absurd hcon (getD_no_square_of_sqfree htw k)
    · rw [List.getD_append_right _ _ _ _ (by omega), List.getD_append_right _ _ _ _ (by omega)]
      rw [hlen, hk]
      simp
    · rw [List.getD_append_right _ _ _ _ (by omega), List.getD_append_right _ _ _ _ (by omega)]
      rw [hlen]
      have h1 : k - (l.takeWhile notSq).length = (k - (l.takeWhile notSq).length - 1) + 1 := by
        omega
      rw [h1]
      simp only [List.getD_cons_succ]
      exact ih _

theorem settleSeg_sqfree (seg : List Cell) : ∀ x ∈ settleSeg seg, notSq x = true := by
  intro x hx
  unfold settleSeg at hx
  rw [List.mem_append] at hx
  rcases hx with hx | hx <;> rw [List.eq_of_mem_replicate hx] <;> rfl

theorem splitSq_sqfree (a : List Cell) (ha : ∀ x ∈ a, notSq x = true) :
    splitSq a = [a] := by
  induction a with
  | nil => rfl
  | cons c t ih =>
    have hc := ha c (List.mem_cons_self c t)
    have ht := ih (fun x hx => ha x (List.mem_cons_of_mem c hx))
    cases c
    · simp [splitSq, ht]
    · simp [splitSq, ht]
    · simp [notSq] at hc

theorem splitSq_append_sqfree (a : List Cell) (ha : ∀ x ∈ a, notSq x = true)
    (r : List Cell) : splitSq (a ++ Cell.square :: r) = a :: splitSq r := by
  induction a with
  | nil => simp [splitSq]
  | cons c t ih =>
    have hc := ha c (List.mem_cons_self c t)
    have ht := ih (fun x hx => ha x (List.mem_cons_of_mem c hx))
    cases c
    · simp only [List.cons_append, splitSq, List.append_eq, ht]
    · simp only [List.cons_append, splitSq, List.append_eq, ht]
    · simp [notSq] at hc

theorem settleLine_segcounts : ∀ l : List Cell,
    segRoundCounts (settleLine l) = segRoundCounts l := by
  intro l
  induction l using settleLine.induct with
  | case1 l hdrop =>
    rw [settleLine_eq_nil hdrop]
    have hall := List.dropWhile_eq_nil_iff.mp hdrop
    unfold segRoundCounts
    rw [splitSq_sqfree l hall, splitSq_sqfree (settleSeg l) (settleSeg_sqfree l)]
    simp [settleSeg_count_round]
  | case2 l c t hdrop ih =>
    have hc := dropWhile_notSq_head hdrop
    subst hc
    have htw : ∀ x ∈ l.takeWhile notSq, notSq x = true := fun x hx => List.mem_takeWhile_imp hx
    rw [settleLine_eq_cons hdrop]
    conv_rhs => rw [takeWhile_decomp hdrop]
    unfold segRoundCounts
    rw [splitSq_append_sqfree _ (settleSeg_sqfree _), splitSq_append_sqfree _ htw]
    simp only [List.map_cons, settleSeg_count_round]
    unfold segRoundCounts at ih
    rw [ih]

/-- Generic form of the four write-back closures: the cells of line `i` at
offsets `s ..< s + r` become round, those at `s + r ..< j` become empty, where
`pos i j` is the flat index of offset `j` of line `i`. Each directional writer
equals this form for its own index map (proved below). -/
def posWrite (pos : Nat → Nat → Nat) (g : Grid) (r s i j : Nat) : Grid :=
  let g := (List.range r).foldl
    (fun g k => { g with cells := g.cells.set (pos i (s + k)) Cell.round }) g
  (List.range' r (j - s - r)).foldl
    (fun g k => { g with cells := g.cells.set (pos i (s + k)) Cell.empty }) g

/-- The view of scanned line `i` under the index map `pos`. -/
def lineAt (pos : Nat → Nat → Nat) (inner : Nat) (g : Grid) (i : Nat) : List Cell :=
  (List.range inner).map (fun j => g.cells.getD (pos i j) Cell.empty)

theorem lineAt_length (pos : Nat → Nat → Nat) (inner : Nat) (g : Grid) (i : Nat) :
    (lineAt pos inner g i).length = inner := by
  unfold lineAt
  simp

theorem lineAt_getD (pos : Nat → Nat → Nat) {inner : Nat} (g : Grid) (i : Nat)
    {j : Nat} (hj : j < inner) :
    (lineAt pos inner g i).getD j Cell.empty = g.cells.getD (pos i j) Cell.empty := by
  unfold lineAt
  rw [List.getD_eq_getElem _ _ (by simpa using hj)]
  simp

theorem foldl_set_cells_getD (f : Nat → Nat) (c : Cell) :
    ∀ (L : List Nat) (g : Grid) (m : Nat),
    ((L.foldl (fun g k => { g with cells := g.cells.set (f k) c }) g).cells.getD m Cell.empty)
      = if m < g.cells.length ∧ ∃ k ∈ L, f k = m then c
        else g.cells.getD m Cell.empty := by
  intro L
  induction L with
  | nil =>
    intro g m
    simp
  | cons a L ih =>
    intro g m
    rw [List.foldl_cons, ih]
    simp only [List.length_set]
    by_cases hm : m < g.cells.length
    · by_cases hL : ∃ k ∈ L, f k = m
      · rw [if_pos ⟨hm, hL⟩,
          if_pos ⟨hm, hL.imp (fun k hk => ⟨List.mem_cons_of_mem a hk.1, hk.2⟩)⟩]
      · rw [if_neg (by rintro ⟨_, hL'⟩; exact hL hL')]
        by_cases hfa : f a = m
        · rw [if_pos ⟨hm, a, List.mem_cons_self a L, hfa⟩]
          rw [List.getD_eq_getElem?_getD]
          rw [show (g.cells.set (f a) c) = g.cells.set m c from by rw [hfa]]
          rw [List.getElem?_set_self hm]
          rfl
        · rw [if_neg (by
            rintro ⟨_, k, hk, hfk⟩
            rw [List.mem_cons] at hk
            rcases hk with rfl | hk
            · exact hfa hfk
            · exact hL ⟨k, hk, hfk⟩)]
          rw [List.getD_eq_getElem?_getD, List.getD_eq_getElem?_getD,
            List.getElem?_set_ne (fun hcon => hfa hcon)]
    · rw [if_neg (by rintro ⟨h, _⟩; exact hm h), if_neg (by rintro ⟨h, _⟩; exact hm h)]
      rw [List.getD_eq_getElem?_getD, List.getD_eq_getElem?_getD,
        List.getElem?_eq_none (by simp only [List.length_set]; omega),
        List.getElem?_eq_none (by omega)]

theorem posWrite_preserve (pos : Nat → Nat → Nat) : WriterPreserves (posWrite pos) := by
  intro g r s i j
  unfold posWrite
  obtain ⟨h1, h2, h3⟩ := foldl_grid_preserve
    (fun g k => { g with cells := g.cells.set (pos i (s + k)) Cell.round })
    (fun g k => ⟨rfl, rfl, by simp⟩) (List.range r) g
  obtain ⟨k1, k2, k3⟩ := foldl_grid_preserve
    (fun g k => { g with cells := g.cells.set (pos i (s + k)) Cell.empty })
    (fun g k => ⟨rfl, rfl, by simp⟩) (List.range' r (j - s - r)) _
  exact ⟨k1.trans h1, k2.trans h2, k3.trans h3⟩

/-- What `posWrite` leaves at flat index `m`, in terms of the two write
loops. -/
theorem posWrite_getD (pos : Nat → Nat → Nat) (g : Grid) (r s i j m : Nat) :
    (posWrite pos g r s i j).cells.getD m Cell.empty
      = if m < g.cells.length ∧ ∃ k ∈ List.range' r (j - s - r), pos i (s + k) = m
        then Cell.empty
        else if m < g.cells.length ∧ ∃ k ∈ List.range r, pos i (s + k) = m
        then Cell.round
        else g.cells.getD m Cell.empty := by
  unfold posWrite
  dsimp only
  obtain ⟨_, _, hlen⟩ := foldl_grid_preserve
    (fun g k => { g with cells := g.cells.set (pos i (s + k)) Cell.round })
    (fun g k => ⟨rfl, rfl, by simp⟩) (List.range r) g
  rw [foldl_set_cells_getD, hlen, foldl_set_cells_getD]

theorem posWrite_getD_empty {pos : Nat → Nat → Nat} {g : Grid} {r s i j m : Nat}
    (hm : m < g.cells.length) {k : Nat} (hk1 : r ≤ k) (hk2 : k < j - s)
    (hpos : pos i (s + k) = m) :
    (posWrite pos g r s i j).cells.getD m Cell.empty = Cell.empty := by
  rw [posWrite_getD]
  rw [if_pos ⟨hm, k, by rw [List.mem_range'_1]; omega, hpos⟩]

theorem posWrite_getD_round {pos : Nat → Nat → Nat} {g : Grid} {r s i j m : Nat}
    (hm : m < g.cells.length) {k : Nat} (hk : k < r)
    (hno : ∀ k', r ≤ k' → k' < j - s → pos i (s + k') ≠ m)
    (hpos : pos i (s + k) = m) :
    (posWrite pos g r s i j).cells.getD m Cell.empty = Cell.round := by
  rw [posWrite_getD]
  rw [if_neg (by
    rintro ⟨_, k', hk', hpos'⟩
    rw [List.mem_range'_1] at hk'
    exact hno k' hk'.1 (by omega) hpos')]
  rw [if_pos ⟨hm, k, by rw [List.mem_range]; omega, hpos⟩]

theorem posWrite_getD_untouched {pos : Nat → Nat → Nat} {g : Grid} {r s i j m : Nat}
    (hno : ∀ k, k < r ∨ (r ≤ k ∧ k < j - s) → pos i (s + k) ≠ m) :
    (posWrite pos g r s i j).cells.getD m Cell.empty = g.cells.getD m Cell.empty := by
  rw [posWrite_getD]
  rw [if_neg (by
    rintro ⟨_, k', hk', hpos'⟩
    rw [List.mem_range'_1] at hk'
    exact hno k' (Or.inr ⟨hk'.1, by omega⟩) hpos')]
  rw [if_neg (by
    rintro ⟨_, k', hk', hpos'⟩
    rw [List.mem_range] at hk'
    exact hno k' (Or.inl hk') hpos')]

theorem list_ext_getD {l1 l2 : List Cell} (hlen : l1.length = l2.length)
    (h : ∀ t, t < l1.length → l1.getD t Cell.empty = l2.getD t Cell.empty) : l1 = l2 := by
  apply List.ext_getElem hlen
  intro n h1 h2
  have := h n h1
  rwa [List.getD_eq_getElem _ _ h1, List.getD_eq_getElem _ _ h2] at this

theorem getD_replicate {c d : Cell} {n k : Nat} (hk : k < n) :
    (List.replicate n c).getD k d = c := by
  rw [List.getD_eq_getElem _ _ (by simpa using hk)]
  exact List.getElem_replicate c _

theorem getD_take {l : List Cell} {n k : Nat} (hk : k < n) :
    (l.take n).getD k Cell.empty = l.getD k Cell.empty := by
  rw [List.getD_eq_getElem?_getD, List.getD_eq_getElem?_getD, List.getElem?_take, if_pos hk]

theorem getD_drop (l : List Cell) (n k : Nat) :
    (l.drop n).getD k Cell.empty = l.getD (n + k) Cell.empty := by
  rw [List.getD_eq_getElem?_getD, List.getD_eq_getElem?_getD, List.getElem?_drop]

theorem dropWhile_sqfree_append (A B : List Cell) (hA : ∀ x ∈ A, notSq x = true) :
    (A ++ Cell.square :: B).dropWhile notSq = Cell.square :: B := by
  induction A with
  | nil => simp [List.dropWhile_cons, notSq]
  | cons a A ih =>
    have ha := hA a (List.mem_cons_self a A)
    rw [List.cons_append, List.dropWhile_cons, if_pos ha]
    exact ih (fun x hx => hA x (List.mem_cons_of_mem a hx))

theorem takeWhile_sqfree_append (A B : List Cell) (hA : ∀ x ∈ A, notSq x = true) :
    (A ++ Cell.square :: B).takeWhile notSq = A := by
  induction A with
  | nil => simp [List.takeWhile_cons, notSq]
  | cons a A ih =>
    have ha := hA a (List.mem_cons_self a A)
    rw [List.cons_append, List.takeWhile_cons, if_pos ha]
    rw [ih (fun x hx => hA x (List.mem_cons_of_mem a hx))]

/-- Settling a line that starts with a square-free prefix followed by an
obstacle settles the prefix in place and recurses past the obstacle. -/
theorem settleLine_sqfree_append_square (A B : List Cell)
    (hA : ∀ x ∈ A, notSq x = true) :
    settleLine (A ++ Cell.square :: B) = settleSeg A ++ Cell.square :: settleLine B := by
  rw [settleLine_eq_cons (dropWhile_sqfree_append A B hA), takeWhile_sqfree_append A B hA]

theorem settleLine_of_sqfree (A : List Cell) (hA : ∀ x ∈ A, notSq x = true) :
    settleLine A = settleSeg A :=
  settleLine_eq_nil (List.dropWhile_eq_nil_iff.mpr hA)

/-- A square-free segment whose round count is zero or full is already in
settled form (the source's write-back guard skips exactly these). -/
theorem settleSeg_of_uniform {seg : List Cell} (hsq : ∀ x ∈ seg, notSq x = true)
    (h : seg.count Cell.round = 0 ∨ seg.count Cell.round = seg.length) :
    settleSeg seg = seg := by
  rcases h with h | h
  · unfold settleSeg
    rw [h]
    simp only [List.replicate_zero, List.nil_append, Nat.sub_zero]
    symm
    rw [List.eq_replicate_iff]
    refine ⟨rfl, ?_⟩
    intro b hb
    cases hbv : b
    · rfl
    · exfalso
      rw [List.count_eq_zero] at h
      rw [hbv] at hb
      exact h hb
    · exfalso
      have := hsq _ hb
      rw [hbv] at this
      simp [notSq] at this
  · unfold settleSeg
    rw [h]
    simp only [Nat.sub_self, List.replicate_zero, List.append_nil]
    symm
    rw [List.eq_replicate_iff]
    exact ⟨rfl, fun b hb => (List.count_eq_length.mp h b hb).symm⟩

theorem slice_snoc {l : List Cell} {s j : Nat} (hs : s ≤ j) (hj : j < l.length) :
    (l.drop s).take (j + 1 - s) = (l.drop s).take (j - s) ++ [l.getD j Cell.empty] := by
  rw [show j + 1 - s = (j - s) + 1 from by omega, List.take_succ]
  congr 1
  rw [List.getElem?_drop, show s + (j - s) = j from by omega,
    List.getElem?_eq_getElem hj, List.getD_eq_getElem _ _ hj]
  rfl

theorem drop_split {l : List Cell} {s j : Nat} (hs : s ≤ j) :
    l.drop s = (l.drop s).take (j - s) ++ l.drop j := by
  conv_lhs => rw [← List.take_append_drop (j - s) (l.drop s)]
  rw [List.drop_drop, show s + (j - s) = j from by omega]

theorem take_split (l : List Cell) {s j : Nat} (hs : s ≤ j) :
    l.take j = l.take s ++ (l.drop s).take (j - s) := by
  conv_lhs => rw [show j = s + (j - s) from by omega]
  exact List.take_add l s (j - s)

/-- The abstract cell reader of the scan: the grid cell at flat index
`pos i j`. Each directional access closure equals this form for its own index
map (proved below). -/
def cellAt (pos : Nat → Nat → Nat) (g : Grid) (i j : Nat) : Cell :=
  g.cells.getD (pos i j) Cell.empty

/-- The view of line `i` after a write-back: positions `s ..< s + r` are round,
`s + r ..< j` empty, the rest of the line is untouched (the index map is
injective on the line and in bounds). -/
theorem lineAt_posWrite {pos : Nat → Nat → Nat} {inner : Nat} {g : Grid} {i : Nat}
    (hinj : ∀ t1, t1 < inner → ∀ t2, t2 < inner → pos i t1 = pos i t2 → t1 = t2)
    (hbound : ∀ t, t < inner → pos i t < g.cells.length)
    {r s j : Nat} (hsj : s ≤ j) (hji : j ≤ inner) (hr : r ≤ j - s) :
    lineAt pos inner (posWrite pos g r s i j) i
      = (lineAt pos inner g i).take s
        ++ (List.replicate r Cell.round
          ++ (List.replicate (j - s - r) Cell.empty
            ++ (lineAt pos inner g i).drop j)) := by
  apply list_ext_getD
  · simp only [lineAt_length, List.length_append, List.length_take, List.length_replicate,
      List.length_drop, lineAt_length]
    omega
  · intro t ht
    rw [lineAt_length] at ht
    rw [lineAt_getD pos _ i ht]
    have htake : ((lineAt pos inner g i).take s).length = s := by
      rw [List.length_take, lineAt_length]
      omega
    rcases Nat.lt_or_ge t s with hts | hts
    · rw [posWrite_getD_untouched (fun k hk hcon => by
        have hk2 : k < j - s := by rcases hk with hk | hk <;> omega
        have := hinj _ (by omega) _ ht hcon
        omega)]
      rw [← lineAt_getD pos g i ht]
      rw [List.getD_append _ _ _ _ (by omega)]
      exact (getD_take hts).symm
    · rw [List.getD_append_right _ _ _ _ (by omega), htake]
      rcases Nat.lt_or_ge t (s + r) with htr | htr
      · rw [posWrite_getD_round (hbound t ht) (k := t - s) (by omega)
          (fun k' hk1 hk2 hcon => by
            have := hinj _ (by omega) _ ht hcon
            omega)
          (by rw [show s + (t - s) = t from by omega])]
        rw [List.getD_append _ _ _ _ (by simp; omega)]
        exact (getD_replicate (by omega)).symm
      · rcases Nat.lt_or_ge t j with htj | htj
        · rw [posWrite_getD_empty (hbound t ht) (k := t - s) (by omega) (by omega)
            (by rw [show s + (t - s) = t from by omega])]
          rw [List.getD_append_right _ _ _ _ (by simp; omega)]
          rw [List.getD_append _ _ _ _ (by simp; omega)]
          simp only [List.length_replicate]
          exact (getD_replicate (by omega)).symm
        · rw [posWrite_getD_untouched (fun k hk hcon => by
            have hk2 : k < j - s := by rcases hk with hk | hk <;> omega
            have := hinj _ (by omega) _ ht hcon
            omega)]
          rw [List.getD_append_right _ _ _ _ (by simp; omega)]
          rw [List.getD_append_right _ _ _ _ (by simp; omega)]
          simp only [List.length_replicate]
          rw [getD_drop, ← lineAt_getD pos g i ht]
          congr 1
          omega

theorem scanStep_empty {cell : Grid → Nat → Nat → Cell}
    {write : Grid → Nat → Nat → Nat → Nat → Grid} {i : Nat} {s : ScanState} {j : Nat}
    (h : cell s.g i j = Cell.empty) : scanStep cell write i s j = s := by
  unfold scanStep
  rw [h]

theorem scanStep_round {cell : Grid → Nat → Nat → Cell}
    {write : Grid → Nat → Nat → Nat → Nat → Grid} {i : Nat} {s : ScanState} {j : Nat}
    (h : cell s.g i j = Cell.round) :
    scanStep cell write i s j = { s with roundsInRun := s.roundsInRun + 1 } := by
  unfold scanStep
  rw [h]

theorem scanStep_square {cell : Grid → Nat → Nat → Cell}
    {write : Grid → Nat → Nat → Nat → Nat → Grid} {i : Nat} {s : ScanState} {j : Nat}
    (h : cell s.g i j = Cell.square) :
    scanStep cell write i s j =
      { g := if 0 < s.roundsInRun ∧ s.roundsInRun < j - s.startOfRun then
          write s.g s.roundsInRun s.startOfRun i j else s.g,
        startOfRun := j + 1, roundsInRun := 0 } := by
  unfold scanStep
  rw [h]

/-- The invariant of the inner scan of `helper`, after processing the cells
`0 ..< j` of line `i`: dimensions and off-line cells are untouched, the run
state counts the rounds of the still-unwritten current run, and the already
scanned prefix of the line is settled (witnessed by `done`, which also
prefixes the settled form of any extension of the scanned prefix). -/
def ScanInv (pos : Nat → Nat → Nat) (inner : Nat) (g : Grid) (i : Nat)
    (j : Nat) (s : ScanState) : Prop :=
  s.g.width = g.width ∧ s.g.height = g.height ∧ s.g.cells.length = g.cells.length ∧
  (∀ m, (∀ t, t < inner → pos i t ≠ m) →
    s.g.cells.getD m Cell.empty = g.cells.getD m Cell.empty) ∧
  s.startOfRun ≤ j ∧
  s.roundsInRun
    = (((lineAt pos inner g i).drop s.startOfRun).take (j - s.startOfRun)).count Cell.round ∧
  (∀ x ∈ ((lineAt pos inner g i).drop s.startOfRun).take (j - s.startOfRun), notSq x = true) ∧
  ∃ done : List Cell, done.length = s.startOfRun ∧
    lineAt pos inner s.g i = done ++ (lineAt pos inner g i).drop s.startOfRun ∧
    ∀ X, settleLine ((lineAt pos inner g i).take s.startOfRun ++ X) = done ++ settleLine X

theorem scanStep_inv {pos : Nat → Nat → Nat} {inner : Nat} {g : Grid} {i : Nat}
    (hinj : ∀ t1, t1 < inner → ∀ t2, t2 < inner → pos i t1 = pos i t2 → t1 = t2)
    (hbound : ∀ t, t < inner → pos i t < g.cells.length)
    {j : Nat} (hj : j < inner) {s : ScanState}
    (hs : ScanInv pos inner g i j s) :
    ScanInv pos inner g i (j + 1) (scanStep (cellAt pos) (posWrite pos) i s j) := by
  obtain ⟨hw, hh, hlen, hoff, hsb, hcount, hsqf, done, hdlen, hline, hdone⟩ := hs
  have hL0len : (lineAt pos inner g i).length = inner := lineAt_length pos inner g i
  have hread : cellAt pos s.g i j = (lineAt pos inner g i).getD j Cell.empty := by
    show s.g.cells.getD (pos i j) Cell.empty = _
    rw [← lineAt_getD pos s.g i hj, hline,
      List.getD_append_right _ _ _ _ (by omega), hdlen, getD_drop]
    congr 1
    omega
  have hseglen :
      ((((lineAt pos inner g i).drop s.startOfRun).take (j - s.startOfRun))).length
        = j - s.startOfRun := by
    rw [List.length_take, List.length_drop, hL0len]
    omega
  rcases hv : (lineAt pos inner g i).getD j Cell.empty with _ | _ | _
  · rw [scanStep_empty (by rw [hread, hv])]
    refine ⟨hw, hh, hlen, hoff, by omega, ?_, ?_, done, hdlen, hline, hdone⟩
    · rw [slice_snoc hsb (by omega), hv, List.count_append, ← hcount]
      simp [List.count_singleton]
    · intro x hx
      rw [slice_snoc hsb (by omega), hv, List.mem_append] at hx
      rcases hx with hx | hx
      · exact hsqf x hx
      · rw [List.mem_singleton] at hx
        rw [hx]
        rfl
  · rw [scanStep_round (by rw [hread, hv])]
    refine ⟨hw, hh, hlen, hoff, by exact Nat.le_succ_of_le hsb, ?_, ?_,
      done, hdlen, hline, hdone⟩
    · show s.roundsInRun + 1 = _
      rw [slice_snoc hsb (by omega), hv, List.count_append, ← hcount]
      simp [List.count_singleton]
    · intro x hx
      rw [slice_snoc hsb (by omega), hv, List.mem_append] at hx
      rcases hx with hx | hx
      · exact hsqf x hx
      · rw [List.mem_singleton] at hx
        rw [hx]
        rfl
  · rw [scanStep_square (by rw [hread, hv])]
    have hj' : j < (lineAt pos inner g i).length := by omega
    have hdropj : (lineAt pos inner g i).drop j
        = Cell.square :: (lineAt pos inner g i).drop (j + 1) := by
      rw [List.drop_eq_getElem_cons hj']
      rw [List.getD_eq_getElem _ _ hj'] at hv
      rw [hv]
    have hdropstart : (lineAt pos inner g i).drop s.startOfRun
        = ((lineAt pos inner g i).drop s.startOfRun).take (j - s.startOfRun)
          ++ Cell.square :: (lineAt pos inner g i).drop (j + 1) := by
      conv_lhs => rw [drop_split hsb (j := j)]
      rw [hdropj]
    have htake1 : (lineAt pos inner g i).take (j + 1)
        = (lineAt pos inner g i).take s.startOfRun
          ++ (((lineAt pos inner g i).drop s.startOfRun).take (j - s.startOfRun)
            ++ [Cell.square]) := by
      rw [take_split _ (show s.startOfRun ≤ j + 1 from by omega)]
      congr 1
      rw [slice_snoc hsb (by omega), hv]
    have hdone' : ∀ X, settleLine ((lineAt pos inner g i).take (j + 1) ++ X)
        = (done ++ (settleSeg (((lineAt pos inner g i).drop s.startOfRun).take
            (j - s.startOfRun)) ++ [Cell.square])) ++ settleLine X := by
      intro X
      rw [htake1]
      rw [List.append_assoc, List.append_assoc, List.singleton_append]
      rw [hdone]
      rw [settleLine_sqfree_append_square _ _ hsqf]
      simp [List.append_assoc]
    have hdlen' : (done ++ (settleSeg (((lineAt pos inner g i).drop s.startOfRun).take
        (j - s.startOfRun)) ++ [Cell.square])).length = j + 1 := by
      simp only [List.length_append, List.length_cons, List.length_nil, hdlen,
        settleSeg_length, hseglen]
      omega
    by_cases hgd : 0 < s.roundsInRun ∧ s.roundsInRun < j - s.startOfRun
    · rw [if_pos hgd]
      have hbound' : ∀ t, t < inner → pos i t < s.g.cells.length := by
        rw [hlen]
        exact hbound
      have hsseg : settleSeg (((lineAt pos inner g i).drop s.startOfRun).take
          (j - s.startOfRun))
          = List.replicate s.roundsInRun Cell.round
            ++ List.replicate (j - s.startOfRun - s.roundsInRun) Cell.empty := by
        unfold settleSeg
        rw [← hcount, hseglen]
      obtain ⟨hp1, hp2, hp3⟩ := posWrite_preserve pos s.g s.roundsInRun s.startOfRun i j
      refine ⟨hp1.trans hw, hp2.trans hh, hp3.trans hlen, ?_, by exact Nat.le_refl (j + 1),
        by simp, by simp,
        done ++ (settleSeg (((lineAt pos inner g i).drop s.startOfRun).take
          (j - s.startOfRun)) ++ [Cell.square]), hdlen', ?_, hdone'⟩
      · intro m hm
        rw [posWrite_getD_untouched (fun k hk hcon => by
          have hk2 : k < j - s.startOfRun := by rcases hk with hk | hk <;> omega
          exact hm _ (by omega) hcon)]
        exact hoff m hm
      · rw [lineAt_posWrite hinj hbound' hsb (by omega) (by omega)]
        have htdone : (lineAt pos inner s.g i).take s.startOfRun = done := by
          rw [hline]
          exact List.take_left' hdlen
        have hddone : (lineAt pos inner s.g i).drop j
            = Cell.square :: (lineAt pos inner g i).drop (j + 1) := by
          rw [hline]
          conv_lhs => rw [show j = done.length + (j - s.startOfRun) from by rw [hdlen]; omega]
          rw [List.drop_append, List.drop_drop,
            show s.startOfRun + (j - s.startOfRun) = j from by omega, hdropj]
        rw [htdone, hddone, hsseg]
        simp [List.append_assoc]
    · rw [if_neg hgd]
      have huni : (((lineAt pos inner g i).drop s.startOfRun).take
          (j - s.startOfRun)).count Cell.round = 0 ∨
          (((lineAt pos inner g i).drop s.startOfRun).take
            (j - s.startOfRun)).count Cell.round
            = (((lineAt pos inner g i).drop s.startOfRun).take
              (j - s.startOfRun)).length := by
        have hcle := List.count_le_length Cell.round
          (((lineAt pos inner g i).drop s.startOfRun).take (j - s.startOfRun))
        rw [hseglen]
        omega
      have hsseg := settleSeg_of_uniform hsqf huni
      refine ⟨hw, hh, hlen, hoff, by exact Nat.le_refl (j + 1), by simp, by simp,
        done ++ (settleSeg (((lineAt pos inner g i).drop s.startOfRun).take
          (j - s.startOfRun)) ++ [Cell.square]), hdlen', ?_, hdone'⟩
      rw [hline, hsseg]
      conv_lhs => rw [hdropstart]
      simp [List.append_assoc]

theorem scanFold_inv {pos : Nat → Nat → Nat} {inner : Nat} {g : Grid} {i : Nat}
    (hinj : ∀ t1, t1 < inner → ∀ t2, t2 < inner → pos i t1 = pos i t2 → t1 = t2)
    (hbound : ∀ t, t < inner → pos i t < g.cells.length) :
    ∀ j, j ≤ inner → ScanInv pos inner g i j
      ((List.range j).foldl (scanStep (cellAt pos) (posWrite pos) i) ⟨g, 0, 0⟩) := by
  intro j
  induction j with
  | zero =>
    intro _
    exact ⟨rfl, rfl, rfl, fun m _ => rfl, Nat.le_refl 0, by simp, by simp,
      [], rfl, by simp, fun X => by simp⟩
  | succ j ih =>
    intro hj
    rw [List.range_succ, List.foldl_append, List.foldl_cons, List.foldl_nil]
    exact scanStep_inv hinj hbound (by omega) (ih (by omega))

/-- The per-line specification of `helper`'s inner loop plus the end-of-line
flush: the scanned line is settled in place and every cell off the line is
untouched. -/
theorem scanLine_settles {pos : Nat → Nat → Nat} {inner : Nat} {g : Grid} {i : Nat}
    (hinj : ∀ t1, t1 < inner → ∀ t2, t2 < inner → pos i t1 = pos i t2 → t1 = t2)
    (hbound : ∀ t, t < inner → pos i t < g.cells.length) :
    (scanLine (cellAt pos) (posWrite pos) inner g i).width = g.width ∧
    (scanLine (cellAt pos) (posWrite pos) inner g i).height = g.height ∧
    (scanLine (cellAt pos) (posWrite pos) inner g i).cells.length = g.cells.length ∧
    (∀ m, (∀ t, t < inner → pos i t ≠ m) →
      (scanLine (cellAt pos) (posWrite pos) inner g i).cells.getD m Cell.empty
        = g.cells.getD m Cell.empty) ∧
    lineAt pos inner (scanLine (cellAt pos) (posWrite pos) inner g i) i
      = settleLine (lineAt pos inner g i) := by
  obtain ⟨hw, hh, hlen, hoff, hsb, hcount, hsqf, done, hdlen, hline, hdone⟩ :=
    scanFold_inv hinj hbound inner (Nat.le_refl inner)
  have hL0len : (lineAt pos inner g i).length = inner := lineAt_length pos inner g i
  unfold scanLine
  dsimp only
  have hdroplen : (((lineAt pos inner g i).drop
      ((List.range inner).foldl (scanStep (cellAt pos) (posWrite pos) i)
        ⟨g, 0, 0⟩).startOfRun)).length
      = inner - ((List.range inner).foldl (scanStep (cellAt pos) (posWrite pos) i)
        ⟨g, 0, 0⟩).startOfRun := by
    rw [List.length_drop, hL0len]
  rw [show ((lineAt pos inner g i).drop
      ((List.range inner).foldl (scanStep (cellAt pos) (posWrite pos) i)
        ⟨g, 0, 0⟩).startOfRun).take
      (inner - ((List.range inner).foldl (scanStep (cellAt pos) (posWrite pos) i)
        ⟨g, 0, 0⟩).startOfRun)
      = (lineAt pos inner g i).drop
        ((List.range inner).foldl (scanStep (cellAt pos) (posWrite pos) i)
          ⟨g, 0, 0⟩).startOfRun from by
    rw [← hdroplen, List.take_length]] at hcount hsqf
  have hsettle : settleLine (lineAt pos inner g i)
      = done ++ settleSeg ((lineAt pos inner g i).drop
        ((List.range inner).foldl (scanStep (cellAt pos) (posWrite pos) i)
          ⟨g, 0, 0⟩).startOfRun) := by
    conv_lhs => rw [← List.take_append_drop
      ((List.range inner).foldl (scanStep (cellAt pos) (posWrite pos) i)
        ⟨g, 0, 0⟩).startOfRun (lineAt pos inner g i)]
    rw [hdone, settleLine_of_sqfree _ hsqf]
  split
  · rename_i hgd
    obtain ⟨hp1, hp2, hp3⟩ := posWrite_preserve pos _ _ _ i inner
    refine ⟨hp1.trans hw, hp2.trans hh, hp3.trans hlen, ?_, ?_⟩
    · intro m hm
      rw [posWrite_getD_untouched (fun k hk hcon => by
        have hk2 : k < inner - ((List.range inner).foldl
            (scanStep (cellAt pos) (posWrite pos) i) ⟨g, 0, 0⟩).startOfRun := by
          rcases hk with hk | hk <;> omega
        exact hm _ (by omega) hcon)]
      exact hoff m hm
    · have hbound' : ∀ t, t < inner → pos i t <
          ((List.range inner).foldl (scanStep (cellAt pos) (posWrite pos) i)
            ⟨g, 0, 0⟩).g.cells.length := by
        rw [hlen]
        exact hbound
      rw [lineAt_posWrite hinj hbound' hsb (Nat.le_refl inner) (by omega)]
      have htdone : (lineAt pos inner
          ((List.range inner).foldl (scanStep (cellAt pos) (posWrite pos) i)
            ⟨g, 0, 0⟩).g i).take
          ((List.range inner).foldl (scanStep (cellAt pos) (posWrite pos) i)
            ⟨g, 0, 0⟩).startOfRun = done := by
        rw [hline]
        exact List.take_left' hdlen
      have hddone : (lineAt pos inner
          ((List.range inner).foldl (scanStep (cellAt pos) (posWrite pos) i)
            ⟨g, 0, 0⟩).g i).drop inner = [] := by
        apply List.drop_eq_nil_of_le
        rw [lineAt_length]
      rw [htdone, hddone, hsettle]
      unfold settleSeg
      rw [← hcount, hdroplen]
      simp
  · refine ⟨hw, hh, hlen, hoff, ?_⟩
    rename_i hgd
    have hcle := List.count_le_length Cell.round ((lineAt pos inner g i).drop
      ((List.range inner).foldl (scanStep (cellAt pos) (posWrite pos) i)
        ⟨g, 0, 0⟩).startOfRun)
    have huni : ((lineAt pos inner g i).drop
        ((List.range inner).foldl (scanStep (cellAt pos) (posWrite pos) i)
          ⟨g, 0, 0⟩).startOfRun).count Cell.round = 0 ∨
        ((lineAt pos inner g i).drop
          ((List.range inner).foldl (scanStep (cellAt pos) (posWrite pos) i)
            ⟨g, 0, 0⟩).startOfRun).count Cell.round
          = ((lineAt pos inner g i).drop
            ((List.range inner).foldl (scanStep (cellAt pos) (posWrite pos) i)
              ⟨g, 0, 0⟩).startOfRun).length := by
      rw [hdroplen, ← hcount]
      rw [hdroplen] at hcle
      rw [← hcount] at hcle
      omega
    rw [hline, hsettle, settleSeg_of_uniform hsqf huni]

theorem lineAt_congr_off {pos : Nat → Nat → Nat} {inner : Nat} {g1 g2 : Grid} {i : Nat}
    (h : ∀ t, t < inner →
      g1.cells.getD (pos i t) Cell.empty = g2.cells.getD (pos i t) Cell.empty) :
    lineAt pos inner g1 i = lineAt pos inner g2 i := by
  apply list_ext_getD
  · rw [lineAt_length, lineAt_length]
  · intro t ht
    rw [lineAt_length] at ht
    rw [lineAt_getD pos g1 i ht, lineAt_getD pos g2 i ht]
    exact h t ht

/-- The invariant of `helper`'s outer loop after scanning the first `k` lines:
those lines are settled, the later lines and all off-grid cells are
untouched. -/
def HelperInv (pos : Nat → Nat → Nat) (outer inner : Nat) (g : Grid) (k : Nat)
    (g' : Grid) : Prop :=
  g'.width = g.width ∧ g'.height = g.height ∧ g'.cells.length = g.cells.length ∧
  (∀ m, (∀ i, i < outer → ∀ t, t < inner → pos i t ≠ m) →
    g'.cells.getD m Cell.empty = g.cells.getD m Cell.empty) ∧
  (∀ i, i < k → lineAt pos inner g' i = settleLine (lineAt pos inner g i)) ∧
  (∀ i, k ≤ i → i < outer → lineAt pos inner g' i = lineAt pos inner g i)

theorem helperFold_inv {pos : Nat → Nat → Nat} {outer inner : Nat} {g : Grid}
    (hpinj : ∀ i1, i1 < outer → ∀ t1, t1 < inner → ∀ i2, i2 < outer → ∀ t2, t2 < inner →
      pos i1 t1 = pos i2 t2 → i1 = i2 ∧ t1 = t2)
    (hbound : ∀ i, i < outer → ∀ t, t < inner → pos i t < g.cells.length) :
    ∀ k, k ≤ outer → HelperInv pos outer inner g k
      ((List.range k).foldl (scanLine (cellAt pos) (posWrite pos) inner) g) := by
  intro k
  induction k with
  | zero =>
    intro _
    exact ⟨rfl, rfl, rfl, fun m _ => rfl,
      fun i hi => absurd hi (Nat.not_lt_zero i), fun i _ _ => rfl⟩
  | succ k ih =>
    intro hk
    obtain ⟨hw, hh, hlen, hoff, hdonel, hleft⟩ := ih (by omega)
    rw [List.range_succ, List.foldl_append, List.foldl_cons, List.foldl_nil]
    have hinjk : ∀ t1, t1 < inner → ∀ t2, t2 < inner →
        pos k t1 = pos k t2 → t1 = t2 := fun t1 h1 t2 h2 he =>
      (hpinj k (by omega) t1 h1 k (by omega) t2 h2 he).2
    have hboundk : ∀ t, t < inner → pos k t <
        ((List.range k).foldl (scanLine (cellAt pos) (posWrite pos) inner)
          g).cells.length := by
      rw [hlen]
      exact fun t ht => hbound k (by omega) t ht
    obtain ⟨sw, sh, slen, soff, sline⟩ := scanLine_settles hinjk hboundk
    refine ⟨sw.trans hw, sh.trans hh, slen.trans hlen, ?_, ?_, ?_⟩
    · intro m hm
      rw [soff m (fun t ht => hm k (by omega) t ht)]
      exact hoff m hm
    · intro i hi
      rcases Nat.lt_or_ge i k with hik | hik
      · rw [← hdonel i hik]
        apply lineAt_congr_off
        intro t ht
        exact soff (pos i t) (fun t' ht' hcon => by
          have := hpinj k (by omega) t' ht' i (by omega) t ht hcon
          omega)
      · have hik' : i = k := by omega
        subst hik'
        rw [sline, hleft i (Nat.le_refl i) (by omega)]
    · intro i hi1 hi2
      rw [← hleft i (by omega) hi2]
      apply lineAt_congr_off
      intro t ht
      exact soff (pos i t) (fun t' ht' hcon => by
        have := hpinj k (by omega) t' ht' i hi2 t ht hcon
        omega)

/-- `helper` with the abstract reader and writer settles every scanned line
and touches nothing else. -/
theorem slideHelper_settles {pos : Nat → Nat → Nat} {outer inner : Nat} {g : Grid}
    (hpinj : ∀ i1, i1 < outer → ∀ t1, t1 < inner → ∀ i2, i2 < outer → ∀ t2, t2 < inner →
      pos i1 t1 = pos i2 t2 → i1 = i2 ∧ t1 = t2)
    (hbound : ∀ i, i < outer → ∀ t, t < inner → pos i t < g.cells.length) :
    (slideHelper (cellAt pos) (posWrite pos) outer inner g).width = g.width ∧
    (slideHelper (cellAt pos) (posWrite pos) outer inner g).height = g.height ∧
    (slideHelper (cellAt pos) (posWrite pos) outer inner g).cells.length
      = g.cells.length ∧
    (∀ m, (∀ i, i < outer → ∀ t, t < inner → pos i t ≠ m) →
      (slideHelper (cellAt pos) (posWrite pos) outer inner g).cells.getD m Cell.empty
        = g.cells.getD m Cell.empty) ∧
    (∀ i, i < outer →
      lineAt pos inner (slideHelper (cellAt pos) (posWrite pos) outer inner g) i
        = settleLine (lineAt pos inner g i)) := by
  obtain ⟨hw, hh, hlen, hoff, hdonel, _⟩ :=
    helperFold_inv hpinj hbound outer (Nat.le_refl outer)
  exact ⟨hw, hh, hlen, hoff, hdonel⟩

theorem setFold_congr {w : Nat} (c : Cell) (X Y : Nat → Nat) (pos2 : Nat → Nat)
    (hidx : ∀ k, Y k * w + X k = pos2 k) :
    ∀ (L : List Nat) (g : Grid), g.width = w →
    L.foldl (fun g k => g.set (X k) (Y k) c) g
      = L.foldl (fun g k => { g with cells := g.cells.set (pos2 k) c }) g := by
  intro L
  induction L with
  | nil =>
    intro g _
    rfl
  | cons a L ih =>
    intro g hw
    rw [List.foldl_cons, List.foldl_cons]
    have hstep : g.set (X a) (Y a) c = { g with cells := g.cells.set (pos2 a) c } := by
      unfold Grid.set
      rw [hw, hidx]
    rw [hstep]
    exact ih _ hw

theorem writeNorth_eq {w : Nat} (g : Grid) (hw : g.width = w) (r s i j : Nat) :
    writeNorth g r s i j = posWrite (fun a b => b * w + a) g r s i j := by
  unfold writeNorth posWrite
  dsimp only
  rw [setFold_congr Cell.round (fun _ => i) (fun k => s + k) (fun k => (s + k) * w + i)
    (fun k => rfl) (List.range r) g hw]
  exact setFold_congr Cell.empty (fun _ => i) (fun k => s + k) (fun k => (s + k) * w + i)
    (fun k => rfl) (List.range' r (j - s - r)) _
    ((foldl_grid_preserve
      (fun g k => { g with cells := g.cells.set ((s + k) * w + i) Cell.round })
      (fun g k => ⟨rfl, rfl, by simp⟩) (List.range r) g).1.trans hw)

theorem writeWest_eq {w : Nat} (g : Grid) (hw : g.width = w) (r s i j : Nat) :
    writeWest g r s i j = posWrite (fun a b => a * w + b) g r s i j := by
  unfold writeWest posWrite
  dsimp only
  rw [setFold_congr Cell.round (fun k => s + k) (fun _ => i) (fun k => i * w + (s + k))
    (fun k => rfl) (List.range r) g hw]
  exact setFold_congr Cell.empty (fun k => s + k) (fun _ => i) (fun k => i * w + (s + k))
    (fun k => rfl) (List.range' r (j - s - r)) _
    ((foldl_grid_preserve
      (fun g k => { g with cells := g.cells.set (i * w + (s + k)) Cell.round })
      (fun g k => ⟨rfl, rfl, by simp⟩) (List.range r) g).1.trans hw)

theorem writeSouth_eq {w h : Nat} (g : Grid) (hw : g.width = w) (r s i j : Nat) :
    writeSouth h g r s i j = posWrite (fun a b => (h - 1 - b) * w + a) g r s i j := by
  unfold writeSouth posWrite
  dsimp only
  rw [setFold_congr Cell.round (fun _ => i) (fun k => h - s - k - 1)
    (fun k => (h - 1 - (s + k)) * w + i)
    (fun k => by
      show (h - s - k - 1) * w + i = (h - 1 - (s + k)) * w + i
      rw [show h - s - k - 1 = h - 1 - (s + k) from by omega]) (List.range r) g hw]
  exact setFold_congr Cell.empty (fun _ => i) (fun k => h - s - k - 1)
    (fun k => (h - 1 - (s + k)) * w + i)
    (fun k => by
      show (h - s - k - 1) * w + i = (h - 1 - (s + k)) * w + i
      rw [show h - s - k - 1 = h - 1 - (s + k) from by omega])
    (List.range' r (j - s - r)) _
    ((foldl_grid_preserve
      (fun g k => { g with cells := g.cells.set ((h - 1 - (s + k)) * w + i) Cell.round })
      (fun g k => ⟨rfl, rfl, by simp⟩) (List.range r) g).1.trans hw)

theorem writeEast_eq {w : Nat} (g : Grid) (hw : g.width = w) (r s i j : Nat) :
    writeEast w g r s i j = posWrite (fun a b => a * w + (w - 1 - b)) g r s i j := by
  unfold writeEast posWrite
  dsimp only
  rw [setFold_congr Cell.round (fun k => w - s - k - 1) (fun _ => i)
    (fun k => i * w + (w - 1 - (s + k)))
    (fun k => by
      show i * w + (w - s - k - 1) = i * w + (w - 1 - (s + k))
      rw [show w - s - k - 1 = w - 1 - (s + k) from by omega]) (List.range r) g hw]
  exact setFold_congr Cell.empty (fun k => w - s - k - 1) (fun _ => i)
    (fun k => i * w + (w - 1 - (s + k)))
    (fun k => by
      show i * w + (w - s - k - 1) = i * w + (w - 1 - (s + k))
      rw [show w - s - k - 1 = w - 1 - (s + k) from by omega])
    (List.range' r (j - s - r)) _
    ((foldl_grid_preserve
      (fun g k => { g with cells := g.cells.set (i * w + (w - 1 - (s + k))) Cell.round })
      (fun g k => ⟨rfl, rfl, by simp⟩) (List.range r) g).1.trans hw)

theorem scanStep_congr {cell : Grid → Nat → Nat → Cell}
    {write : Grid → Nat → Nat → Nat → Nat → Grid} {pos : Nat → Nat → Nat} {w : Nat}
    (hcell : ∀ g1 : Grid, g1.width = w → ∀ i j, cell g1 i j = cellAt pos g1 i j)
    (hwrite : ∀ g1 : Grid, g1.width = w → ∀ r s i j,
      write g1 r s i j = posWrite pos g1 r s i j)
    {i : Nat} {s : ScanState} (hw : s.g.width = w) (j : Nat) :
    scanStep cell write i s j = scanStep (cellAt pos) (posWrite pos) i s j := by
  rcases hv : cellAt pos s.g i j with _ | _ | _
  · rw [scanStep_empty ((hcell s.g hw i j).trans hv), scanStep_empty hv]
  · rw [scanStep_round ((hcell s.g hw i j).trans hv), scanStep_round hv]
  · rw [scanStep_square ((hcell s.g hw i j).trans hv), scanStep_square hv]
    by_cases hgd : 0 < s.roundsInRun ∧ s.roundsInRun < j - s.startOfRun
    · rw [if_pos hgd, if_pos hgd, hwrite s.g hw]
    · rw [if_neg hgd, if_neg hgd]

theorem scanLine_congr {cell : Grid → Nat → Nat → Cell}
    {write : Grid → Nat → Nat → Nat → Nat → Grid} {pos : Nat → Nat → Nat} {w : Nat}
    (hcell : ∀ g1 : Grid, g1.width = w → ∀ i j, cell g1 i j = cellAt pos g1 i j)
    (hwrite : ∀ g1 : Grid, g1.width = w → ∀ r s i j,
      write g1 r s i j = posWrite pos g1 r s i j)
    (hpres : WriterPreserves write) {inner : Nat} {g : Grid} (hw : g.width = w)
    (i : Nat) :
    scanLine cell write inner g i = scanLine (cellAt pos) (posWrite pos) inner g i := by
  unfold scanLine
  dsimp only
  have hfold : ∀ (L : List Nat) (s : ScanState), s.g.width = w →
      L.foldl (scanStep cell write i) s
        = L.foldl (scanStep (cellAt pos) (posWrite pos) i) s := by
    intro L
    induction L with
    | nil =>
      intro s _
      rfl
    | cons a L ih =>
      intro s hsw
      rw [List.foldl_cons, List.foldl_cons, ← scanStep_congr hcell hwrite hsw a]
      exact ih _ ((scanStep_preserve hpres i s a).1.trans hsw)
  rw [← hfold (List.range inner) ⟨g, 0, 0⟩ hw]
  have hsw : ((List.range inner).foldl (scanStep cell write i) ⟨g, 0, 0⟩).g.width = w :=
    (scanFold_preserve hpres i (List.range inner) ⟨g, 0, 0⟩).1.trans hw
  split
  · exact hwrite _ hsw _ _ _ _
  · rfl

theorem slideHelper_congr {cell : Grid → Nat → Nat → Cell}
    {write : Grid → Nat → Nat → Nat → Nat → Grid} {pos : Nat → Nat → Nat} {w : Nat}
    (hcell : ∀ g1 : Grid, g1.width = w → ∀ i j, cell g1 i j = cellAt pos g1 i j)
    (hwrite : ∀ g1 : Grid, g1.width = w → ∀ r s i j,
      write g1 r s i j = posWrite pos g1 r s i j)
    (hpres : WriterPreserves write) {outer inner : Nat} {g : Grid} (hw : g.width = w) :
    slideHelper cell write outer inner g
      = slideHelper (cellAt pos) (posWrite pos) outer inner g := by
  unfold slideHelper
  suffices h : ∀ (L : List Nat) (g : Grid), g.width = w →
      L.foldl (scanLine cell write inner) g
        = L.foldl (scanLine (cellAt pos) (posWrite pos) inner) g from
    h (List.range outer) g hw
  intro L
  induction L with
  | nil =>
    intro g _
    rfl
  | cons a L ih =>
    intro g hgw
    rw [List.foldl_cons, List.foldl_cons, ← scanLine_congr hcell hwrite hpres hgw a]
    exact ih _ ((scanLine_preserve hpres inner g a).1.trans hgw)

/-- The flat-index map of the line scan of `slide`: line `i`, offset `j` of the
scan for direction `d` addresses `cells[scanPos g d i j]` (read off the four
access closures of the source via `Grid::get`). -/
def scanPos (g : Grid) : Dir → Nat → Nat → Nat
  | Dir.north => fun i j => j * g.width + i
  | Dir.west => fun i j => i * g.width + j
  | Dir.south => fun i j => (g.height - 1 - j) * g.width + i
  | Dir.east => fun i j => i * g.width + (g.width - 1 - j)

/-- The inverse of `scanPos`: which line and offset a flat index belongs to. -/
def scanInvPos (g : Grid) : Dir → Nat → Nat × Nat
  | Dir.north => fun m => (m % g.width, m / g.width)
  | Dir.west => fun m => (m / g.width, m % g.width)
  | Dir.south => fun m => (m % g.width, g.height - 1 - m / g.width)
  | Dir.east => fun m => (m / g.width, g.width - 1 - m % g.width)

/-- The `outer_len` argument of `helper` for each direction. -/
def outerLen (g : Grid) : Dir → Nat
  | Dir.north => g.width
  | Dir.west => g.height
  | Dir.south => g.width
  | Dir.east => g.height

/-- The `inner_len` argument of `helper` for each direction. -/
def innerLen (g : Grid) : Dir → Nat
  | Dir.north => g.height
  | Dir.west => g.width
  | Dir.south => g.height
  | Dir.east => g.width

/-- `slide` is the abstract scan-and-settle pass over its direction's index
map. -/
theorem slide_eq_settle (g : Grid) (d : Dir) :
    slide g d = slideHelper (cellAt (scanPos g d)) (posWrite (scanPos g d))
      (outerLen g d) (innerLen g d) g := by
  cases d
  · exact slideHelper_congr (w := g.width)
      (fun g1 hw1 i j => by
        show g1.cells.getD (j * g1.width + i) Cell.empty
          = g1.cells.getD (j * g.width + i) Cell.empty
        rw [hw1])
      (fun g1 hw1 r s i j => writeNorth_eq g1 hw1 r s i j)
      writeNorth_preserve rfl
  · exact slideHelper_congr (w := g.width)
      (fun g1 hw1 i j => by
        show g1.cells.getD (i * g1.width + j) Cell.empty
          = g1.cells.getD (i * g.width + j) Cell.empty
        rw [hw1])
      (fun g1 hw1 r s i j => writeWest_eq g1 hw1 r s i j)
      writeWest_preserve rfl
  · exact slideHelper_congr (w := g.width)
      (fun g1 hw1 i j => by
        show g1.cells.getD ((g.height - j - 1) * g1.width + i) Cell.empty
          = g1.cells.getD ((g.height - 1 - j) * g.width + i) Cell.empty
        rw [hw1, show g.height - j - 1 = g.height - 1 - j from by omega])
      (fun g1 hw1 r s i j => writeSouth_eq g1 hw1 r s i j)
      (writeSouth_preserve g.height) rfl
  · exact slideHelper_congr (w := g.width)
      (fun g1 hw1 i j => by
        show g1.cells.getD (i * g1.width + (g.width - j - 1)) Cell.empty
          = g1.cells.getD (i * g.width + (g.width - 1 - j)) Cell.empty
        rw [hw1, show g.width - j - 1 = g.width - 1 - j from by omega])
      (fun g1 hw1 r s i j => writeEast_eq g1 hw1 r s i j)
      (writeEast_preserve g.width) rfl

theorem mul_add_lt {a b c d : Nat} (ha : a < c) (hb : b < d) : a * d + b < d * c := by
  calc a * d + b < a * d + d := by omega
    _ = (a + 1) * d := by ring
    _ ≤ c * d := Nat.mul_le_mul_right d (by omega)
    _ = d * c := Nat.mul_comm c d

theorem mod_div_mul_add {q rem w : Nat} (hrem : rem < w) :
    (q * w + rem) % w = rem ∧ (q * w + rem) / w = q := by
  have hw0 : 0 < w := by omega
  constructor
  · rw [show q * w + rem = rem + w * q from by ring, Nat.add_mul_mod_self_left,
      Nat.mod_eq_of_lt hrem]
  · rw [show q * w + rem = rem + w * q from by ring, Nat.add_mul_div_left rem q hw0,
      Nat.div_eq_of_lt hrem, Nat.zero_add]

theorem scanPos_lt (g : Grid) (d : Dir) : ∀ i, i < outerLen g d → ∀ j, j < innerLen g d →
    scanPos g d i j < g.width * g.height := by
  cases d
  · intro i hi j hj
    have hi' : i < g.width := hi
    have hj' : j < g.height := hj
    show j * g.width + i < g.width * g.height
    exact mul_add_lt hj' hi'
  · intro i hi j hj
    have hi' : i < g.height := hi
    have hj' : j < g.width := hj
    show i * g.width + j < g.width * g.height
    exact mul_add_lt hi' hj'
  · intro i hi j hj
    have hi' : i < g.width := hi
    have hj' : j < g.height := hj
    show (g.height - 1 - j) * g.width + i < g.width * g.height
    exact mul_add_lt (by omega) hi'
  · intro i hi j hj
    have hi' : i < g.height := hi
    have hj' : j < g.width := hj
    show i * g.width + (g.width - 1 - j) < g.width * g.height
    exact mul_add_lt hi' (by omega)

theorem scanInvPos_scanPos (g : Grid) (d : Dir) :
    ∀ i, i < outerLen g d → ∀ j, j < innerLen g d →
    scanInvPos g d (scanPos g d i j) = (i, j) := by
  cases d
  · intro i hi j hj
    have hi' : i < g.width := hi
    show ((j * g.width + i) % g.width, (j * g.width + i) / g.width) = (i, j)
    obtain ⟨h1, h2⟩ := mod_div_mul_add hi' (q := j)
    rw [h1, h2]
  · intro i hi j hj
    have hj' : j < g.width := hj
    show ((i * g.width + j) / g.width, (i * g.width + j) % g.width) = (i, j)
    obtain ⟨h1, h2⟩ := mod_div_mul_add hj' (q := i)
    rw [h1, h2]
  · intro i hi j hj
    have hi' : i < g.width := hi
    have hj' : j < g.height := hj
    show (((g.height - 1 - j) * g.width + i) % g.width,
      g.height - 1 - ((g.height - 1 - j) * g.width + i) / g.width) = (i, j)
    obtain ⟨h1, h2⟩ := mod_div_mul_add hi' (q := g.height - 1 - j)
    rw [h1, h2, show g.height - 1 - (g.height - 1 - j) = j from by omega]
  · intro i hi j hj
    have hj' : j < g.width := hj
    show ((i * g.width + (g.width - 1 - j)) / g.width,
      g.width - 1 - (i * g.width + (g.width - 1 - j)) % g.width) = (i, j)
    obtain ⟨h1, h2⟩ := mod_div_mul_add (show g.width - 1 - j < g.width from by omega) (q := i)
    rw [h1, h2, show g.width - 1 - (g.width - 1 - j) = j from by omega]

theorem dims_pos_of_lt_mul {g : Grid} {m : Nat} (hm : m < g.width * g.height) :
    0 < g.width ∧ 0 < g.height := by
  constructor
  · rcases Nat.eq_zero_or_pos g.width with hz | hp
    · rw [hz, Nat.zero_mul] at hm
      exact absurd hm (Nat.not_lt_zero m)
    · exact hp
  · rcases Nat.eq_zero_or_pos g.height with hz | hp
    · rw [hz, Nat.mul_zero] at hm
      exact absurd hm (Nat.not_lt_zero m)
    · exact hp

theorem scanPos_scanInvPos (g : Grid) (d : Dir) :
    ∀ m, m < g.width * g.height →
    (scanInvPos g d m).1 < outerLen g d ∧ (scanInvPos g d m).2 < innerLen g d ∧
    scanPos g d (scanInvPos g d m).1 (scanInvPos g d m).2 = m := by
  have hbase : ∀ m, m < g.width * g.height →
      m % g.width < g.width ∧ m / g.width < g.height ∧
      m / g.width * g.width + m % g.width = m := by
    intro m hm
    obtain ⟨hw0, hh0⟩ := dims_pos_of_lt_mul hm
    refine ⟨Nat.mod_lt m hw0, ?_, ?_⟩
    · rw [Nat.div_lt_iff_lt_mul hw0]
      rw [Nat.mul_comm] at hm
      exact hm
    · rw [Nat.mul_comm]
      exact Nat.div_add_mod m g.width
  cases d
  · intro m hm
    obtain ⟨hmod, hdiv, hrec⟩ := hbase m hm
    exact ⟨hmod, hdiv, hrec⟩
  · intro m hm
    obtain ⟨hmod, hdiv, hrec⟩ := hbase m hm
    exact ⟨hdiv, hmod, hrec⟩
  · intro m hm
    obtain ⟨hmod, hdiv, hrec⟩ := hbase m hm
    obtain ⟨hw0, hh0⟩ := dims_pos_of_lt_mul hm
    have h2 : g.height - 1 - m / g.width < g.height := by
      revert hh0
      generalize m / g.width = q
      intro hh0
      omega
    refine ⟨hmod, h2, ?_⟩
    show (g.height - 1 - (g.height - 1 - m / g.width)) * g.width + m % g.width = m
    rw [show g.height - 1 - (g.height - 1 - m / g.width) = m / g.width from by
      revert hdiv
      generalize m / g.width = q
      intro hdiv
      omega]
    exact hrec
  · intro m hm
    obtain ⟨hmod, hdiv, hrec⟩ := hbase m hm
    obtain ⟨hw0, hh0⟩ := dims_pos_of_lt_mul hm
    have h2 : g.width - 1 - m % g.width < g.width := by
      revert hw0
      generalize m % g.width = q
      intro hw0
      omega
    refine ⟨hdiv, h2, ?_⟩
    show m / g.width * g.width + (g.width - 1 - (g.width - 1 - m % g.width)) = m
    rw [show g.width - 1 - (g.width - 1 - m % g.width) = m % g.width from by
      revert hmod
      generalize m % g.width = q
      intro hmod
      omega]
    exact hrec

theorem count_eq_sum_getD : ∀ (l : List Cell) (c : Cell),
    l.count c = ∑ m ∈ Finset.range l.length, if l.getD m Cell.empty = c then 1 else 0 := by
  intro l
  induction l with
  | nil =>
    intro c
    simp
  | cons a t ih =>
    intro c
    rw [List.count_cons, ih c, List.length_cons, Finset.sum_range_succ']
    simp only [List.getD_cons_succ, List.getD_cons_zero, beq_iff_eq]

/-- The global cell count is the sum of the per-line counts, for a bijective
line decomposition of the flat cell array. -/
theorem count_lines {pos : Nat → Nat → Nat} {inv : Nat → Nat × Nat} {outer inner : Nat}
    {g : Grid} (hlen : g.cells.length = outer * inner)
    (hmem : ∀ i, i < outer → ∀ j, j < inner → pos i j < outer * inner)
    (hinv1 : ∀ i, i < outer → ∀ j, j < inner → inv (pos i j) = (i, j))
    (hinv2 : ∀ m, m < outer * inner →
      (inv m).1 < outer ∧ (inv m).2 < inner ∧ pos (inv m).1 (inv m).2 = m)
    (c : Cell) :
    g.cells.count c = ∑ i ∈ Finset.range outer, (lineAt pos inner g i).count c := by
  rw [count_eq_sum_getD, hlen]
  have hline : ∀ i ∈ Finset.range outer, (lineAt pos inner g i).count c
      = ∑ j ∈ Finset.range inner,
        if g.cells.getD (pos i j) Cell.empty = c then 1 else 0 := by
    intro i hi
    rw [count_eq_sum_getD, lineAt_length]
    apply Finset.sum_congr rfl
    intro j hj
    rw [lineAt_getD pos g i (List.mem_range.mp hj)]
  rw [Finset.sum_congr rfl hline, ← Finset.sum_product']
  apply Finset.sum_nbij' (fun m => inv m) (fun p => pos p.1 p.2)
  · intro m hm
    rw [Finset.mem_range] at hm
    obtain ⟨h1, h2, _⟩ := hinv2 m hm
    rw [Finset.mem_product, Finset.mem_range, Finset.mem_range]
    exact ⟨h1, h2⟩
  · intro p hp
    rw [Finset.mem_product, Finset.mem_range, Finset.mem_range] at hp
    rw [Finset.mem_range]
    exact hmem p.1 hp.1 p.2 hp.2
  · intro m hm
    rw [Finset.mem_range] at hm
    exact (hinv2 m hm).2.2
  · intro p hp
    rw [Finset.mem_product, Finset.mem_range, Finset.mem_range] at hp
    exact hinv1 p.1 hp.1 p.2 hp.2
  · intro m hm
    rw [Finset.mem_range] at hm
    rw [(hinv2 m hm).2.2]

theorem outer_mul_inner (g : Grid) (d : Dir) :
    outerLen g d * innerLen g d = g.width * g.height := by
  cases d
  · rfl
  · exact Nat.mul_comm g.height g.width
  · rfl
  · exact Nat.mul_comm g.height g.width

/-- `slide` settles every scanned line of its direction in place. -/
theorem slide_spec (g : Grid) (d : Dir) (hwf : g.cells.length = g.width * g.height) :
    (slide g d).width = g.width ∧ (slide g d).height = g.height ∧
    (slide g d).cells.length = g.cells.length ∧
    ∀ i, i < outerLen g d →
      lineAt (scanPos g d) (innerLen g d) (slide g d) i
        = settleLine (lineAt (scanPos g d) (innerLen g d) g i) := by
  have hbound : ∀ i, i < outerLen g d → ∀ t, t < innerLen g d →
      scanPos g d i t < g.cells.length := by
    intro i hi t ht
    rw [hwf]
    exact scanPos_lt g d i hi t ht
  have hpinj : ∀ i1, i1 < outerLen g d → ∀ t1, t1 < innerLen g d →
      ∀ i2, i2 < outerLen g d → ∀ t2, t2 < innerLen g d →
      scanPos g d i1 t1 = scanPos g d i2 t2 → i1 = i2 ∧ t1 = t2 := by
    intro i1 hi1 t1 ht1 i2 hi2 t2 ht2 he
    have h1 := scanInvPos_scanPos g d i1 hi1 t1 ht1
    have h2 := scanInvPos_scanPos g d i2 hi2 t2 ht2
    rw [he] at h1
    exact Prod.ext_iff.mp (h1.symm.trans h2)
  rw [slide_eq_settle]
  obtain ⟨hw, hh, hlen, _, hlines⟩ := slideHelper_settles hpinj hbound
  exact ⟨hw, hh, hlen, hlines⟩

theorem slide_square_getD (g : Grid) (d : Dir)
    (hwf : g.cells.length = g.width * g.height) :
    ∀ m, ((slide g d).cells.getD m Cell.empty = Cell.square
      ↔ g.cells.getD m Cell.empty = Cell.square) := by
  obtain ⟨hw, hh, hlen, hlines⟩ := slide_spec g d hwf
  intro m
  rcases Nat.lt_or_ge m g.cells.length with hm | hm
  · obtain ⟨h1, h2, h3⟩ := scanPos_scanInvPos g d m (by rw [← hwf]; exact hm)
    rw [← h3]
    rw [← lineAt_getD (scanPos g d) g ((scanInvPos g d m).1) h2]
    rw [← lineAt_getD (scanPos g d) (slide g d) ((scanInvPos g d m).1) h2]
    rw [hlines _ h1]
    exact settleLine_square_pos _ _
  · rw [List.getD_eq_getElem?_getD, List.getD_eq_getElem?_getD,
      List.getElem?_eq_none (by omega), List.getElem?_eq_none (by omega)]

theorem slide_count (g : Grid) (d : Dir)
    (hwf : g.cells.length = g.width * g.height) (c : Cell) :
    (slide g d).cells.count c = g.cells.count c := by
  obtain ⟨hw, hh, hlen, hlines⟩ := slide_spec g d hwf
  have hmem : ∀ i, i < outerLen g d → ∀ j, j < innerLen g d →
      scanPos g d i j < outerLen g d * innerLen g d := by
    intro i hi j hj
    rw [outer_mul_inner]
    exact scanPos_lt g d i hi j hj
  have hinv2 : ∀ m, m < outerLen g d * innerLen g d →
      (scanInvPos g d m).1 < outerLen g d ∧ (scanInvPos g d m).2 < innerLen g d ∧
      scanPos g d (scanInvPos g d m).1 (scanInvPos g d m).2 = m := by
    intro m hm
    rw [outer_mul_inner] at hm
    exact scanPos_scanInvPos g d m hm
  have hlen1 : g.cells.length = outerLen g d * innerLen g d := by
    rw [hwf, outer_mul_inner]
  have hlen2 : (slide g d).cells.length = outerLen g d * innerLen g d := by
    rw [hlen, hlen1]
  rw [count_lines hlen2 hmem (scanInvPos_scanPos g d) hinv2 c,
    count_lines hlen1 hmem (scanInvPos_scanPos g d) hinv2 c]
  apply Finset.sum_congr rfl
  intro i hi
  rw [hlines i (Finset.mem_range.mp hi), settleLine_count]

theorem slide_wf (g : Grid) (d : Dir) (hwf : g.cells.length = g.width * g.height) :
    (slide g d).cells.length = (slide g d).width * (slide g d).height := by
  obtain ⟨h1, h2, h3⟩ := slide_preserve g d
  rw [h1, h2, h3, hwf]

theorem spinCycle_square_getD (g : Grid)
    (hwf : g.cells.length = g.width * g.height) :
    ∀ m, ((spinCycle g).cells.getD m Cell.empty = Cell.square
      ↔ g.cells.getD m Cell.empty = Cell.square) := by
  intro m
  unfold spinCycle
  rw [slide_square_getD _ Dir.east
      (slide_wf _ Dir.south (slide_wf _ Dir.west (slide_wf _ Dir.north hwf))) m,
    slide_square_getD _ Dir.south (slide_wf _ Dir.west (slide_wf _ Dir.north hwf)) m,
    slide_square_getD _ Dir.west (slide_wf _ Dir.north hwf) m,
    slide_square_getD _ Dir.north hwf m]

theorem spinCycle_count (g : Grid)
    (hwf : g.cells.length = g.width * g.height) (c : Cell) :
    (spinCycle g).cells.count c = g.cells.count c := by
  unfold spinCycle
  rw [slide_count _ Dir.east
      (slide_wf _ Dir.south (slide_wf _ Dir.west (slide_wf _ Dir.north hwf))) c,
    slide_count _ Dir.south (slide_wf _ Dir.west (slide_wf _ Dir.north hwf)) c,
    slide_count _ Dir.west (slide_wf _ Dir.north hwf) c,
    slide_count _ Dir.north hwf c]

/-- C10: for every well-formed grid (`cells.length = width * height`, as holds
for every rectangular parse) and every direction, `slide` keeps the dimensions,
keeps every square cell at its flat position, preserves the count of every
cell value (in particular the total number of round cells), and preserves the
per-segment round counts of every scanned line of its direction; consequently
one `spin_cycle` iteration permutes the cell multiset (preserving it) and
keeps every square cell in place. -/
theorem slide_preserves_segment_structure (g : Grid) (d : Dir)
    (hwf : g.cells.length = g.width * g.height) :
    ((slide g d).width = g.width ∧ (slide g d).height = g.height ∧
      (slide g d).cells.length = g.cells.length) ∧
    (∀ m, ((slide g d).cells.getD m Cell.empty = Cell.square
      ↔ g.cells.getD m Cell.empty = Cell.square)) ∧
    (∀ c, (slide g d).cells.count c = g.cells.count c) ∧
    (∀ i, i < outerLen g d →
      segRoundCounts (lineAt (scanPos g d) (innerLen g d) (slide g d) i)
        = segRoundCounts (lineAt (scanPos g d) (innerLen g d) g i)) ∧
    (spinCycle g).cells.Perm g.cells ∧
    (∀ m, ((spinCycle g).cells.getD m Cell.empty = Cell.square
      ↔ g.cells.getD m Cell.empty = Cell.square)) := by
  obtain ⟨hw, hh, hlen, hlines⟩ := slide_spec g d hwf
  refine ⟨⟨hw, hh, hlen⟩, slide_square_getD g d hwf, slide_count g d hwf, ?_,
    List.perm_iff_count.mpr (fun c => spinCycle_count g hwf c),
    spinCycle_square_getD g hwf⟩
  intro i hi
  rw [hlines i hi, settleLine_segcounts]

/-- Witness for `slide_preserves_segment_structure` on a 2×2 grid holding a
round rock, a square rock and an empty cell. -/
theorem slide_preserves_segment_structure_witness :
    (Grid.mk [Cell.round, Cell.square, Cell.empty, Cell.round] 2 2).cells.length
      = (Grid.mk [Cell.round, Cell.square, Cell.empty, Cell.round] 2 2).width
        * (Grid.mk [Cell.round, Cell.square, Cell.empty, Cell.round] 2 2).height ∧
    (spinCycle (Grid.mk [Cell.round, Cell.square, Cell.empty, Cell.round] 2 2)).cells.Perm
      [Cell.round, Cell.square, Cell.empty, Cell.round] :=
  ⟨by decide, (slide_preserves_segment_structure
      (Grid.mk [Cell.round, Cell.square, Cell.empty, Cell.round] 2 2) Dir.north
      (by decide)).2.2.2.2.1⟩

/-! C6: soundness and relaxation closure of the day-17 search. -/

/-- The cost of entering `n` cells along the ray `coord`: the sum of the cell
costs of `coord 1 .. coord n` (the source's sweep accumulates exactly this
sum: the first `min_steps - 1` cells up front, then one cell per step). -/
def runCostC (g : DGrid) (coord : Nat → Nat × Nat) (n : Nat) : Nat :=
  ((List.range' 1 n).map (fun i => g.get (coord i).1 (coord i).2)).sum

theorem runCostC_succ (g : DGrid) (coord : Nat → Nat × Nat) (n : Nat) :
    runCostC g coord (n + 1)
      = runCostC g coord n + g.get (coord (n + 1)).1 (coord (n + 1)).2 := by
  unfold runCostC
  rw [List.range'_concat, List.map_append, List.sum_append]
  simp [Nat.add_comm]

/-- One relaxation edge of the search from node `u`: a straight run of `n`
cells, `min_steps ≤ n ≤ min max_steps (room)`, in a direction not on `u`'s
axis, costing the sum of the entered cells — read off the four guarded
direction blocks of the main loop of `min_heat_loss`. -/
inductive EdgeTo (g : DGrid) (mn mx : Nat) : Node17 → Node17 → Nat → Prop
  | north {x y dir n : Nat} : ¬(dir = 0 ∨ dir = 1) → mn ≤ n → n ≤ min mx y →
      EdgeTo g mn mx (x, y, dir) (x, y - n, 0) (runCostC g (fun i => (x, y - i)) n)
  | south {x y dir n : Nat} : ¬(dir = 0 ∨ dir = 1) → mn ≤ n →
      n ≤ min mx (g.height - y - 1) →
      EdgeTo g mn mx (x, y, dir) (x, y + n, 1) (runCostC g (fun i => (x, y + i)) n)
  | east {x y dir n : Nat} : ¬(dir = 2 ∨ dir = 3) → mn ≤ n →
      n ≤ min mx (g.width - x - 1) →
      EdgeTo g mn mx (x, y, dir) (x + n, y, 2) (runCostC g (fun i => (x + i, y)) n)
  | west {x y dir n : Nat} : ¬(dir = 2 ∨ dir = 3) → mn ≤ n → n ≤ min mx x →
      EdgeTo g mn mx (x, y, dir) (x - n, y, 3) (runCostC g (fun i => (x - i, y)) n)

/-- Cost-annotated reachability along search edges from the synthetic start
node `(0, 0, Start)`. -/
inductive Reach (g : DGrid) (mn mx : Nat) : Node17 → Nat → Prop
  | start : Reach g mn mx (0, 0, 4) 0
  | step {u : Node17} {c : Nat} {v : Node17} {wt : Nat} :
      Reach g mn mx u c → EdgeTo g mn mx u v wt → Reach g mn mx v (c + wt)

/-- Raising `min_steps` only removes edges. -/
theorem EdgeTo_mono {g : DGrid} {mn mn' mx : Nat} {u v : Node17} {wt : Nat}
    (h : mn ≤ mn') (he : EdgeTo g mn' mx u v wt) : EdgeTo g mn mx u v wt := by
  cases he with
  | north h1 h2 h3 => exact EdgeTo.north h1 (by omega) h3
  | south h1 h2 h3 => exact EdgeTo.south h1 (by omega) h3
  | east h1 h2 h3 => exact EdgeTo.east h1 (by omega) h3
  | west h1 h2 h3 => exact EdgeTo.west h1 (by omega) h3

/-- Raising `min_steps` only removes reachable cost annotations. -/
theorem Reach_mono {g : DGrid} {mn mn' mx : Nat} {u : Node17} {c : Nat}
    (h : mn ≤ mn') (hr : Reach g mn' mx u c) : Reach g mn mx u c := by
  induction hr with
  | start => exact Reach.start
  | step hu he ih => exact Reach.step ih (EdgeTo_mono h he)

/-- A node is on the grid with a real direction. -/
def okNode (g : DGrid) (u : Node17) : Prop :=
  u.1 < g.width ∧ u.2.1 < g.height ∧ u.2.2 < 4

theorem EdgeTo_ok {g : DGrid} {mn mx : Nat} {u v : Node17} {wt : Nat}
    (hx : u.1 < g.width) (hy : u.2.1 < g.height)
    (he : EdgeTo g mn mx u v wt) : okNode g v := by
  cases he with
  | @north x y dir n h1 h2 h3 =>
    have hx' : x < g.width := hx
    have hy' : y < g.height := hy
    refine ⟨hx', ?_, by show (0 : Nat) < 4; decide⟩
    show y - n < g.height
    omega
  | @south x y dir n h1 h2 h3 =>
    have hx' : x < g.width := hx
    have hy' : y < g.height := hy
    have h4 : n ≤ g.height - y - 1 := Nat.le_trans h3 (Nat.min_le_right _ _)
    refine ⟨hx', ?_, by show (1 : Nat) < 4; decide⟩
    show y + n < g.height
    omega
  | @east x y dir n h1 h2 h3 =>
    have hx' : x < g.width := hx
    have hy' : y < g.height := hy
    have h4 : n ≤ g.width - x - 1 := Nat.le_trans h3 (Nat.min_le_right _ _)
    refine ⟨?_, hy', by show (2 : Nat) < 4; decide⟩
    show x + n < g.width
    omega
  | @west x y dir n h1 h2 h3 =>
    have hx' : x < g.width := hx
    have hy' : y < g.height := hy
    refine ⟨?_, hy', by show (3 : Nat) < 4; decide⟩
    show x - n < g.width
    omega

theorem Reach_ok {g : DGrid} {mn mx : Nat} {u : Node17} {c : Nat}
    (hw : 0 < g.width) (hh : 0 < g.height)
    (hr : Reach g mn mx u c) : u = (0, 0, 4) ∨ okNode g u := by
  induction hr with
  | start => exact Or.inl rfl
  | step hu he ih =>
    right
    rcases ih with rfl | hok
    · exact EdgeTo_ok hw hh he
    · exact EdgeTo_ok hok.1 hok.2.1 he

/-- Every edge target carries a real direction. -/
theorem EdgeTo_dir_lt {g : DGrid} {mn mx : Nat} {u v : Node17} {wt : Nat}
    (he : EdgeTo g mn mx u v wt) : v.2.2 < 4 := by
  cases he with
  | north h1 h2 h3 => show (0 : Nat) < 4; decide
  | south h1 h2 h3 => show (1 : Nat) < 4; decide
  | east h1 h2 h3 => show (2 : Nat) < 4; decide
  | west h1 h2 h3 => show (3 : Nat) < 4; decide

/-- No edge enters the synthetic start node, so its only cost is 0. -/
theorem Reach_start_cost {g : DGrid} {mn mx : Nat} {c : Nat}
    (h : Reach g mn mx (0, 0, 4) c) : c = 0 := by
  cases h with
  | start => rfl
  | step hu he =>
    exfalso
    have := EdgeTo_dir_lt he
    exact absurd this (by decide)

/-- `update_dists_and_queue`, fully characterized: the index is in range (else
the panic), and either the candidate is not smaller (state unchanged) or it is
written and its entry pushed. -/
theorem updateDQ_cases {g : DGrid} {st : SState} {node : Node17} {dist : Nat}
    {st' : SState} (h : updateDQ g st node dist = some st') :
    distIdx g node.1 node.2.1 node.2.2 < st.dists.length ∧
    ((st' = st ∧ st.dists.getD (distIdx g node.1 node.2.1 node.2.2) MAXD ≤ dist) ∨
      (dist < st.dists.getD (distIdx g node.1 node.2.1 node.2.2) MAXD ∧
        st' = ⟨(dist, node) :: st.queue,
          st.dists.set (distIdx g node.1 node.2.1 node.2.2) dist⟩)) := by
  unfold updateDQ at h
  dsimp only at h
  split at h
  · rename_i hlen
    refine ⟨hlen, ?_⟩
    split at h
    · rename_i hlt
      cases h
      right
      refine ⟨?_, rfl⟩
      rw [List.getD_eq_getElem _ _ hlen]
      rw [List.get_eq_getElem] at hlt
      exact hlt
    · rename_i hge
      cases h
      left
      refine ⟨rfl, ?_⟩
      rw [List.getD_eq_getElem _ _ hlen]
      exact Nat.le_of_not_lt hge
  · exact absurd h (by simp)

/-- The full specification of one direction sweep's fold, over the step range
`a ..< a + k`: lengths are kept, entries only decrease, every pushed entry is
the relaxation of one step count with its distance-map slot already at most
its distance, every step count's slot ends at most its candidate, and every
changed slot holds the candidate of one step count whose entry is queued. -/
theorem sweepFold_spec (g : DGrid) (dist : Nat) (coord : Nat → Nat × Nat) (dir : Nat) :
    ∀ (k a : Nat) (st st2 : SState) (s2 : Nat), 1 ≤ a →
    (List.range' a k).foldl (sweepStep g dist coord dir)
        (some (st, runCostC g coord (a - 1))) = some (st2, s2) →
    st2.dists.length = st.dists.length ∧
    (∀ i, st2.dists.getD i MAXD ≤ st.dists.getD i MAXD) ∧
    (∃ pushed, st2.queue = pushed ++ st.queue ∧
      ∀ e ∈ pushed, ∃ n, a ≤ n ∧ n < a + k ∧
        e = (dist + runCostC g coord n, ((coord n).1, (coord n).2, dir))) ∧
    (∀ n, a ≤ n → n < a + k →
      st2.dists.getD (distIdx g (coord n).1 (coord n).2 dir) MAXD
        ≤ dist + runCostC g coord n) ∧
    (∀ m, st2.dists.getD m MAXD ≠ st.dists.getD m MAXD →
      ∃ n, a ≤ n ∧ n < a + k ∧ distIdx g (coord n).1 (coord n).2 dir = m ∧
        st2.dists.getD m MAXD = dist + runCostC g coord n ∧
        (dist + runCostC g coord n, ((coord n).1, (coord n).2, dir)) ∈ st2.queue) := by
  intro k
  induction k with
  | zero =>
    intro a st st2 s2 ha h
    rw [show List.range' a 0 = [] from rfl, List.foldl_nil] at h
    injection h with h
    injection h with h1 h2
    subst h1
    refine ⟨rfl, fun i => Nat.le_refl _, ⟨[], rfl, by simp⟩, ?_, ?_⟩
    · intro n h1 h2
      omega
    · intro m hm
      exact absurd rfl hm
  | succ k ih =>
    intro a st st2 s2 ha h
    rw [List.range'_succ, List.foldl_cons] at h
    rcases hu : updateDQ g st ((coord a).1, (coord a).2, dir)
        (dist + (runCostC g coord (a - 1) + g.get (coord a).1 (coord a).2)) with _ | st'
    · rw [show sweepStep g dist coord dir (some (st, runCostC g coord (a - 1))) a = none from by
        unfold sweepStep; dsimp only; rw [hu]] at h
      rw [sweepStep_none_foldl] at h
      exact absurd h (by simp)
    · have hstep : sweepStep g dist coord dir (some (st, runCostC g coord (a - 1))) a
          = some (st', runCostC g coord a) := by
        unfold sweepStep
        dsimp only
        rw [hu, show runCostC g coord (a - 1) + g.get (coord a).1 (coord a).2
          = runCostC g coord a from by
            conv_rhs => rw [show a = (a - 1) + 1 from by omega]
            rw [runCostC_succ, show a - 1 + 1 = a from by omega]]
      rw [hstep] at h
      have hcand : runCostC g coord (a - 1) + g.get (coord a).1 (coord a).2
          = runCostC g coord a := by
        conv_rhs => rw [show a = (a - 1) + 1 from by omega]
        rw [runCostC_succ, show a - 1 + 1 = a from by omega]
      rw [show runCostC g coord a = runCostC g coord ((a + 1) - 1) from by
        rw [show (a + 1) - 1 = a from rfl]] at h
      obtain ⟨ihl, ihle, ⟨pushed, ihq, ihp⟩, ihcov, ihch⟩ :=
        ih (a + 1) st' st2 s2 (by omega) h
      obtain ⟨hidxlt, hcase⟩ := updateDQ_cases hu
      rw [hcand] at hcase
      have hul : st'.dists.length = st.dists.length := by
        rcases hcase with ⟨rfl, _⟩ | ⟨_, rfl⟩
        · rfl
        · exact List.length_set _ _ _
      have hule : ∀ i, st'.dists.getD i MAXD ≤ st.dists.getD i MAXD :=
        updateDQ_dists_le hu
      have hucov : st'.dists.getD (distIdx g (coord a).1 (coord a).2 dir) MAXD
          ≤ dist + runCostC g coord a := by
        rcases hcase with ⟨rfl, hge⟩ | ⟨hlt, rfl⟩
        · exact hge
        · show (st.dists.set _ _).getD _ MAXD ≤ _
          rw [List.getD_eq_getElem _ _ (by rw [List.length_set]; exact hidxlt),
            List.getElem_set_self]
    -- queue of st'
      have huq : st'.queue = st.queue ∨
          st'.queue = (dist + runCostC g coord a,
            ((coord a).1, (coord a).2, dir)) :: st.queue := by
        rcases hcase with ⟨rfl, _⟩ | ⟨_, rfl⟩
        · exact Or.inl rfl
        · exact Or.inr rfl
      refine ⟨ihl.trans hul, fun i => Nat.le_trans (ihle i) (hule i), ?_, ?_, ?_⟩
      · rcases huq with hq | hq
        · refine ⟨pushed, by rw [ihq, hq], ?_⟩
          intro e he
          obtain ⟨n, h1, h2, h3⟩ := ihp e he
          exact ⟨n, by omega, by omega, h3⟩
        · refine ⟨pushed ++ [(dist + runCostC g coord a,
            ((coord a).1, (coord a).2, dir))], by rw [ihq, hq]; simp, ?_⟩
          intro e he
          rw [List.mem_append] at he
          rcases he with he | he
          · obtain ⟨n, h1, h2, h3⟩ := ihp e he
            exact ⟨n, by omega, by omega, h3⟩
          · rw [List.mem_singleton] at he
            exact ⟨a, Nat.le_refl a, by omega, he⟩
      · intro n h1 h2
        rcases Nat.eq_or_lt_of_le h1 with heq | hlt
        · subst heq
          exact Nat.le_trans (ihle _) hucov
        · exact ihcov n (by omega) (by omega)
      · intro m hm
        by_cases hch : st2.dists.getD m MAXD = st'.dists.getD m MAXD
        · -- the change happened at the first update
          have hm' : st'.dists.getD m MAXD ≠ st.dists.getD m MAXD := by
            rw [← hch]
            exact hm
          rcases hcase with ⟨rfl, _⟩ | ⟨hlt, heqst⟩
          · exact absurd rfl hm'
          · have hmidx : m = distIdx g (coord a).1 (coord a).2 dir := by
              by_contra hne
              apply hm'
              rw [heqst]
              show (st.dists.set _ _).getD m MAXD = _
              rw [List.getD_eq_getElem?_getD, List.getD_eq_getElem?_getD,
                List.getElem?_set_ne (fun hc => hne hc.symm)]
            subst hmidx
            refine ⟨a, Nat.le_refl a, by omega, rfl, ?_, ?_⟩
            · rw [hch, heqst]
              show (st.dists.set _ _).getD _ MAXD = _
              rw [List.getD_eq_getElem _ _ (by rw [List.length_set]; exact hidxlt),
                List.getElem_set_self]
            · rw [ihq, heqst]
              simp
        · obtain ⟨n, h1, h2, h3, h4, h5⟩ := ihch m hch
          exact ⟨n, by omega, by omega, h3, h4, h5⟩

theorem sweepDir_spec {g : DGrid} {dist : Nat} {coord : Nat → Nat × Nat} {dir : Nat}
    {mn maxN : Nat} {st st2 : SState} (hmn : 1 ≤ mn)
    (h : sweepDir g dist coord dir mn maxN st = some st2) :
    st2.dists.length = st.dists.length ∧
    (∀ i, st2.dists.getD i MAXD ≤ st.dists.getD i MAXD) ∧
    (∃ pushed, st2.queue = pushed ++ st.queue ∧
      ∀ e ∈ pushed, ∃ n, mn ≤ n ∧ n ≤ maxN ∧
        e = (dist + runCostC g coord n, ((coord n).1, (coord n).2, dir))) ∧
    (∀ n, mn ≤ n → n ≤ maxN →
      st2.dists.getD (distIdx g (coord n).1 (coord n).2 dir) MAXD
        ≤ dist + runCostC g coord n) ∧
    (∀ m, st2.dists.getD m MAXD ≠ st.dists.getD m MAXD →
      ∃ n, mn ≤ n ∧ n ≤ maxN ∧ distIdx g (coord n).1 (coord n).2 dir = m ∧
        st2.dists.getD m MAXD = dist + runCostC g coord n ∧
        (dist + runCostC g coord n, ((coord n).1, (coord n).2, dir)) ∈ st2.queue) := by
  unfold sweepDir at h
  dsimp only at h
  split at h
  · exact absurd h (by simp)
  · rename_i st3 s3 heq
    cases h
    obtain ⟨h1, h2, ⟨pushed, h3, h4⟩, h5, h6⟩ :=
      sweepFold_spec g dist coord dir (maxN + 1 - mn) mn st st2 s3 hmn heq
    refine ⟨h1, h2, ⟨pushed, h3, ?_⟩, ?_, ?_⟩
    · intro e he
      obtain ⟨n, k1, k2, k3⟩ := h4 e he
      exact ⟨n, k1, by omega, k3⟩
    · intro n k1 k2
      exact h5 n k1 (by omega)
    · intro m hm
      obtain ⟨n, k1, k2, k3, k4, k5⟩ := h6 m hm
      exact ⟨n, k1, by omega, k3, k4, k5⟩

/-- One guarded direction block: either the guard fails (state unchanged) or
the block is a full sweep. -/
theorem stage_spec {g : DGrid} {dist : Nat} {coord : Nat → Nat × Nat} {dir : Nat}
    {mn maxN : Nat} {P : Prop} [Decidable P] {st st1 : SState} (hmn : 1 ≤ mn)
    (h : (if mn ≤ maxN ∧ P then sweepDir g dist coord dir mn maxN st else some st)
      = some st1) :
    st1.dists.length = st.dists.length ∧
    (∀ i, st1.dists.getD i MAXD ≤ st.dists.getD i MAXD) ∧
    (∃ pushed, st1.queue = pushed ++ st.queue ∧
      ∀ e ∈ pushed, ∃ n, mn ≤ n ∧ n ≤ maxN ∧ P ∧
        e = (dist + runCostC g coord n, ((coord n).1, (coord n).2, dir))) ∧
    (P → ∀ n, mn ≤ n → n ≤ maxN →
      st1.dists.getD (distIdx g (coord n).1 (coord n).2 dir) MAXD
        ≤ dist + runCostC g coord n) ∧
    (∀ m, st1.dists.getD m MAXD ≠ st.dists.getD m MAXD →
      ∃ n, mn ≤ n ∧ n ≤ maxN ∧ P ∧ distIdx g (coord n).1 (coord n).2 dir = m ∧
        st1.dists.getD m MAXD = dist + runCostC g coord n ∧
        (dist + runCostC g coord n, ((coord n).1, (coord n).2, dir)) ∈ st1.queue) := by
  split at h
  · rename_i hgd
    obtain ⟨h1, h2, ⟨pushed, h3, h4⟩, h5, h6⟩ := sweepDir_spec hmn h
    refine ⟨h1, h2, ⟨pushed, h3, ?_⟩, ?_, ?_⟩
    · intro e he
      obtain ⟨n, k1, k2, k3⟩ := h4 e he
      exact ⟨n, k1, k2, hgd.2, k3⟩
    · intro _ n k1 k2
      exact h5 n k1 k2
    · intro m hm
      obtain ⟨n, k1, k2, k3, k4, k5⟩ := h6 m hm
      exact ⟨n, k1, k2, hgd.2, k3, k4, k5⟩
  · rename_i hgd
    cases h
    refine ⟨rfl, fun i => Nat.le_refl _, ⟨[], rfl, by simp⟩, ?_, ?_⟩
    · intro hp n k1 k2
      exact absurd ⟨Nat.le_trans k1 k2, hp⟩ hgd
    · intro m hm
      exact absurd rfl hm

/-- Full specification of one node expansion: entries only decrease, every
pushed entry is an edge relaxation, every edge's slot ends at most its
candidate distance, and every changed slot holds some edge's candidate with
its entry queued. -/
theorem expandNode_spec {g : DGrid} {mn mx x y dir dist : Nat} {st st2 : SState}
    (hmn : 1 ≤ mn) (h : expandNode g mn mx x y dir dist st = some st2) :
    st2.dists.length = st.dists.length ∧
    (∀ i, st2.dists.getD i MAXD ≤ st.dists.getD i MAXD) ∧
    (∃ pushed, st2.queue = pushed ++ st.queue ∧
      ∀ e ∈ pushed, ∃ v wt, EdgeTo g mn mx (x, y, dir) v wt ∧ e = (dist + wt, v)) ∧
    (∀ v wt, EdgeTo g mn mx (x, y, dir) v wt →
      st2.dists.getD (distIdx g v.1 v.2.1 v.2.2) MAXD ≤ dist + wt) ∧
    (∀ m, st2.dists.getD m MAXD ≠ st.dists.getD m MAXD →
      ∃ v wt, EdgeTo g mn mx (x, y, dir) v wt ∧ distIdx g v.1 v.2.1 v.2.2 = m ∧
        st2.dists.getD m MAXD = dist + wt ∧ (dist + wt, v) ∈ st2.queue) := by
  unfold expandNode at h
  dsimp only at h
  split at h
  · exact absurd h (by simp)
  · rename_i stA heqA
    split at h
    · exact absurd h (by simp)
    · rename_i stB heqB
      split at h
      · exact absurd h (by simp)
      · rename_i stC heqC
        obtain ⟨a1, a2, ⟨pA, a3, a4⟩, a5, a6⟩ := stage_spec hmn heqA
        obtain ⟨b1, b2, ⟨pB, b3, b4⟩, b5, b6⟩ := stage_spec hmn heqB
        obtain ⟨c1, c2, ⟨pC, c3, c4⟩, c5, c6⟩ := stage_spec hmn heqC
        obtain ⟨d1, d2, ⟨pD, d3, d4⟩, d5, d6⟩ := stage_spec hmn h
        refine ⟨d1.trans (c1.trans (b1.trans a1)),
          fun i => Nat.le_trans (d2 i) (Nat.le_trans (c2 i)
            (Nat.le_trans (b2 i) (a2 i))), ?_, ?_, ?_⟩
        · refine ⟨pD ++ pC ++ pB ++ pA, by
            rw [d3, c3, b3, a3]
            simp [List.append_assoc], ?_⟩
          intro e he
          simp only [List.mem_append] at he
          rcases he with ((he | he) | he) | he
          · obtain ⟨n, k1, k2, kP, k3⟩ := d4 e he
            exact ⟨(x - n, y, 3), _, EdgeTo.west kP k1 k2, k3⟩
          · obtain ⟨n, k1, k2, kP, k3⟩ := c4 e he
            exact ⟨(x + n, y, 2), _, EdgeTo.east kP k1 k2, k3⟩
          · obtain ⟨n, k1, k2, kP, k3⟩ := b4 e he
            exact ⟨(x, y + n, 1), _, EdgeTo.south kP k1 k2, k3⟩
          · obtain ⟨n, k1, k2, kP, k3⟩ := a4 e he
            exact ⟨(x, y - n, 0), _, EdgeTo.north kP k1 k2, k3⟩
        · intro v wt he
          cases he with
          | @north x' y' dir' n h1 h2 h3 =>
            exact Nat.le_trans (d2 _) (Nat.le_trans (c2 _)
              (Nat.le_trans (b2 _) (a5 h1 n h2 h3)))
          | @south x' y' dir' n h1 h2 h3 =>
            exact Nat.le_trans (d2 _) (Nat.le_trans (c2 _) (b5 h1 n h2 h3))
          | @east x' y' dir' n h1 h2 h3 =>
            exact Nat.le_trans (d2 _) (c5 h1 n h2 h3)
          | @west x' y' dir' n h1 h2 h3 =>
            exact d5 h1 n h2 h3
        · intro m hm
          by_cases hD : st2.dists.getD m MAXD = stC.dists.getD m MAXD
          · by_cases hC : stC.dists.getD m MAXD = stB.dists.getD m MAXD
            · by_cases hB : stB.dists.getD m MAXD = stA.dists.getD m MAXD
              · have hA : stA.dists.getD m MAXD ≠ st.dists.getD m MAXD := by
                  rw [← hB, ← hC, ← hD]
                  exact hm
                obtain ⟨n, k1, k2, kP, k3, k4, k5⟩ := a6 m hA
                refine ⟨(x, y - n, 0), _, EdgeTo.north kP k1 k2, k3, ?_, ?_⟩
                · rw [hD, hC, hB]
                  exact k4
                · rw [d3, c3, b3]
                  exact List.mem_append_right _ (List.mem_append_right _
                    (List.mem_append_right _ k5))
              · obtain ⟨n, k1, k2, kP, k3, k4, k5⟩ := b6 m hB
                refine ⟨(x, y + n, 1), _, EdgeTo.south kP k1 k2, k3, ?_, ?_⟩
                · rw [hD, hC]
                  exact k4
                · rw [d3, c3]
                  exact List.mem_append_right _ (List.mem_append_right _ k5)
            · obtain ⟨n, k1, k2, kP, k3, k4, k5⟩ := c6 m hC
              refine ⟨(x + n, y, 2), _, EdgeTo.east kP k1 k2, k3, ?_, ?_⟩
              · rw [hD]
                exact k4
              · rw [d3]
                exact List.mem_append_right _ k5
          · obtain ⟨n, k1, k2, kP, k3, k4, k5⟩ := d6 m hD
            exact ⟨(x - n, y, 3), _, EdgeTo.west kP k1 k2, k3, k4, k5⟩

/-- The soundness invariant of the search loop: every queue entry is the
start entry or an on-grid node queued at the cost of a run sequence reaching
it, and every finite distance-map entry is such a cost for a node mapping to
its slot. -/
def SoundInv (g : DGrid) (mn mx : Nat) (st : SState) : Prop :=
  (∀ e ∈ st.queue, e = (0, (0, 0, 4)) ∨ (okNode g e.2 ∧ Reach g mn mx e.2 e.1)) ∧
  (∀ m, st.dists.getD m MAXD ≠ MAXD →
    ∃ u c, okNode g u ∧ distIdx g u.1 u.2.1 u.2.2 = m ∧ Reach g mn mx u c ∧
      st.dists.getD m MAXD = c)

theorem SoundInv_expand {g : DGrid} {mn mx : Nat} (hmn : 1 ≤ mn)
    (hw : 0 < g.width) (hh : 0 < g.height)
    {d x y dir : Nat} {rest : List (Nat × Node17)} {dists : List Nat} {st2 : SState}
    (hpopped : (d, (x, y, dir)) = (0, (0, 0, 4)) ∨
      (okNode g (x, y, dir) ∧ Reach g mn mx (x, y, dir) d))
    (hq : ∀ e ∈ rest, e = (0, (0, 0, 4)) ∨ (okNode g e.2 ∧ Reach g mn mx e.2 e.1))
    (hd : ∀ m, dists.getD m MAXD ≠ MAXD →
      ∃ u c, okNode g u ∧ distIdx g u.1 u.2.1 u.2.2 = m ∧ Reach g mn mx u c ∧
        dists.getD m MAXD = c)
    (h : expandNode g mn mx x y dir d ⟨rest, dists⟩ = some st2) :
    SoundInv g mn mx st2 := by
  obtain ⟨_, _, ⟨pushed, hq2, hp⟩, _, hch⟩ := expandNode_spec hmn h
  have hreach : Reach g mn mx (x, y, dir) d ∧ x < g.width ∧ y < g.height := by
    rcases hpopped with heq | ⟨hok, hr⟩
    · injection heq with h1 h2
      subst h1
      injection h2 with h2a h2b
      subst h2a
      injection h2b with h2c h2d
      subst h2c
      subst h2d
      exact ⟨Reach.start, hw, hh⟩
    · exact ⟨hr, hok.1, hok.2.1⟩
  constructor
  · intro e he
    rw [hq2, List.mem_append] at he
    rcases he with he | he
    · obtain ⟨v, wt, hedge, heq⟩ := hp e he
      right
      rw [heq]
      exact ⟨EdgeTo_ok hreach.2.1 hreach.2.2 hedge,
        Reach.step hreach.1 hedge⟩
    · exact hq e he
  · intro m hm
    by_cases hchm : st2.dists.getD m MAXD = dists.getD m MAXD
    · rw [hchm] at hm ⊢
      exact hd m hm
    · obtain ⟨v, wt, hedge, hidx, hval, _⟩ := hch m hchm
      exact ⟨v, d + wt, EdgeTo_ok hreach.2.1 hreach.2.2 hedge, hidx,
        Reach.step hreach.1 hedge, hval⟩

/-- At a successful loop exit every finite distance-map entry is the cost of
a run sequence reaching a node that maps to its slot. -/
theorem searchLoop_sound {g : DGrid} {mn mx : Nat} (hmn : 1 ≤ mn)
    (hw : 0 < g.width) (hh : 0 < g.height) :
    ∀ (fuel : Nat) (st : SState) (final : List Nat),
    searchLoop g mn mx fuel st = LoopRes.done final →
    SoundInv g mn mx st →
    ∀ m, final.getD m MAXD ≠ MAXD →
      ∃ u c, okNode g u ∧ distIdx g u.1 u.2.1 u.2.2 = m ∧ Reach g mn mx u c ∧
        final.getD m MAXD = c := by
  intro fuel
  induction fuel with
  | zero =>
    intro st final h hinv
    rw [searchLoop] at h
    rcases hpop : popBest st.queue with _ | pair
    · rw [hpop] at h
      injection h with h
      subst h
      exact hinv.2
    · rw [hpop] at h
      exact absurd h (by simp)
  | succ fuel ih =>
    intro st final h hinv
    rw [searchLoop] at h
    rcases hpop : popBest st.queue with _ | ⟨⟨d, ⟨x, y, dir⟩⟩, rest⟩
    · rw [hpop] at h
      injection h with h
      subst h
      exact hinv.2
    · rw [hpop] at h
      dsimp only at h
      obtain ⟨hmem, hrest⟩ := popBest_eq_some hpop
      have hq : ∀ e ∈ rest, e = (0, (0, 0, 4)) ∨ (okNode g e.2 ∧ Reach g mn mx e.2 e.1) := by
        intro e he
        rw [hrest] at he
        exact hinv.1 e (List.mem_of_mem_erase he)
      split at h
      · rename_i hidx
        split at h
        · exact ih ⟨rest, st.dists⟩ final h ⟨hq, hinv.2⟩
        · rcases hexp : expandNode g mn mx x y dir d ⟨rest, st.dists⟩ with _ | st2
          · rw [hexp] at h
            exact absurd h (by simp)
          · rw [hexp] at h
            exact ih st2 final h
              (SoundInv_expand hmn hw hh (hinv.1 _ hmem) hq hinv.2 hexp)
      · exact absurd h (by simp)

/-- On a single-column or square grid the distance-map index is injective on
on-grid nodes. -/
theorem distIdx_inj {g : DGrid} (hsq : g.width = 1 ∨ g.width = g.height)
    {u v : Node17} (hu : okNode g u) (hv : okNode g v)
    (h : distIdx g u.1 u.2.1 u.2.2 = distIdx g v.1 v.2.1 v.2.2) : u = v := by
  obtain ⟨hux, huy, hud⟩ := hu
  obtain ⟨hvx, hvy, hvd⟩ := hv
  unfold distIdx at h
  have h1 : u.1 * g.width + u.2.1 = v.1 * g.width + v.2.1 ∧ u.2.2 = v.2.2 := by
    omega
  have h21 : u.1 = v.1 := by
    rcases hsq with hw1 | hwh
    · omega
    · have hyw : u.2.1 < g.width := by omega
      have hyw' : v.2.1 < g.width := by omega
      by_contra hne
      rcases Nat.lt_or_ge u.1 v.1 with hlt | hge
      · have hstep : u.1 * g.width + g.width ≤ v.1 * g.width := by
          calc u.1 * g.width + g.width = (u.1 + 1) * g.width := by ring
            _ ≤ v.1 * g.width := Nat.mul_le_mul_right _ (by omega)
        omega
      · have hlt : v.1 < u.1 := by omega
        have hstep : v.1 * g.width + g.width ≤ u.1 * g.width := by
          calc v.1 * g.width + g.width = (v.1 + 1) * g.width := by ring
            _ ≤ u.1 * g.width := Nat.mul_le_mul_right _ (by omega)
        omega
  have h22 : u.2.1 = v.2.1 := by
    have h3 : u.1 * g.width = v.1 * g.width := by rw [h21]
    omega
  have hu2 : u.2 = v.2 := Prod.ext_iff.mpr ⟨h22, h1.2⟩
  exact Prod.ext_iff.mpr ⟨h21, hu2⟩

/-- On a single-column or square grid the slot of every on-grid node is in
bounds. -/
theorem distIdx_lt_ok {g : DGrid} (hsq : g.width = 1 ∨ g.width = g.height)
    {u : Node17} (hok : okNode g u) :
    distIdx g u.1 u.2.1 u.2.2 < g.width * g.height * 4 := by
  rcases hsq with h1 | h2
  · unfold distIdx
    have hx : u.1 = 0 := by
      have := hok.1
      omega
    have hy := hok.2.1
    have hd := hok.2.2
    rw [hx, h1]
    omega
  · exact distIdx_lt_of_inbounds h2 hok.1 hok.2.1 hok.2.2

/-- All edges out of `u` are relaxed in `dists`. -/
def ClosedAt (g : DGrid) (mn mx : Nat) (dists : List Nat) (u : Node17) : Prop :=
  ∀ v wt, EdgeTo g mn mx u v wt →
    dists.getD (distIdx g v.1 v.2.1 v.2.2) MAXD
      ≤ dists.getD (distIdx g u.1 u.2.1 u.2.2) MAXD + wt

/-- The relaxation-closure invariant of the loop (after the start pop): the
distance map is dense, every queue entry is an on-grid node whose stored
distance is at most its queued distance, every on-grid node with a finite
stored distance is open (an entry at exactly its stored distance is queued)
or closed (all its edges relaxed), and the start node's edges stay relaxed. -/
def ClosedInv (g : DGrid) (mn mx : Nat) (st : SState) : Prop :=
  st.dists.length = g.width * g.height * 4 ∧
  (∀ e ∈ st.queue, okNode g e.2 ∧
    st.dists.getD (distIdx g e.2.1 e.2.2.1 e.2.2.2) MAXD ≤ e.1) ∧
  (∀ u, okNode g u → st.dists.getD (distIdx g u.1 u.2.1 u.2.2) MAXD ≠ MAXD →
    ((st.dists.getD (distIdx g u.1 u.2.1 u.2.2) MAXD, u) ∈ st.queue ∨
      ClosedAt g mn mx st.dists u)) ∧
  (∀ v wt, EdgeTo g mn mx (0, 0, 4) v wt →
    st.dists.getD (distIdx g v.1 v.2.1 v.2.2) MAXD ≤ wt)

theorem ClosedInv_stale {g : DGrid} {mn mx : Nat} {st : SState}
    {d : Nat} {u : Node17} {rest : List (Nat × Node17)}
    (hpop : popBest st.queue = some ((d, u), rest))
    (hstale : st.dists.getD (distIdx g u.1 u.2.1 u.2.2) MAXD < d)
    (hinv : ClosedInv g mn mx st) : ClosedInv g mn mx ⟨rest, st.dists⟩ := by
  obtain ⟨hlen, hq, hoc, hsd⟩ := hinv
  obtain ⟨hmem, hrest⟩ := popBest_eq_some hpop
  refine ⟨hlen, ?_, ?_, hsd⟩
  · intro e he
    rw [hrest] at he
    exact hq e (List.mem_of_mem_erase he)
  · intro z hz hfin
    dsimp only at hfin ⊢
    rcases hoc z hz hfin with hopen | hclosed
    · left
      rw [hrest]
      rw [List.mem_erase_of_ne ?hne]
      · exact hopen
      case hne =>
        intro hcon
        injection hcon with hc1 hc2
        subst hc2
        omega
    · right
      exact hclosed

theorem ClosedInv_expand {g : DGrid} {mn mx : Nat} (hmn : 1 ≤ mn)
    (hsq : g.width = 1 ∨ g.width = g.height) {st : SState}
    {d x y dir : Nat} {rest : List (Nat × Node17)} {st2 : SState}
    (hpop : popBest st.queue = some ((d, (x, y, dir)), rest))
    (hns : d = st.dists.getD (distIdx g x y dir) MAXD)
    (hok : okNode g (x, y, dir))
    (hinv : ClosedInv g mn mx st)
    (hexp : expandNode g mn mx x y dir d ⟨rest, st.dists⟩ = some st2) :
    ClosedInv g mn mx st2 := by
  obtain ⟨hlen, hq, hoc, hsd⟩ := hinv
  obtain ⟨hmem, hrest⟩ := popBest_eq_some hpop
  obtain ⟨hel, hele, ⟨pushed, he2, hep⟩, hecov, hech⟩ := expandNode_spec hmn hexp
  have hqrest : ∀ e ∈ rest, okNode g e.2 ∧
      st.dists.getD (distIdx g e.2.1 e.2.2.1 e.2.2.2) MAXD ≤ e.1 := by
    intro e he
    rw [hrest] at he
    exact hq e (List.mem_of_mem_erase he)
  -- the popped node's own slot is untouched by its expansion
  have hself : st2.dists.getD (distIdx g x y dir) MAXD
      = st.dists.getD (distIdx g x y dir) MAXD := by
    by_contra hch
    obtain ⟨v, wt, hedge, hidx, _, _⟩ := hech _ hch
    have hvok : okNode g v := EdgeTo_ok hok.1 hok.2.1 hedge
    have hvu : v = (x, y, dir) := distIdx_inj hsq hvok hok hidx
    cases hedge with
    | north h1 h2 h3 =>
      injection hvu with ha hb
      injection hb with hb hc
      exact h1 (Or.inl hc.symm)
    | south h1 h2 h3 =>
      injection hvu with ha hb
      injection hb with hb hc
      exact h1 (Or.inr hc.symm)
    | east h1 h2 h3 =>
      injection hvu with ha hb
      injection hb with hb hc
      exact h1 (Or.inl hc.symm)
    | west h1 h2 h3 =>
      injection hvu with ha hb
      injection hb with hb hc
      exact h1 (Or.inr hc.symm)
  refine ⟨hel.trans hlen, ?_, ?_, ?_⟩
  · intro e he
    rw [he2, List.mem_append] at he
    rcases he with he | he
    · obtain ⟨v, wt, hedge, heq⟩ := hep e he
      subst heq
      exact ⟨EdgeTo_ok hok.1 hok.2.1 hedge, hecov v wt hedge⟩
    · obtain ⟨hok2, hle2⟩ := hqrest e he
      exact ⟨hok2, Nat.le_trans (hele _) hle2⟩
  · intro z hz hfin
    by_cases hch : st2.dists.getD (distIdx g z.1 z.2.1 z.2.2) MAXD
        = st.dists.getD (distIdx g z.1 z.2.1 z.2.2) MAXD
    · by_cases hzu : z = (x, y, dir)
      · subst hzu
        right
        intro v wt hedge
        rw [hself, ← hns]
        exact hecov v wt hedge
      · rcases hoc z hz (by rw [← hch]; exact hfin) with hopen | hclosed
        · left
          rw [hch, he2, List.mem_append]
          right
          rw [hrest, List.mem_erase_of_ne ?neq]
          · exact hopen
          case neq =>
            intro hcon
            injection hcon with hc1 hc2
            exact hzu hc2
        · right
          intro v wt hedge
          rw [hch]
          exact Nat.le_trans (hele _) (hclosed v wt hedge)
    · obtain ⟨v, wt, hedge, hidx, hval, hentry⟩ := hech _ hch
      have hvok : okNode g v := EdgeTo_ok hok.1 hok.2.1 hedge
      have hvz : v = z := distIdx_inj hsq hvok hz hidx
      left
      rw [hval, ← hvz]
      exact hentry
  · intro v wt hedge
    exact Nat.le_trans (hele _) (hsd v wt hedge)

theorem popBest_none {q : List (Nat × Node17)} (h : popBest q = none) : q = [] := by
  cases q with
  | nil => rfl
  | cons a as => exact absurd h (by simp [popBest])

/-- The distance map never grows anywhere across the whole loop. -/
theorem searchLoop_le {g : DGrid} {mn mx : Nat} :
    ∀ (fuel : Nat) (st : SState) (final : List Nat),
    searchLoop g mn mx fuel st = LoopRes.done final →
    ∀ i, final.getD i MAXD ≤ st.dists.getD i MAXD := by
  intro fuel
  induction fuel with
  | zero =>
    intro st final h i
    rw [searchLoop] at h
    rcases hpop : popBest st.queue with _ | pair
    · rw [hpop] at h
      injection h with h
      subst h
      exact Nat.le_refl _
    · rw [hpop] at h
      exact absurd h (by simp)
  | succ fuel ih =>
    intro st final h i
    rw [searchLoop] at h
    rcases hpop : popBest st.queue with _ | ⟨⟨d, ⟨x, y, dir⟩⟩, rest⟩
    · rw [hpop] at h
      injection h with h
      subst h
      exact Nat.le_refl _
    · rw [hpop] at h
      dsimp only at h
      split at h
      · split at h
        · exact ih _ _ h i
        · rcases hexp : expandNode g mn mx x y dir d ⟨rest, st.dists⟩ with _ | st2
          · rw [hexp] at h
            exact absurd h (by simp)
          · rw [hexp] at h
            exact Nat.le_trans (ih _ _ h i) (expandNode_dists_le hexp i)
      · exact absurd h (by simp)

/-- At a successful loop exit from a state satisfying the closure invariant,
every on-grid node with a finite distance has all its edges relaxed, and the
start edges are relaxed. -/
theorem searchLoop_closed {g : DGrid} {mn mx : Nat} (hmn : 1 ≤ mn)
    (hsq : g.width = 1 ∨ g.width = g.height) :
    ∀ (fuel : Nat) (st : SState) (final : List Nat),
    searchLoop g mn mx fuel st = LoopRes.done final →
    ClosedInv g mn mx st →
    final.length = g.width * g.height * 4 ∧
    (∀ u, okNode g u → final.getD (distIdx g u.1 u.2.1 u.2.2) MAXD ≠ MAXD →
      ClosedAt g mn mx final u) ∧
    (∀ v wt, EdgeTo g mn mx (0, 0, 4) v wt →
      final.getD (distIdx g v.1 v.2.1 v.2.2) MAXD ≤ wt) := by
  intro fuel
  induction fuel with
  | zero =>
    intro st final h hinv
    rw [searchLoop] at h
    rcases hpop : popBest st.queue with _ | pair
    · rw [hpop] at h
      injection h with h
      subst h
      have hq := popBest_none hpop
      refine ⟨hinv.1, ?_, hinv.2.2.2⟩
      intro u hu hfin
      rcases hinv.2.2.1 u hu hfin with hopen | hclosed
      · rw [hq] at hopen
        exact absurd hopen (List.not_mem_nil _)
      · exact hclosed
    · rw [hpop] at h
      exact absurd h (by simp)
  | succ fuel ih =>
    intro st final h hinv
    rw [searchLoop] at h
    rcases hpop : popBest st.queue with _ | ⟨⟨d, ⟨x, y, dir⟩⟩, rest⟩
    · rw [hpop] at h
      injection h with h
      subst h
      have hq := popBest_none hpop
      refine ⟨hinv.1, ?_, hinv.2.2.2⟩
      intro u hu hfin
      rcases hinv.2.2.1 u hu hfin with hopen | hclosed
      · rw [hq] at hopen
        exact absurd hopen (List.not_mem_nil _)
      · exact hclosed
    · rw [hpop] at h
      dsimp only at h
      split at h
      · rename_i hidx
        split at h
        · rename_i hstale
          apply ih _ _ h
          apply ClosedInv_stale hpop ?_ hinv
          rw [List.getD_eq_getElem _ _ hidx]
          exact hstale
        · rename_i hnstale
          rcases hexp : expandNode g mn mx x y dir d ⟨rest, st.dists⟩ with _ | st2
          · rw [hexp] at h
            exact absurd h (by simp)
          · rw [hexp] at h
            apply ih _ _ h
            have hmem := (popBest_eq_some hpop).1
            have hokd := hinv.2.1 _ hmem
            have hok2 : okNode g (x, y, dir) := hokd.1
            have h2 : st.dists.getD (distIdx g x y dir) MAXD ≤ d := hokd.2
            have h1 : ¬ st.dists.getD (distIdx g x y dir) MAXD < d := by
              rw [List.getD_eq_getElem _ _ hidx]
              exact hnstale
            exact ClosedInv_expand hmn hsq hpop (by omega) hok2 hinv hexp
      · exact absurd h (by simp)

/-- A successful run forces at least two grid cells: the start pop's stale
check reads `dists[4]` and must be in bounds. -/
theorem searchLoop_init_pos {g : DGrid} {mn mx fuel : Nat} {final : List Nat}
    (h : searchLoop g mn mx fuel (initState g) = LoopRes.done final) :
    2 ≤ g.width * g.height := by
  cases fuel with
  | zero =>
    rw [searchLoop] at h
    rw [show popBest (initState g).queue = some ((0, (0, 0, 4)), []) from rfl] at h
    exact absurd h (by simp)
  | succ fuel =>
    rw [searchLoop] at h
    rw [show popBest (initState g).queue = some ((0, (0, 0, 4)), []) from rfl] at h
    dsimp only at h
    split at h
    · rename_i hidx
      have h4 : distIdx g 0 0 4 = 4 := by simp [distIdx]
      have hlen : (initState g).dists.length = g.width * g.height * 4 := by
        simp [initState]
      rw [h4, hlen] at hidx
      omega
    · exact absurd h (by simp)

/-- From the initial state, a successful run first expands the start node and
then maintains the closure invariant: at the exit every finite on-grid node is
relaxed, and so are the start edges. -/
theorem searchLoop_init_closed {g : DGrid} {mn mx fuel : Nat} {final : List Nat}
    (hmn : 1 ≤ mn) (hsq : g.width = 1 ∨ g.width = g.height)
    (h : searchLoop g mn mx fuel (initState g) = LoopRes.done final) :
    final.length = g.width * g.height * 4 ∧
    (∀ u, okNode g u → final.getD (distIdx g u.1 u.2.1 u.2.2) MAXD ≠ MAXD →
      ClosedAt g mn mx final u) ∧
    (∀ v wt, EdgeTo g mn mx (0, 0, 4) v wt →
      final.getD (distIdx g v.1 v.2.1 v.2.2) MAXD ≤ wt) := by
  have hpos := searchLoop_init_pos h
  have hw : 0 < g.width := by
    rcases Nat.eq_zero_or_pos g.width with hz | hp
    · rw [hz, Nat.zero_mul] at hpos
      omega
    · exact hp
  have hh : 0 < g.height := by
    rcases Nat.eq_zero_or_pos g.height with hz | hp
    · rw [hz, Nat.mul_zero] at hpos
      omega
    · exact hp
  cases fuel with
  | zero =>
    rw [searchLoop] at h
    rw [show popBest (initState g).queue = some ((0, (0, 0, 4)), []) from rfl] at h
    exact absurd h (by simp)
  | succ fuel =>
    rw [searchLoop] at h
    rw [show popBest (initState g).queue = some ((0, (0, 0, 4)), []) from rfl] at h
    dsimp only at h
    split at h
    · rename_i hidx
      rw [if_neg ?stale] at h
      case stale =>
        have hrep : (initState g).dists.get ⟨distIdx g 0 0 4, hidx⟩ = MAXD :=
          List.getElem_replicate _ _
        rw [hrep]
        exact Nat.not_lt_zero MAXD
      rcases hexp : expandNode g mn mx 0 0 4 0 ⟨[], (initState g).dists⟩ with _ | st1
      · rw [hexp] at h
        exact absurd h (by simp)
      · rw [hexp] at h
        obtain ⟨hel, hele, ⟨pushed, he2, hep⟩, hecov, hech⟩ := expandNode_spec hmn hexp
        have hinitlen : (initState g).dists.length = g.width * g.height * 4 := by
          simp [initState]
        have hinit_getD : ∀ m, (initState g).dists.getD m MAXD = MAXD := by
          intro m
          rcases Nat.lt_or_ge m ((initState g).dists.length) with hm | hm
          · rw [List.getD_eq_getElem _ _ hm]
            exact List.getElem_replicate _ _
          · rw [List.getD_eq_getElem?_getD, List.getElem?_eq_none (by omega)]
            rfl
        apply searchLoop_closed hmn hsq fuel st1 final h
        refine ⟨hel.trans hinitlen, ?_, ?_, ?_⟩
        · intro e he
          rw [he2, List.mem_append] at he
          rcases he with he | he
          · obtain ⟨v, wt, hedge, heq⟩ := hep e he
            subst heq
            exact ⟨EdgeTo_ok hw hh hedge, hecov v wt hedge⟩
          · exact absurd he (by simp)
        · intro z hz hfin
          by_cases hch : st1.dists.getD (distIdx g z.1 z.2.1 z.2.2) MAXD
              = (initState g).dists.getD (distIdx g z.1 z.2.1 z.2.2) MAXD
          · rw [hch, hinit_getD] at hfin
            exact absurd rfl hfin
          · obtain ⟨v, wt, hedge, hidx2, hval, hentry⟩ := hech _ hch
            have hvok : okNode g v := EdgeTo_ok hw hh hedge
            have hvz : v = z := distIdx_inj hsq hvok hz hidx2
            left
            rw [hval, ← hvz]
            exact hentry
        · intro v wt hedge
          have hc := hecov v wt hedge
          rw [Nat.zero_add] at hc
          exact hc
    · exact absurd h (by simp)

/-- Completeness at a successful exit: the stored distance of every on-grid
node is at most the cost of any run sequence reaching it. -/
theorem final_complete {g : DGrid} {mn mx : Nat} {final : List Nat}
    (hw : 0 < g.width) (hh : 0 < g.height)
    (hclosed : ∀ u, okNode g u →
      final.getD (distIdx g u.1 u.2.1 u.2.2) MAXD ≠ MAXD →
      ClosedAt g mn mx final u)
    (hstart : ∀ v wt, EdgeTo g mn mx (0, 0, 4) v wt →
      final.getD (distIdx g v.1 v.2.1 v.2.2) MAXD ≤ wt) :
    ∀ (u : Node17) (c : Nat), Reach g mn mx u c → c < MAXD →
      u = (0, 0, 4) ∨ final.getD (distIdx g u.1 u.2.1 u.2.2) MAXD ≤ c := by
  intro u c hr
  induction hr with
  | start =>
    intro _
    exact Or.inl rfl
  | @step u2 c2 v wt hu he ih =>
    intro hc
    right
    have hc2 : c2 < MAXD := by omega
    rcases ih hc2 with heq | hle
    · subst heq
      have hc0 : c2 = 0 := Reach_start_cost hu
      subst hc0
      rw [Nat.zero_add]
      exact hstart v wt he
    · rcases Reach_ok hw hh hu with heq | hok
      · subst heq
        have hc0 : c2 = 0 := Reach_start_cost hu
        subst hc0
        rw [Nat.zero_add]
        exact hstart v wt he
      · have hfin : final.getD (distIdx g u2.1 u2.2.1 u2.2.2) MAXD ≠ MAXD := by
          omega
        have := hclosed u2 hok hfin v wt he
        omega

/-- Unpacking a successful `min_heat_loss` run: the loop exits with a map in
which some end slot holds the returned value, and the value is the minimum of
the finite end-slot entries. -/
theorem minRun_value {fuel : Nat} {g : DGrid} {mn mx v : Nat}
    (h : minHeatLossRun fuel g mn mx = RunRes.value v) :
    ∃ final, searchLoop g mn mx fuel (initState g) = LoopRes.done final ∧
      endIdx g + 4 ≤ final.length ∧
      (∃ r, r < 4 ∧ final.getD (endIdx g + r) MAXD = v) ∧
      (∀ r, r < 4 → final.getD (endIdx g + r) MAXD ≠ MAXD →
        v ≤ final.getD (endIdx g + r) MAXD) ∧ v ≠ MAXD := by
  unfold minHeatLossRun at h
  rcases hloop : searchLoop g mn mx fuel (initState g) with _ | _ | final
  · rw [hloop] at h
    exact absurd h (by simp)
  · rw [hloop] at h
    exact absurd h (by simp)
  · rw [hloop] at h
    dsimp only at h
    split at h
    · rename_i hend
      rcases hmin : (((final.drop (endIdx g)).take 4).filter
          (fun d => decide (d ≠ MAXD))).min? with _ | w
      · rw [hmin] at h
        exact absurd h (by simp)
      · rw [hmin] at h
        injection h with h
        subst h
        have hmem := List.min?_mem (fun a b => min_choice a b) hmin
        have hleall := (List.le_min?_iff (fun a b c => le_min_iff) hmin).mp
          (Nat.le_refl w)
        rw [List.mem_filter] at hmem
        obtain ⟨hmem1, hmem2⟩ := hmem
        have hvne : w ≠ MAXD := by simpa using hmem2
        obtain ⟨r, hrlen, hget⟩ := List.mem_iff_getElem.mp hmem1
        have hlen4 : ((final.drop (endIdx g)).take 4).length = 4 := by
          rw [List.length_take, List.length_drop]
          omega
        have hr4 : r < 4 := by omega
        have hgetfin : final.getD (endIdx g + r) MAXD = w := by
          rw [List.getD_eq_getElem _ _ (by omega), ← hget,
            List.getElem_take, List.getElem_drop]
        refine ⟨final, rfl, hend, ⟨r, hr4, hgetfin⟩, ?_, hvne⟩
        intro r2 hr42 hne2
        apply hleall
        rw [List.mem_filter]
        constructor
        · rw [List.mem_iff_getElem]
          refine ⟨r2, by omega, ?_⟩
          rw [List.getElem_take, List.getElem_drop]
          exact (List.getD_eq_getElem _ _ (by omega)).symm
        · rw [decide_eq_true_eq]
          exact hne2
    · exact absurd h (by simp)

theorem end_slot_eq {g : DGrid} (hw : 0 < g.width) (hh : 0 < g.height) :
    endIdx g = (g.width * g.height - 1) * 4 := by
  unfold endIdx
  have h1 : (g.height - 1) * g.width = g.height * g.width - g.width :=
    Nat.sub_one_mul _ _
  have h2 : g.width ≤ g.height * g.width := Nat.le_mul_of_pos_left _ hh
  have h3 : g.height * g.width = g.width * g.height := Nat.mul_comm _ _
  omega

/-- A node can map to the last cell's slot block only on a single-column or
square grid. -/
theorem square_of_end_reached {g : DGrid} {x y : Nat}
    (hx : x < g.width) (hy : y < g.height)
    (he : x * g.width + y = g.width * g.height - 1)
    (hw2 : 2 ≤ g.width * g.height) :
    g.width = 1 ∨ g.width = g.height := by
  by_cases h1 : g.width = 1
  · exact Or.inl h1
  · right
    have hw2' : 2 ≤ g.width := by omega
    rcases Nat.lt_trichotomy g.width g.height with hlt | heq | hgt
    · exfalso
      have hx1 : x * g.width ≤ (g.width - 1) * g.width :=
        Nat.mul_le_mul_right _ (by omega)
      have e1 : (g.width - 1) * g.width = g.width * g.width - g.width :=
        Nat.sub_one_mul _ _
      have e2 : g.width * g.height
          = g.width * g.width + g.width * (g.height - g.width) := by
        rw [← Nat.mul_add]
        congr 1
        omega
      have e4 : g.width ≤ g.width * g.width := Nat.le_mul_of_pos_left _ (by omega)
      have e5 : 2 * (g.height - g.width) ≤ g.width * (g.height - g.width) :=
        Nat.mul_le_mul_right _ (by omega)
      omega
    · exact heq
    · exfalso
      have hxh : x < g.height := by
        have h6 : g.width * g.height = g.height * g.width := Nat.mul_comm _ _
        have h5 : x * g.width < g.height * g.width := by omega
        exact Nat.lt_of_mul_lt_mul_right h5
      have hx1 : x * g.width ≤ (g.height - 1) * g.width :=
        Nat.mul_le_mul_right _ (by omega)
      have e1 : (g.height - 1) * g.width = g.height * g.width - g.width :=
        Nat.sub_one_mul _ _
      have h6 : g.width * g.height = g.height * g.width := Nat.mul_comm _ _
      have h7 : g.width ≤ g.height * g.width := Nat.le_mul_of_pos_left _ (by omega)
      omega

theorem initState_getD (g : DGrid) (m : Nat) :
    (initState g).dists.getD m MAXD = MAXD := by
  rcases Nat.lt_or_ge m ((initState g).dists.length) with hm | hm
  · rw [List.getD_eq_getElem _ _ hm]
    exact List.getElem_replicate _ _
  · rw [List.getD_eq_getElem?_getD, List.getElem?_eq_none (by omega)]
    rfl

/-- C6: for a fixed `max_steps`, raising `min_steps` never lowers the optimal
cost. Whenever both runs of `min_heat_loss` terminate with an answer (no
out-of-bounds or unwrap panic, enough loop iterations), the answer for the
more constrained `min_steps' ≥ min_steps` is at least the answer for
`min_steps`: the edges explored with `min_steps'` are a subset of those
explored with `min_steps`, whose run is a complete relaxation. -/
theorem min_heat_loss_min_steps_monotone (g : DGrid)
    (mn mn' mx fuel fuel' v v' : Nat)
    (hmn : 1 ≤ mn) (hle : mn ≤ mn') (hmx : mn' ≤ mx)
    (hrun : minHeatLossRun fuel g mn mx = RunRes.value v)
    (hrun' : minHeatLossRun fuel' g mn' mx = RunRes.value v') :
    v ≤ v' := by
  obtain ⟨final, hloop, hend, ⟨r, hr4, hslot⟩, hminp, hvne⟩ := minRun_value hrun
  obtain ⟨final', hloop', hend', ⟨r', hr4', hslot'⟩, hminp', hvne'⟩ :=
    minRun_value hrun'
  have hpos := searchLoop_init_pos hloop
  have hw : 0 < g.width := by
    rcases Nat.eq_zero_or_pos g.width with hz | hp
    · rw [hz, Nat.zero_mul] at hpos
      omega
    · exact hp
  have hh : 0 < g.height := by
    rcases Nat.eq_zero_or_pos g.height with hz | hp
    · rw [hz, Nat.mul_zero] at hpos
      omega
    · exact hp
  have hmn2 : 1 ≤ mn' := by omega
  have hsinv : SoundInv g mn' mx (initState g) := by
    constructor
    · intro e he
      left
      have he' : e ∈ [((0 : Nat), ((0 : Nat), (0 : Nat), (4 : Nat)))] := he
      rw [List.mem_singleton] at he'
      exact he'
    · intro m hm
      exact absurd (initState_getD g m) hm
  have hsound := searchLoop_sound hmn2 hw hh fuel' (initState g) final' hloop' hsinv
  have hfin' : final'.getD (endIdx g + r') MAXD ≠ MAXD := by
    rw [hslot']
    exact hvne'
  obtain ⟨u, c, hok, hidxu, hreach', hval⟩ := hsound _ hfin'
  have hcv : c = v' := by
    rw [hval] at hslot'
    exact hslot'
  rw [hcv] at hval hreach'
  have hend_eq := end_slot_eq hw hh (g := g)
  have hbase : u.1 * g.width + u.2.1 = g.width * g.height - 1 ∧ u.2.2 = r' := by
    have hidxu2 : (u.1 * g.width + u.2.1) * 4 + u.2.2
        = (g.width * g.height - 1) * 4 + r' := by
      unfold distIdx at hidxu
      rw [hend_eq] at hidxu
      exact hidxu
    have hd4 := hok.2.2
    omega
  have hsq := square_of_end_reached hok.1 hok.2.1 hbase.1 hpos
  obtain ⟨hflen, hclosed, hstart⟩ := searchLoop_init_closed hmn hsq hloop
  have hmono := searchLoop_le fuel' (initState g) final' hloop' (endIdx g + r')
  rw [initState_getD] at hmono
  have hvlt : v' < MAXD := by
    rw [hval] at hmono
    omega
  have hreach : Reach g mn mx u v' := Reach_mono hle hreach'
  have hcomp := final_complete hw hh hclosed hstart u v' hreach hvlt
  rcases hcomp with heq | hfle
  · exfalso
    have hd := hok.2.2
    rw [heq] at hd
    exact absurd hd (by decide)
  · rw [hidxu] at hfle
    have hne : final.getD (endIdx g + r') MAXD ≠ MAXD := by omega
    have hvm := hminp r' hr4' hne
    omega

/-- Witness for `min_heat_loss_min_steps_monotone` on the 3×3 unit-cost grid
with `min_steps = 1`, `min_steps' = 2`, `max_steps = 2`: both runs return 4. -/
theorem min_heat_loss_min_steps_monotone_witness :
    (1 ≤ 1 ∧ 1 ≤ 2 ∧ 2 ≤ 2 ∧
      minHeatLossRun 30 ⟨[1, 1, 1, 1, 1, 1, 1, 1, 1], 3, 3⟩ 1 2 = RunRes.value 4 ∧
      minHeatLossRun 30 ⟨[1, 1, 1, 1, 1, 1, 1, 1, 1], 3, 3⟩ 2 2 = RunRes.value 4) ∧
    4 ≤ 4 :=
  ⟨⟨by decide, by decide, by decide, by decide, by decide⟩,
    min_heat_loss_min_steps_monotone ⟨[1, 1, 1, 1, 1, 1, 1, 1, 1], 3, 3⟩
      1 2 2 30 30 4 4 (by decide) (by decide) (by decide) (by decide) (by decide)⟩
